import Mathlib

/-!
# Verification of the `myers-diff` JavaScript library

A shallow embedding of `src/myers.js` (the `Encoder`, `EncodeContext` and `Myers`
classes) together with proofs about the embedded definitions.

Modelling conventions, chosen to mirror JavaScript semantics:

* The `lhs`/`rhs` arguments of `Myers.diff` are modelled by `Input`
  (`undefined`, `null`, or a string): these are the values the library's own
  checks and guards distinguish.
* A JS object used as a string-keyed table (`Encoder.diff_codes`) is modelled by
  an association list in insertion order.
* A JS object used as an integer-keyed dense table (`EncodeContext._codes`) is
  modelled by a `List Nat`; out-of-range reads (`undefined` in JS) are modelled
  by `Option` with `none`, and the JS `===` comparison of two possibly-undefined
  reads by equality of the `Option` values (`undefined === undefined` is true,
  matching `none = none`).
* The marker table `EncodeContext._modified` is a JS object read and written at
  integer keys; every read in the source
  (`!m[i]`, `m[i] === undefined || m[i] === false`, `m[i] === true`) treats a
  missing entry exactly like `false`, and every read is at a position
  `0 ≤ i < length` of the owning side.  It is therefore modelled as a dense
  `List Bool` of that length (`modGet`/`modSet` below), missing entries reading
  as `false`.
* A compiled split regex is modelled by its splitting behaviour, a function
  `String → List String`.
* JS `while` loops whose guard bounds the iteration count are written as
  structural recursion on that bound (so that every definition is executable by
  kernel reduction); in each case the guard makes the fuel exact, never cutting
  a loop short.
-/

set_option maxHeartbeats 1000000

namespace MyersDiff

/-- A JavaScript value passed as the `lhs`/`rhs` argument of `Myers.diff`:
`undefined`, `null`, or a string. -/
inductive Input where
  | undef
  | null
  | str (s : String)
deriving DecidableEq

/-- The characters matched by the JS regex class `\s` (used by
`line.replace(/\s+/g, '')` in `EncodeContext._init`). -/
def isJsWhitespace (c : Char) : Bool :=
  c = ' ' || c = '\t' || c = '\n' || c = '\r' || c = '\x0b' || c = '\x0c' ||
  c.val = 0xa0 || c.val = 0x1680 || (0x2000 ≤ c.val && c.val ≤ 0x200a) ||
  c.val = 0x2028 || c.val = 0x2029 || c.val = 0x202f || c.val = 0x205f ||
  c.val = 0x3000 || c.val = 0xfeff

/-- `line.replace(/\s+/g, '')`: removes every whitespace character. -/
def stripWs (s : String) : String :=
  String.mk (s.toList.filter (fun c => !(isJsWhitespace c)))

/-- `text.split(re)` for a single-character separator pattern (the default
`splitLinesRegex: '\n'` and `splitWordsRegex: '[ ]{1}'` are such patterns):
split at every occurrence of the separator, keeping empty pieces. -/
def splitOnCharAux (sep : Char) : List Char → List Char → List String
  | [], acc => [String.mk acc.reverse]
  | c :: cs, acc =>
    if c = sep then String.mk acc.reverse :: splitOnCharAux sep cs []
    else splitOnCharAux sep cs (c :: acc)

def splitOnChar (sep : Char) (s : String) : List String :=
  splitOnCharAux sep s.toList []

/-- The settings object, after `Object.assign(Myers._getDefaultSettings(), options)`.
Since `Object.assign` lets `options` override any field, an arbitrary options
object is modelled by an arbitrary `Settings` value; `Myers._getDefaultSettings()`
is `defaultSettings` below.  The three `split*Regex` strings are modelled by the
splitting behaviour of the compiled regex. -/
structure Settings where
  compare : String
  ignoreWhitespace : Bool
  splitLines : String → List String
  splitWords : String → List String
  splitChars : String → List String

/-- `Myers._getDefaultSettings()`: `compare: 'lines'`, `ignoreWhitespace: false`,
`splitLinesRegex: '\n'` (split on newline), `splitWordsRegex: '[ ]{1}'` (split on
a single space), `splitCharsRegex: ''` (the empty pattern, which splits into
single characters). -/
def defaultSettings : Settings where
  compare := "lines"
  ignoreWhitespace := false
  splitLines := splitOnChar '\n'
  splitWords := splitOnChar ' '
  splitChars := fun s => s.toList.map (fun c => String.mk [c])

/-- Regex selection in the `EncodeContext` constructor: `chars` and `words`
pick their split patterns, anything else (the default) splits lines. -/
def splitText (settings : Settings) (text : String) : List String :=
  if settings.compare = "chars" then settings.splitChars text
  else if settings.compare = "words" then settings.splitWords text
  else settings.splitLines text

/-- The `EncodeContext` constructor's treatment of `text`: a string that is
non-empty (`text && text.length`) is split; `null` or an empty string yields
zero lines. -/
def ctxLines (settings : Settings) : Input → List String
  | .str t => if t.length = 0 then [] else splitText settings t
  | _ => []

/-- The `Encoder` class: a counter (`this.code`, starting at 0) and the
string-keyed code table (`this.diff_codes`), modelled as an association list in
insertion order. -/
structure Encoder where
  code : Nat
  diff_codes : List (String × Nat)
deriving DecidableEq

/-- `new Encoder()`. -/
def Encoder.init : Encoder := { code := 0, diff_codes := [] }

/-- `Encoder.getCode(line)`: the table read `this.diff_codes[line]` as an
association-list lookup, `undefined` (`none`) when the key is absent.
`diff_codes` is a plain `{}`, so the real read also consults the prototype
chain: a line named after an `Object.prototype` member yields the inherited
member instead of `undefined` (`Encoder.getCodeJs` below models this
faithfully).  Downstream of encoding the pipeline compares codes only with
`===`, and the inherited members are fixed, pairwise-distinct, non-integer
values — one per member name — so this `Nat`-code model, which renames each of
them to the fresh integer the counter would have produced, preserves every
comparison the pipeline makes.  Statements about the code values themselves
(C5) or about recovering lines from codes (C7) use the faithful
`Encoder.getCodeJs` / `getLineJs` model. -/
def Encoder.getCode (e : Encoder) (line : String) : Option Nat :=
  e.diff_codes.lookup line

/-- `Encoder.newCode(line)`: increments the counter, records the mapping,
returns the new code. -/
def Encoder.newCode (e : Encoder) (line : String) : Encoder × Nat :=
  let c := e.code + 1
  ({ code := c, diff_codes := e.diff_codes ++ [(line, c)] }, c)

/-- The token actually interned for a raw token: the line after the
`if (settings.ignoreWhitespace) line = line.replace(/\s+/g, '')` step of
`EncodeContext._init`. -/
def normTok (settings : Settings) (l : String) : String :=
  if settings.ignoreWhitespace then stripWs l else l

/-- One iteration of the loop in `EncodeContext._init`: normalize the line when
`ignoreWhitespace` is set, then reuse an existing code or allocate a new one. -/
def encodeOne (e : Encoder) (settings : Settings) (line0 : String) : Encoder × Nat :=
  match e.getCode (normTok settings line0) with
  | some c => (e, c)
  | none => e.newCode (normTok settings line0)

/-- The whole `_init` loop over `lines`, producing the `_codes` table as a list
(position `i` holds the code of line `i`). -/
def encodeAll (e : Encoder) (settings : Settings) : List String → Encoder × List Nat
  | [] => (e, [])
  | l :: ls =>
    let p1 := encodeOne e settings l
    let p2 := encodeAll p1.1 settings ls
    (p2.1, p1.2 :: p2.2)

/-- An `EncodeContext`: the `_codes` table (dense, position-indexed) and the
`_modified` marker table. -/
structure EncodeContext where
  codes : List Nat
  modified : List Bool
deriving DecidableEq

/-- `encoder.encode(text, settings)` = `new EncodeContext(encoder, text, settings)`:
split the text and run `_init`.  The fresh `_modified` table is empty (every
read yields `undefined`, i.e. `false`). -/
def Encoder.encode (e : Encoder) (text : Input) (settings : Settings) :
    Encoder × EncodeContext :=
  let p := encodeAll e settings (ctxLines settings text)
  (p.1, { codes := p.2, modified := List.replicate p.2.length false })

/-- The `for (key in keyCodes)` search in `EncodeContext.getLine`: the first key
(in insertion order) whose code equals `ckey`. -/
def findKeyOfCode : List (String × Nat) → Nat → Option String
  | [], _ => none
  | (k, v) :: rest, c => if v = c then some k else findKeyOfCode rest c

/-- `EncodeContext.getLine(n)`: `undefined` when `n` is not a position of
`_codes`; otherwise the key of the encoder's table holding the code at `n`.
The `encoder` argument is the (shared) encoder as it stands when `getLine` is
called, i.e. after both sides were encoded. -/
def getLine (e : Encoder) (ctx : EncodeContext) (n : Nat) : Option String :=
  match ctx.codes.get? n with
  | none => none
  | some ckey => findKeyOfCode e.diff_codes ckey

/-- The property names of `Object.prototype`.  `diff_codes` is the plain object
literal `{}`, so the property read `this.diff_codes[line]` falls back to the
prototype chain: for exactly these keys it yields the inherited member — a
function, or `Object.prototype` itself for `__proto__` — instead of
`undefined`. -/
def objectProtoKeys : List String :=
  ["constructor", "hasOwnProperty", "isPrototypeOf", "propertyIsEnumerable",
   "toLocaleString", "toString", "valueOf", "__defineGetter__",
   "__defineSetter__", "__lookupGetter__", "__lookupSetter__", "__proto__"]

/-- Whether a (normalized) token is named after an `Object.prototype`
member. -/
def protoKey (t : String) : Bool := objectProtoKeys.contains t

/-- A JavaScript value stored as a "code" by `EncodeContext._init`: an integer
allocated by `Encoder.newCode`, or the `Object.prototype` member inherited
through the prototype chain by a token named after it.  Every read of an
inherited member returns the same object, so modelling it by its key is
faithful to `===`. -/
inductive JsCode where
  | int (n : Nat)
  | protoMember (name : String)
deriving DecidableEq

/-- `Encoder.getCode(line)` with the prototype chain of the plain-object table
modelled faithfully: an own entry wins; an absent key naming an
`Object.prototype` member yields the inherited member; any other absent key
yields `undefined` (`none`). -/
def Encoder.getCodeJs (e : Encoder) (line : String) : Option JsCode :=
  match e.diff_codes.lookup line with
  | some c => some (JsCode.int c)
  | none => if protoKey line then some (JsCode.protoMember line) else none

/-- One iteration of the `_init` loop under the faithful prototype-chain model:
the `aCode !== undefined` guard keeps any inherited member, so `newCode` runs
only for tokens that are not `Object.prototype` member names. -/
def encodeOneJs (e : Encoder) (settings : Settings) (line0 : String) : Encoder × JsCode :=
  match e.getCodeJs (normTok settings line0) with
  | some c => (e, c)
  | none =>
    let p := e.newCode (normTok settings line0)
    (p.1, JsCode.int p.2)

/-- The `_init` loop over `lines` under the faithful prototype-chain model. -/
def encodeAllJs (e : Encoder) (settings : Settings) : List String → Encoder × List JsCode
  | [] => (e, [])
  | l :: ls =>
    let p1 := encodeOneJs e settings l
    let p2 := encodeAllJs p1.1 settings ls
    (p2.1, p1.2 :: p2.2)

/-- The `for (key in keyCodes)` scan of `EncodeContext.getLine` under the
faithful model: the table's own values are all integers, so a position holding
an inherited prototype member matches no key and the scan falls through to
`undefined`. -/
def findKeyOfCodeJs : List (String × Nat) → JsCode → Option String
  | [], _ => none
  | (k, v) :: rest, c => if JsCode.int v = c then some k else findKeyOfCodeJs rest c

/-- `EncodeContext.getLine(n)` under the faithful prototype-chain model, for a
context whose `_codes` positions hold the given JavaScript values. -/
def getLineJs (e : Encoder) (codes : List JsCode) (n : Nat) : Option String :=
  match codes.get? n with
  | none => none
  | some ckey => findKeyOfCodeJs e.diff_codes ckey

/-! ## `Myers.compare_lcs` (the change builder) -/

/-- One emitted change record.  `lhsAt`/`del` are the source's `item.lhs.at` and
`item.lhs.del`; `rhsAt`/`add` are `item.rhs.at` and `item.rhs.add`. -/
structure ChangeItem where
  lhsAt : Nat
  del : Nat
  rhsAt : Nat
  add : Nat
deriving DecidableEq, Repr

/-- Reading `_modified[i]`: `false` for a missing entry (negative or
out-of-range `i`). -/
def modGet (m : List Bool) (i : Int) : Bool :=
  if i < 0 then false else m.getD i.toNat false

/-- Writing `_modified[i] = b`; a write outside `0 ≤ i < length` is dropped,
which is unobservable since no such position is ever read. -/
def modSet (m : List Bool) (i : Int) (b : Bool) : List Bool :=
  if i < 0 then m else m.set i.toNat b

/-- The loop `while (lhs_line < lhs_codes_length && (rhs_line >= rhs_codes_length
|| lhs_modified[lhs_line])) lhs_line++`.  The guard requires `l < lhsLen` and `l`
increases by 1 each iteration, so `lhsLen - l` rounds of fuel are exact. -/
def advLAux (lm : List Bool) (lhsLen rhsLen r : Nat) : Nat → Nat → Nat
  | 0, l => l
  | fuel + 1, l =>
    if l < lhsLen ∧ (rhsLen ≤ r ∨ modGet lm l = true) then advLAux lm lhsLen rhsLen r fuel (l + 1)
    else l

def advLhs (lm : List Bool) (lhsLen rhsLen l r : Nat) : Nat :=
  advLAux lm lhsLen rhsLen r (lhsLen - l) l

/-- The symmetric loop advancing `rhs_line`; note the source runs it after the
`lhs_line` loop, so it reads the already-advanced `lhs_line` (here `l`). -/
def advRAux (rm : List Bool) (lhsLen rhsLen l : Nat) : Nat → Nat → Nat
  | 0, r => r
  | fuel + 1, r =>
    if r < rhsLen ∧ (lhsLen ≤ l ∨ modGet rm r = true) then advRAux rm lhsLen rhsLen l fuel (r + 1)
    else r

def advRhs (rm : List Bool) (lhsLen rhsLen l r : Nat) : Nat :=
  advRAux rm lhsLen rhsLen l (rhsLen - r) r

/-- The `item` built by `compare_lcs` when a span was consumed:
`at: Math.min(start, len ? len - 1 : 0)`, counts are the span widths. -/
def mkItem (lhsLen rhsLen l r l2 r2 : Nat) : ChangeItem where
  lhsAt := min l (if lhsLen = 0 then 0 else lhsLen - 1)
  del := l2 - l
  rhsAt := min r (if rhsLen = 0 then 0 else rhsLen - 1)
  add := r2 - r

/-- The main `while (lhs_line < lhs_codes_length || rhs_line < rhs_codes_length)`
loop of `Myers.compare_lcs`, with the emitted items collected in order.  Each
iteration strictly increases `l + r` (see `compareLcsAux_measure`), so the fuel
used by `compareLcs` is never exhausted. -/
def compareLcsAux (lm : List Bool) (lhsLen : Nat) (rm : List Bool) (rhsLen : Nat) :
    Nat → Nat → Nat → List ChangeItem
  | 0, _, _ => []
  | fuel + 1, l, r =>
    if l < lhsLen ∨ r < rhsLen then
      if l < lhsLen ∧ modGet lm l = false ∧ r < rhsLen ∧ modGet rm r = false then
        compareLcsAux lm lhsLen rm rhsLen fuel (l + 1) (r + 1)
      else
        let l2 := advLhs lm lhsLen rhsLen l r
        let r2 := advRhs rm lhsLen rhsLen l2 r
        let rest := compareLcsAux lm lhsLen rm rhsLen fuel l2 r2
        if l < l2 ∨ r < r2 then mkItem lhsLen rhsLen l r l2 r2 :: rest else rest
    else []

/-- `Myers.compare_lcs` (equivalently `Myers.CompareLCS`), returning the list of
emitted items in order. -/
def compareLcs (lm : List Bool) (lhsLen : Nat) (rm : List Bool) (rhsLen : Nat) :
    List ChangeItem :=
  compareLcsAux lm lhsLen rm rhsLen (lhsLen + rhsLen + 1) 0 0

/-! ## `Myers.getShortestMiddleSnake`

The two diagonal vectors are JS arrays written and read at indices
`offset_down + k` / `offset_up + k`; they are modelled as total functions
`Int → Int`.  Every read the loops perform is of a cell written earlier in the
same call (the seeds, or a cell of the opposite parity written in the previous
`d`-phase), so the default value of the model is never observed; the vectors
being reused across recursive `getLongestCommonSubsequence` calls is therefore
also unobservable, and each call starts from fresh vectors. -/

/-- `arr[i]` on a JS array modelled as a list: `undefined` (`none`) when out of
range. -/
def getI (l : List Nat) (i : Int) : Option Nat :=
  if i < 0 then none else l.get? i.toNat

/-- Pointwise update of an `Int`-indexed vector. -/
def updI (f : Int → Int) (i : Int) (v : Int) : Int → Int :=
  fun j => if j = i then v else f j

/-- The forward snake loop
`while (x < lhs_upper && y < rhs_upper && lhs_codes[x] === rhs_codes[y]) { x++; y++; }`
with `y = x - k` throughout.  The guard requires `x < lu`, so `(lu - x).toNat`
rounds of fuel are exact. -/
def fwdSnakeAux (L R : List Nat) (lu ru k : Int) : Nat → Int → Int
  | 0, x => x
  | fuel + 1, x =>
    if x < lu ∧ x - k < ru ∧ getI L x = getI R (x - k) then
      fwdSnakeAux L R lu ru k fuel (x + 1)
    else x

def fwdSnake (L R : List Nat) (lu ru k x0 : Int) : Int :=
  fwdSnakeAux L R lu ru k (lu - x0).toNat x0

/-- The backward snake loop
`while (x > lhs_lower && y > rhs_lower && lhs_codes[x-1] === rhs_codes[y-1]) { x--; y--; }`
with `y = x - k` throughout. -/
def bwdSnakeAux (L R : List Nat) (ll rl k : Int) : Nat → Int → Int
  | 0, x => x
  | fuel + 1, x =>
    if ll < x ∧ rl < x - k ∧ getI L (x - 1) = getI R (x - k - 1) then
      bwdSnakeAux L R ll rl k fuel (x - 1)
    else x

def bwdSnake (L R : List Nat) (ll rl k x0 : Int) : Int :=
  bwdSnakeAux L R ll rl k (x0 - ll).toNat x0

/-- The constants of one `getShortestMiddleSnake` call. -/
structure SmsEnv where
  L : List Nat
  R : List Nat
  ll : Int
  lu : Int
  rl : Int
  ru : Int
  kdown : Int
  kup : Int
  odd : Bool
  odown : Int
  oup : Int

/-- One iteration of the forward `for (k = kdown - d; k <= kdown + d; k += 2)`
body: pick the starting `x` (down or right), slide the snake, store
`vector_d[offset_down + k]`, and test the (odd-delta) overlap.  `Sum.inr` is the
early `return` with the midpoint. -/
def fwdStep (env : SmsEnv) (d : Nat) (vu vd : Int → Int) (k : Int) :
    (Int → Int) ⊕ (Int × Int) :=
  let x0 : Int :=
    if k = env.kdown - d then vd (env.odown + k + 1)
    else
      let xr := vd (env.odown + k - 1) + 1
      if k < env.kdown + d ∧ xr ≤ vd (env.odown + k + 1) then vd (env.odown + k + 1) else xr
  let x := fwdSnake env.L env.R env.lu env.ru k x0
  let vd2 := updI vd (env.odown + k) x
  if env.odd ∧ env.kup - d < k ∧ k < env.kup + d ∧ vu (env.oup + k) ≤ x then
    Sum.inr (x, x - k)
  else Sum.inl vd2

/-- One iteration of the reverse `for (k = kup - d; k <= kup + d; k += 2)` body;
on overlap the midpoint returned is read from `vector_d` (the source's
`ret.x = vector_d[offset_down + k]`). -/
def bwdStep (env : SmsEnv) (d : Nat) (vd vu : Int → Int) (k : Int) :
    (Int → Int) ⊕ (Int × Int) :=
  let x0 : Int :=
    if k = env.kup + d then vu (env.oup + k - 1)
    else
      let xl := vu (env.oup + k + 1) - 1
      if env.kup - d < k ∧ vu (env.oup + k - 1) < xl then vu (env.oup + k - 1) else xl
  let x := bwdSnake env.L env.R env.ll env.rl k x0
  let vu2 := updI vu (env.oup + k) x
  if (!env.odd) ∧ env.kdown - d ≤ k ∧ k ≤ env.kdown + d ∧ x ≤ vd (env.odown + k) then
    Sum.inr (vd (env.odown + k), vd (env.odown + k) - k)
  else Sum.inl vu2

/-- The forward `k`-loop at phase `d`, threading `vector_d`. -/
def fwdLoop (env : SmsEnv) (d : Nat) (vu : Int → Int) :
    (Int → Int) → List Int → (Int → Int) ⊕ (Int × Int)
  | vd, [] => Sum.inl vd
  | vd, k :: ks =>
    match fwdStep env d vu vd k with
    | Sum.inr p => Sum.inr p
    | Sum.inl vd2 => fwdLoop env d vu vd2 ks

/-- The reverse `k`-loop at phase `d`, threading `vector_u`. -/
def bwdLoop (env : SmsEnv) (d : Nat) (vd : Int → Int) :
    (Int → Int) → List Int → (Int → Int) ⊕ (Int × Int)
  | vu, [] => Sum.inl vu
  | vu, k :: ks =>
    match bwdStep env d vd vu k with
    | Sum.inr p => Sum.inr p
    | Sum.inl vu2 => bwdLoop env d vd vu2 ks

/-- The diagonals visited by a `for (k = base - d; k <= base + d; k += 2)` loop. -/
def kList (base : Int) (d : Nat) : List Int :=
  (List.range (d + 1)).map (fun i => base - d + 2 * (i : Int))

/-- The outer `for (d = 0; d <= maxd; ++d)` loop.  `rem` is the number of
remaining phases; when it reaches 0 the source executes
`throw new Error('unexpected state')`, modelled as `none`. -/
def smsPhases (env : SmsEnv) : Nat → Nat → (Int → Int) → (Int → Int) → Option (Int × Int)
  | 0, _, _, _ => none
  | rem + 1, d, vd, vu =>
    match fwdLoop env d vu vd (kList env.kdown d) with
    | Sum.inr p => some p
    | Sum.inl vd2 =>
      match bwdLoop env d vd2 vu (kList env.kup d) with
      | Sum.inr p => some p
      | Sum.inl vu2 => smsPhases env rem (d + 1) vd2 vu2

/-- `Myers.getShortestMiddleSnake`.  `maxd` is computed in JS float arithmetic as
`(lhs_upper - lhs_lower + rhs_upper - rhs_lower) / 2 + 1`; the loop counter `d`
is an integer, so the loop runs for `d = 0, …, ⌊maxd⌋`, i.e. `⌊s/2⌋ + 2` phases
(and none when that is not positive).  `none` models the final
`throw new Error('unexpected state')`. -/
def getShortestMiddleSnake (L : List Nat) (lhsLen : Nat) (ll lu : Int)
    (R : List Nat) (rhsLen : Nat) (rl ru : Int) : Option (Int × Int) :=
  let maxSum : Int := (lhsLen : Int) + (rhsLen : Int) + 1
  let kdown := ll - rl
  let kup := lu - ru
  let delta := (lu - ll) - (ru - rl)
  let env : SmsEnv :=
    { L := L, R := R, ll := ll, lu := lu, rl := rl, ru := ru,
      kdown := kdown, kup := kup,
      odd := delta % 2 ≠ 0,
      odown := maxSum - kdown, oup := maxSum - kup }
  let maxdFloor : Int := Int.fdiv (lu - ll + ru - rl) 2 + 1
  let vd0 := updI (fun _ => 0) (env.odown + kdown + 1) ll
  let vu0 := updI (fun _ => 0) (env.oup + kup - 1) lu
  smsPhases env (maxdFloor + 1).toNat 0 vd0 vu0

/-! ## `Myers.getLongestCommonSubsequence` and `Myers.LCS` -/

/-- The `while (rhs_lower < rhs_upper) modified[rhs_lower++] = true` loop:
mark the (integer) positions `lo, lo+1, …` below `hi` as modified. -/
def markRangeAux (lo : Int) : Nat → List Bool → List Bool
  | 0, m => m
  | n + 1, m => markRangeAux (lo + 1) n (modSet m lo true)

def markRange (m : List Bool) (lo hi : Int) : List Bool :=
  markRangeAux lo (hi - lo).toNat m

/-- The leading trim loop of `getLongestCommonSubsequence`: advance both lower
bounds while the first remaining codes agree. -/
def trimFrontAux (L R : List Nat) (lu ru : Int) : Nat → Int → Int → Int × Int
  | 0, ll, rl => (ll, rl)
  | fuel + 1, ll, rl =>
    if ll < lu ∧ rl < ru ∧ getI L ll = getI R rl then trimFrontAux L R lu ru fuel (ll + 1) (rl + 1)
    else (ll, rl)

def trimFront (L R : List Nat) (ll lu rl ru : Int) : Int × Int :=
  trimFrontAux L R lu ru (lu - ll).toNat ll rl

/-- The trailing trim loop: retreat both upper bounds while the last remaining
codes agree. -/
def trimEndAux (L R : List Nat) (ll rl : Int) : Nat → Int → Int → Int × Int
  | 0, lu, ru => (lu, ru)
  | fuel + 1, lu, ru =>
    if ll < lu ∧ rl < ru ∧ getI L (lu - 1) = getI R (ru - 1) then
      trimEndAux L R ll rl fuel (lu - 1) (ru - 1)
    else (lu, ru)

def trimEnd (L R : List Nat) (ll lu rl ru : Int) : Int × Int :=
  trimEndAux L R ll rl (lu - ll).toNat lu ru

/-- `Myers.getLongestCommonSubsequence`, with explicit recursion fuel bounding
the recursion depth (the JS recursion's depth is bounded because every middle
snake splits its rectangle into strictly smaller halves; `none` models a
recursion that would not terminate, and also propagates the
`getShortestMiddleSnake` throw). -/
def lcsAux (L R : List Nat) (lhsLen rhsLen : Nat) :
    Nat → Int → Int → Int → Int → List Bool → List Bool →
    Option (List Bool × List Bool)
  | 0, _, _, _, _, _, _ => none
  | fuel + 1, ll0, lu0, rl0, ru0, lm, rm =>
    let f := trimFront L R ll0 lu0 rl0 ru0
    let e := trimEnd L R f.1 lu0 f.2 ru0
    let ll := f.1
    let rl := f.2
    let lu := e.1
    let ru := e.2
    if ll = lu then some (lm, markRange rm rl ru)
    else if rl = ru then some (markRange lm ll lu, rm)
    else
      match getShortestMiddleSnake L lhsLen ll lu R rhsLen rl ru with
      | none => none
      | some p =>
        match lcsAux L R lhsLen rhsLen fuel ll p.1 rl p.2 lm rm with
        | none => none
        | some ms => lcsAux L R lhsLen rhsLen fuel p.1 lu p.2 ru ms.1 ms.2

/-- `Myers.LCS`: run the recursion on the full ranges with fresh diagonal
vectors.  The fuel `lhsLen + rhsLen + 1` bounds the recursion depth. -/
def LCS (lm : List Bool) (L : List Nat) (lhsLen : Nat)
    (rm : List Bool) (R : List Nat) (rhsLen : Nat) :
    Option (List Bool × List Bool) :=
  lcsAux L R lhsLen rhsLen (lhsLen + rhsLen + 1) 0 lhsLen 0 rhsLen lm rm

/-! ## `Myers.optimize` -/

/-- The value of `ctx._codes.length` read by `Myers.optimize`.  `_codes` is a
plain object (`this._codes = {}` keyed by position), not an array, so it has no
`length` property and the read yields `undefined`. -/
def jsCodesLength : Option Nat := none

/-- The scan the body of `Myers.optimize` performs, given the value `len` it
uses for `ctx._codes.length`: skip the unmodified run, skip the following
modified run, and when the code at the run's start equals the code just past
its end, slide the run forward by one and rescan; otherwise continue after the
run.  Each iteration either advances `start` or performs a slide (which moves a
modified marker one position to the right), so `(len+1)*(len+1)` rounds of fuel
are more than the loop can use. -/
def optimizeScanStart (m : List Bool) (len : Nat) : Nat → Nat → Nat
  | 0, start => start
  | fuel + 1, start =>
    if start < len ∧ modGet m start = false then optimizeScanStart m len fuel (start + 1)
    else start

def optimizeScanEnd (m : List Bool) (len : Nat) : Nat → Nat → Nat
  | 0, e => e
  | fuel + 1, e =>
    if e < len ∧ modGet m e = true then optimizeScanEnd m len fuel (e + 1) else e

def optimizeLoop (codes : List Nat) (len : Nat) : Nat → Nat → List Bool → List Bool
  | 0, _, m => m
  | fuel + 1, start0, m =>
    if start0 < len then
      let start := optimizeScanStart m len (len - start0) start0
      let e := optimizeScanEnd m len (len - start) start
      if e < len ∧ getI codes start = getI codes e then
        optimizeLoop codes len fuel start (modSet (modSet m start false) e true)
      else optimizeLoop codes len fuel e m
    else m

/-- `Myers.optimize(ctx)`.  The loop condition is `start < ctx._codes.length`;
since `_codes.length` is `undefined` (see `jsCodesLength`), the comparison
`0 < undefined` is false and the loop body never runs: the markers are returned
unchanged. -/
def optimize (ctx : EncodeContext) : EncodeContext :=
  match jsCodesLength with
  | none => ctx
  | some len =>
    { ctx with modified := optimizeLoop ctx.codes len ((len + 1) * (len + 1)) 0 ctx.modified }

/-- The scan of `Myers.optimize` as it would behave had `ctx._codes.length`
yielded the number of positions (i.e. had `_codes` been an array): the
boundary-sliding pass the surrounding code and documentation intend. -/
def optimizeIntended (ctx : EncodeContext) : EncodeContext :=
  { ctx with
    modified :=
      optimizeLoop ctx.codes ctx.codes.length
        ((ctx.codes.length + 1) * (ctx.codes.length + 1)) 0 ctx.modified }

/-! ## `Myers.diff` -/

/-- The result of a successful `Myers.diff` call: the change list, both
contexts (whose `modified` tables the pipeline has filled in), and the final
shared encoder (each emitted item's `ctx` field references these). -/
structure DiffResult where
  changes : List ChangeItem
  lhsCtx : EncodeContext
  rhsCtx : EncodeContext
  encoder : Encoder
deriving DecidableEq

/-- `Myers.diff(lhs, rhs, options)`.

* `.error` models the `throw new Error('illegal argument …')` raised when an
  input is `undefined` (checked before the inputs are encoded).
* `.ok none` models an internal failure: the `unexpected state` throw of
  `getShortestMiddleSnake`, or exhaustion of the recursion-depth fuel.
* `settings` is the post-`Object.assign` settings object (see `Settings`).

The source computes `lhsCtx.length` via `Object.keys(this._codes).length`,
which is the number of encoded positions, i.e. `codes.length` here. -/
def diff (lhs rhs : Input) (settings : Settings) : Except String (Option DiffResult) :=
  if lhs = Input.undef then Except.error "illegal argument lhs"
  else if rhs = Input.undef then Except.error "illegal argument rhs"
  else
    let p1 := Encoder.init.encode lhs settings
    let p2 := p1.1.encode rhs settings
    let lhsCtx := p1.2
    let rhsCtx := p2.2
    match LCS lhsCtx.modified lhsCtx.codes lhsCtx.codes.length
        rhsCtx.modified rhsCtx.codes rhsCtx.codes.length with
    | none => Except.ok none
    | some ms =>
      let lhsCtx1 := optimize { lhsCtx with modified := ms.1 }
      let rhsCtx1 := optimize { rhsCtx with modified := ms.2 }
      let items := compareLcs lhsCtx1.modified lhsCtx1.codes.length
        rhsCtx1.modified rhsCtx1.codes.length
      Except.ok (some
        { changes := items, lhsCtx := lhsCtx1, rhsCtx := rhsCtx1, encoder := p2.1 })

/-! ## Derived definitions used by the specifications -/

/-- The successful payload of a `diff` call, if any. -/
def diffOk? (x : Except String (Option DiffResult)) : Option DiffResult :=
  match x with
  | Except.ok (some r) => some r
  | _ => none

/-- The clamped `at` position of an emitted record:
`Math.min(start, len ? len - 1 : 0)`. -/
def clampAt (p len : Nat) : Nat :=
  min p (if len = 0 then 0 else len - 1)

/-- The left positions covered by the records' delete spans, in emission
order. -/
def coveredL (items : List ChangeItem) : List Nat :=
  items.flatMap (fun it => List.range' it.lhsAt it.del)

/-- The right positions covered by the records' add spans, in emission
order. -/
def coveredR (items : List ChangeItem) : List Nat :=
  items.flatMap (fun it => List.range' it.rhsAt it.add)

/-- The shape facts of the change list built by `compare_lcs` from positions
`(l, r)` on: delete spans (as position lists) form a sublist of the remaining
left positions — so they are in range, in increasing order, and pairwise
disjoint — and symmetrically for add spans; positions not covered by any span
are unmodified; every record deletes or adds; `at` values are bounded below by
the clamped current position and non-decreasing, strictly increasing across
records with a non-empty span on that side; and both sides leave the same
number of positions uncovered. -/
def ItemsSpec (lm : List Bool) (llen : Nat) (rm : List Bool) (rlen : Nat)
    (l r : Nat) (its : List ChangeItem) : Prop :=
  (coveredL its).Sublist (List.range' l (llen - l)) ∧
  (coveredR its).Sublist (List.range' r (rlen - r)) ∧
  (∀ p, l ≤ p → p < llen → p ∉ coveredL its → modGet lm p = false) ∧
  (∀ p, r ≤ p → p < rlen → p ∉ coveredR its → modGet rm p = false) ∧
  (∀ it ∈ its, 0 < it.del ∨ 0 < it.add) ∧
  (∀ it ∈ its, clampAt l llen ≤ it.lhsAt ∧ clampAt r rlen ≤ it.rhsAt) ∧
  List.Chain' (· ≤ ·) (its.map (·.lhsAt)) ∧
  List.Chain' (· ≤ ·) (its.map (·.rhsAt)) ∧
  List.Chain' (· < ·) ((its.filter (fun it => 0 < it.del)).map (·.lhsAt)) ∧
  List.Chain' (· < ·) ((its.filter (fun it => 0 < it.add)).map (·.rhsAt)) ∧
  (coveredL its).length + (rlen - r) = (coveredR its).length + (llen - l)

/-- Dynamic-programming length of a longest common subsequence, with fuel
(`lcsLen` below supplies enough fuel for the recursion to run to completion). -/
def lcsLenAux : Nat → List Nat → List Nat → Nat
  | 0, _, _ => 0
  | _ + 1, [], _ => 0
  | _ + 1, _ :: _, [] => 0
  | n + 1, a :: xs, b :: ys =>
    if a = b then lcsLenAux n xs ys + 1
    else max (lcsLenAux n (a :: xs) ys) (lcsLenAux n xs (b :: ys))

/-- The length of a longest common subsequence of two code lists. -/
def lcsLen (xs ys : List Nat) : Nat := lcsLenAux (xs.length + ys.length) xs ys

/-- The codes at the unmarked positions of `codes`, reading positions from
`i` upward. -/
def unmarkedCodesFrom (m : List Bool) : Nat → List Nat → List Nat
  | _, [] => []
  | i, c :: cs =>
    if modGet m i then unmarkedCodesFrom m (i + 1) cs
    else c :: unmarkedCodesFrom m (i + 1) cs

/-- The codes at the positions not marked modified, in increasing position
order. -/
def unmarkedCodes (codes : List Nat) (m : List Bool) : List Nat :=
  unmarkedCodesFrom m 0 codes

/-- The sub-sequence of codes at positions `[a, b)`. -/
def seg (codes : List Nat) (a b : Nat) : List Nat :=
  (codes.drop a).take (b - a)

/-- The codes at the unmarked positions among positions `[a, b)`. -/
def unmarkedIn (codes : List Nat) (m : List Bool) (a b : Nat) : List Nat :=
  unmarkedCodesFrom m a (seg codes a b)

/-- The codes at (integer) positions `[a, b)`. -/
def segI (codes : List Nat) (a b : Int) : List Nat :=
  (codes.drop a.toNat).take (b - a).toNat

/-- The forward snake guard of `getShortestMiddleSnake` at column `t` of
diagonal `k`: both coordinates are strictly inside the rectangle's upper bounds
and the codes match. -/
def MF (env : SmsEnv) (k t : Int) : Prop :=
  t < env.lu ∧ t - k < env.ru ∧ getI env.L t = getI env.R (t - k)

/-- The backward snake guard at column `t` of diagonal `k`. -/
def MB (env : SmsEnv) (k t : Int) : Prop :=
  env.ll < t ∧ env.rl < t - k ∧ getI env.L (t - 1) = getI env.R (t - k - 1)

/-- Matched-pair capacity between the rectangle's origin and `(x, y)`, the
coordinates clamped to the rectangle's upper bounds. -/
def cF (env : SmsEnv) (x y : Int) : Nat :=
  lcsLen (segI env.L env.ll (min x env.lu)) (segI env.R env.rl (min y env.ru))

/-- Cost of a cheapest forward trace from the origin `(ll, rl)` to `(x, y)`:
unit cost per horizontal or vertical step, free diagonal steps on matching
codes strictly inside the rectangle.  (On in-rectangle points this is the
edit distance of the sub-rectangle; points beyond the upper bounds only add
unit steps.) -/
def eF (env : SmsEnv) (x y : Int) : Int :=
  (x - env.ll) + (y - env.rl) - 2 * (cF env x y : Int)

/-- Matched-pair capacity between `(x, y)` and the rectangle's far corner. -/
def cB (env : SmsEnv) (x y : Int) : Nat :=
  lcsLen (segI env.L (max x env.ll) env.lu) (segI env.R (max y env.rl) env.ru)

/-- Cost of a cheapest backward trace from `(x, y)` to the far corner
`(lu, ru)`. -/
def eB (env : SmsEnv) (x y : Int) : Int :=
  (env.lu - x) + (env.ru - y) - 2 * (cB env x y : Int)

/-- The edit distance of the whole rectangle. -/
def Dtot (env : SmsEnv) : Int :=
  (env.lu - env.ll) + (env.ru - env.rl) -
    2 * (lcsLen (segI env.L env.ll env.lu) (segI env.R env.rl env.ru) : Int)

/-- `x` is the furthest-reaching endpoint on diagonal `k` among points of
forward cost at most `d` (the grid extended beyond the rectangle's upper
bounds, as the source's unclipped `k`-loops require). -/
def IsFR (env : SmsEnv) (d k x : Int) : Prop :=
  env.ll ≤ x ∧ env.rl ≤ x - k ∧ eF env x (x - k) ≤ d ∧
  ∀ x', env.ll ≤ x' → env.rl ≤ x' - k → eF env x' (x' - k) ≤ d → x' ≤ x

/-- `x` is the furthest-reaching (smallest) endpoint on diagonal `k` among
points of backward cost at most `d`. -/
def IsBR (env : SmsEnv) (d k x : Int) : Prop :=
  x ≤ env.lu ∧ x - k ≤ env.ru ∧ eB env x (x - k) ≤ d ∧
  ∀ x', x' ≤ env.lu → x' - k ≤ env.ru → eB env x' (x' - k) ≤ d → x ≤ x'

/-- The codes at unmarked positions among the (integer) positions `[a, b)`. -/
def unmI (codes : List Nat) (m : List Bool) (a b : Int) : List Nat :=
  unmarkedCodesFrom m a.toNat (segI codes a b)

/-- The phase-`d` forward reaches are stored for the whole phase-`d` band. -/
def FBand (env : SmsEnv) (d : Int) (v : Int → Int) : Prop :=
  ∀ j : Int, env.kdown - d ≤ j → j ≤ env.kdown + d → (j - env.kdown + d) % 2 = 0 →
    IsFR env d j (v (env.odown + j))

/-- The phase-`d` backward reaches are stored for the whole phase-`d` band. -/
def BBand (env : SmsEnv) (d : Int) (v : Int → Int) : Prop :=
  ∀ j : Int, env.kup - d ≤ j → j ≤ env.kup + d → (j - env.kup + d) % 2 = 0 →
    IsBR env d j (v (env.oup + j))

/-- The rectangle of an `SmsEnv` has valid bounds within its code arrays. -/
def RectWF (env : SmsEnv) : Prop :=
  0 ≤ env.ll ∧ env.ll ≤ env.lu ∧ env.lu ≤ (env.L.length : Int) ∧
  0 ≤ env.rl ∧ env.rl ≤ env.ru ∧ env.ru ≤ (env.R.length : Int)

/-- Well-formedness of an `SmsEnv` as `getShortestMiddleSnake` builds it when
called from `getLongestCommonSubsequence` on a trimmed, non-degenerate
sub-rectangle: valid bounds, both ranges non-empty, and differing codes at
both corners. -/
def SmsWF (env : SmsEnv) : Prop :=
  0 ≤ env.ll ∧ env.ll < env.lu ∧ env.lu ≤ (env.L.length : Int) ∧
  0 ≤ env.rl ∧ env.rl < env.ru ∧ env.ru ≤ (env.R.length : Int) ∧
  env.kdown = env.ll - env.rl ∧ env.kup = env.lu - env.ru ∧
  (env.odd = true ↔ ((env.lu - env.ll) - (env.ru - env.rl)) % 2 ≠ 0) ∧
  getI env.L env.ll ≠ getI env.R env.rl ∧
  getI env.L (env.lu - 1) ≠ getI env.R (env.ru - 1)

/-- Table extension order on encoders: every recorded mapping is preserved. -/
def Encoder.le (e1 e2 : Encoder) : Prop :=
  ∀ k c, e1.getCode k = some c → e2.getCode k = some c

/-- The running invariant of the shared encoder after interning the (normalized)
tokens `seen`, in order: the counter equals the number of distinct tokens seen,
a token has a code iff it was seen, and the recorded codes are `1, 2, …`
in insertion order. -/
def EncInv (e : Encoder) (seen : List String) : Prop :=
  e.code = seen.toFinset.card ∧
  (∀ k, (e.getCode k).isSome ↔ k ∈ seen) ∧
  e.diff_codes.map Prod.snd = List.range' 1 e.code

/-! ## Basic lemmas about the encoder -/

theorem lookup_append_some {xs ys : List (String × Nat)} {k : String} {c : Nat}
    (h : xs.lookup k = some c) : (xs ++ ys).lookup k = some c := by
  induction xs with
  | nil => simp [List.lookup] at h
  | cons p rest ih =>
    obtain ⟨a, b⟩ := p
    simp only [List.lookup, List.cons_append] at h ⊢
    cases hk : (k == a) with
    | true => rw [hk] at h; simpa [hk] using h
    | false => rw [hk] at h; simpa [hk] using ih h

theorem lookup_append_none {xs ys : List (String × Nat)} {k : String}
    (h : xs.lookup k = none) : (xs ++ ys).lookup k = ys.lookup k := by
  induction xs with
  | nil => simp
  | cons p rest ih =>
    obtain ⟨a, b⟩ := p
    simp only [List.lookup, List.cons_append] at h ⊢
    cases hk : (k == a) with
    | true => rw [hk] at h; simp at h
    | false => rw [hk] at h; simpa [hk] using ih h

theorem Encoder.le_refl (e : Encoder) : e.le e := fun _ _ h => h

theorem Encoder.le_trans {e1 e2 e3 : Encoder} (h12 : e1.le e2) (h23 : e2.le e3) :
    e1.le e3 := fun k c h => h23 k c (h12 k c h)

theorem encodeOne_le (e : Encoder) (s : Settings) (l : String) :
    e.le (encodeOne e s l).1 := by
  unfold encodeOne
  cases h : e.getCode (normTok s l) with
  | some c => exact Encoder.le_refl e
  | none =>
    intro k c hk
    exact lookup_append_some hk

theorem encodeAll_le (e : Encoder) (s : Settings) (ls : List String) :
    e.le (encodeAll e s ls).1 := by
  induction ls generalizing e with
  | nil => exact Encoder.le_refl e
  | cons l ls ih =>
    exact Encoder.le_trans (encodeOne_le e s l) (ih (encodeOne e s l).1)

theorem encodeOne_getCode (e : Encoder) (s : Settings) (l : String) :
    (encodeOne e s l).1.getCode (normTok s l) = some (encodeOne e s l).2 := by
  unfold encodeOne
  cases h : e.getCode (normTok s l) with
  | some c => simpa using h
  | none =>
    simp only [Encoder.newCode, Encoder.getCode]
    rw [lookup_append_none h]
    simp [List.lookup]

theorem encodeOne_of_getCode {e : Encoder} {s : Settings} {l : String} {c : Nat}
    (h : e.getCode (normTok s l) = some c) : encodeOne e s l = (e, c) := by
  unfold encodeOne
  simp [h]

/-- Re-encoding a token list through any extension of the resulting encoder
reproduces the same codes and leaves the encoder unchanged. -/
theorem encodeAll_stable (s : Settings) (ls : List String) :
    ∀ (e e' : Encoder), (encodeAll e s ls).1.le e' →
      encodeAll e' s ls = (e', (encodeAll e s ls).2) := by
  induction ls with
  | nil => intro e e' _; rfl
  | cons l ls ih =>
    intro e e' hle
    have h1 : (encodeAll e s (l :: ls)).1 = (encodeAll (encodeOne e s l).1 s ls).1 := rfl
    rw [h1] at hle
    have hcode : e'.getCode (normTok s l) = some (encodeOne e s l).2 :=
      hle _ _ ((encodeAll_le (encodeOne e s l).1 s ls) _ _ (encodeOne_getCode e s l))
    have hone : encodeOne e' s l = (e', (encodeOne e s l).2) := encodeOne_of_getCode hcode
    show (let p1 := encodeOne e' s l
          let p2 := encodeAll p1.1 s ls
          (p2.1, p1.2 :: p2.2)) = _
    rw [hone]
    simp only []
    rw [ih (encodeOne e s l).1 e' hle]
    rfl

/-! ## C8: missing inputs -/

/-- C8: `Myers.diff` fails with an invalid-argument error exactly when either
input is absent (`undefined`); for every other pair of input values it returns
a result (no error), with the check performed before the inputs are encoded. -/
theorem diff_error_iff_absent (lhs rhs : Input) (s : Settings) :
    (∃ msg, diff lhs rhs s = Except.error msg) ↔
      lhs = Input.undef ∨ rhs = Input.undef := by
  constructor
  · intro ⟨msg, hmsg⟩
    by_contra hcon
    push_neg at hcon
    obtain ⟨hl, hr⟩ := hcon
    unfold diff at hmsg
    rw [if_neg hl, if_neg hr] at hmsg
    simp only [] at hmsg
    revert hmsg
    split <;> intro hmsg <;> exact Except.noConfusion hmsg
  · intro h
    unfold diff
    rcases h with h | h
    · exact ⟨"illegal argument lhs", by rw [if_pos h]⟩
    · by_cases hl : lhs = Input.undef
      · exact ⟨"illegal argument lhs", by rw [if_pos hl]⟩
      · exact ⟨"illegal argument rhs", by rw [if_neg hl, if_pos h]⟩

/-- `Myers.optimize` is the identity on contexts: its loop guard compares
`start` against the `undefined` value `ctx._codes.length`. -/
theorem optimize_id (ctx : EncodeContext) : optimize ctx = ctx := rfl

/-- Unfolding of `Myers.diff` on present inputs, with the no-op `optimize`
collapsed. -/
theorem diff_eq (lhs rhs : Input) (s : Settings)
    (hl : lhs ≠ Input.undef) (hr : rhs ≠ Input.undef) :
    diff lhs rhs s =
      match LCS
          (List.replicate (encodeAll Encoder.init s (ctxLines s lhs)).2.length false)
          (encodeAll Encoder.init s (ctxLines s lhs)).2
          (encodeAll Encoder.init s (ctxLines s lhs)).2.length
          (List.replicate
            (encodeAll (encodeAll Encoder.init s (ctxLines s lhs)).1 s
              (ctxLines s rhs)).2.length false)
          (encodeAll (encodeAll Encoder.init s (ctxLines s lhs)).1 s (ctxLines s rhs)).2
          (encodeAll (encodeAll Encoder.init s (ctxLines s lhs)).1 s
            (ctxLines s rhs)).2.length with
      | none => Except.ok none
      | some ms =>
        Except.ok (some
          { changes := compareLcs ms.1
              (encodeAll Encoder.init s (ctxLines s lhs)).2.length ms.2
              (encodeAll (encodeAll Encoder.init s (ctxLines s lhs)).1 s
                (ctxLines s rhs)).2.length,
            lhsCtx := ⟨(encodeAll Encoder.init s (ctxLines s lhs)).2, ms.1⟩,
            rhsCtx := ⟨(encodeAll (encodeAll Encoder.init s (ctxLines s lhs)).1 s
              (ctxLines s rhs)).2, ms.2⟩,
            encoder := (encodeAll (encodeAll Encoder.init s (ctxLines s lhs)).1 s
              (ctxLines s rhs)).1 }) := by
  unfold diff
  rw [if_neg hl, if_neg hr]
  rfl

/-! ## C6: diff of equal inputs -/

theorem modGet_replicate (n : Nat) (i : Int) :
    modGet (List.replicate n false) i = false := by
  unfold modGet
  split
  · rfl
  · rw [List.getD_eq_getElem?_getD, List.getElem?_replicate]
    split <;> rfl

/-- On two equal code lists the leading trim loop consumes the whole range. -/
theorem trimFrontAux_self (L : List Nat) (n : Int) :
    ∀ (fuel : Nat) (ll : Int), ll ≤ n → (n - ll).toNat ≤ fuel →
      trimFrontAux L L n n fuel ll ll = (n, n) := by
  intro fuel
  induction fuel with
  | zero =>
    intro ll hle hf
    have : ll = n := by omega
    subst this
    rfl
  | succ fuel ih =>
    intro ll hle hf
    by_cases h : ll < n
    · unfold trimFrontAux
      rw [if_pos ⟨h, h, rfl⟩]
      exact ih (ll + 1) (by omega) (by omega)
    · have : ll = n := le_antisymm hle (not_lt.mp h)
      subst this
      unfold trimFrontAux
      rw [if_neg (by simp)]

theorem trimFront_self (L : List Nat) (n : Int) (h0 : 0 ≤ n) :
    trimFront L L 0 n 0 n = (n, n) := by
  unfold trimFront
  exact trimFrontAux_self L n (n - 0).toNat 0 h0 (by omega)

/-- `compare_lcs` on equal-length sides with no modified markers emits nothing. -/
theorem compareLcsAux_replicate (n : Nat) :
    ∀ (fuel l : Nat), l ≤ n → n - l < fuel →
      compareLcsAux (List.replicate n false) n (List.replicate n false) n fuel l l = [] := by
  intro fuel
  induction fuel with
  | zero => intro l _ hf; omega
  | succ fuel ih =>
    intro l hl hf
    by_cases h : l < n
    · unfold compareLcsAux
      rw [if_pos (Or.inl h), if_pos ⟨h, modGet_replicate n l, h, modGet_replicate n l⟩]
      exact ih (l + 1) h (by omega)
    · have : l = n := le_antisymm hl (not_lt.mp h)
      subst this
      unfold compareLcsAux
      rw [if_neg (by omega)]

/-- C6: `diff(x, x, opts)` returns an empty change list, for every string `x`
and every options object. -/
theorem diff_self_empty (x : String) (s : Settings) :
    ∃ r, diff (Input.str x) (Input.str x) s = Except.ok (some r) ∧ r.changes = [] := by
  unfold diff
  rw [if_neg (by simp), if_neg (by simp)]
  simp only []
  -- both sides encode to the same code list
  have hstable := encodeAll_stable s (ctxLines s (Input.str x)) Encoder.init
    (encodeAll Encoder.init s (ctxLines s (Input.str x))).1 (Encoder.le_refl _)
  set cs := (encodeAll Encoder.init s (ctxLines s (Input.str x))).2 with hcs
  have henc : (Encoder.init.encode (Input.str x) s).1.encode (Input.str x) s =
      ((Encoder.init.encode (Input.str x) s).1,
        { codes := cs, modified := List.replicate cs.length false }) := by
    show ((encodeAll (Encoder.init.encode (Input.str x) s).1 s (ctxLines s (Input.str x))).1,
        _) = _
    rw [show (Encoder.init.encode (Input.str x) s).1 =
        (encodeAll Encoder.init s (ctxLines s (Input.str x))).1 from rfl]
    rw [hstable]
  rw [henc]
  simp only [Encoder.encode]
  -- the LCS call trims everything and returns the untouched markers
  have hlcs : LCS (List.replicate cs.length false) cs cs.length
      (List.replicate cs.length false) cs cs.length =
      some (List.replicate cs.length false, List.replicate cs.length false) := by
    unfold LCS lcsAux
    simp only []
    rw [show trimFront cs cs 0 (cs.length : Int) 0 (cs.length : Int) =
        ((cs.length : Int), (cs.length : Int)) from trimFront_self cs _ (by positivity)]
    simp only []
    unfold trimEnd
    rw [show ((cs.length : Int) - (cs.length : Int)).toNat = 0 by omega]
    unfold trimEndAux
    rw [if_pos rfl]
    unfold markRange
    rw [show ((cs.length : Int) - (cs.length : Int)).toNat = 0 by omega]
    rfl
  rw [hlcs]
  simp only [optimize, jsCodesLength]
  refine ⟨_, rfl, ?_⟩
  show compareLcs (List.replicate cs.length false) cs.length
      (List.replicate cs.length false) cs.length = []
  unfold compareLcs
  exact compareLcsAux_replicate cs.length _ 0 (Nat.zero_le _) (by omega)

/-! ## C10: null / empty-string inputs -/

theorem encodeAll_length (e : Encoder) (s : Settings) (ls : List String) :
    (encodeAll e s ls).2.length = ls.length := by
  induction ls generalizing e with
  | nil => rfl
  | cons l ls ih => simpa [encodeAll] using ih (encodeOne e s l).1

theorem advRAux_exhaust (rm : List Bool) (llen rlen l : Nat) (hl : llen ≤ l) :
    ∀ (fuel r : Nat), r ≤ rlen → rlen - r ≤ fuel →
      advRAux rm llen rlen l fuel r = rlen := by
  intro fuel
  induction fuel with
  | zero =>
    intro r hr hf
    have : r = rlen := by omega
    subst this
    rfl
  | succ fuel ih =>
    intro r hr hf
    by_cases h : r < rlen
    · unfold advRAux
      rw [if_pos ⟨h, Or.inl hl⟩]
      exact ih (r + 1) h (by omega)
    · have : r = rlen := by omega
      subst this
      unfold advRAux
      rw [if_neg (by omega)]

theorem advLAux_exhaust (lm : List Bool) (llen rlen r : Nat) (hr : rlen ≤ r) :
    ∀ (fuel l : Nat), l ≤ llen → llen - l ≤ fuel →
      advLAux lm llen rlen r fuel l = llen := by
  intro fuel
  induction fuel with
  | zero =>
    intro l hl hf
    have : l = llen := by omega
    subst this
    rfl
  | succ fuel ih =>
    intro l hl hf
    by_cases h : l < llen
    · unfold advLAux
      rw [if_pos ⟨h, Or.inl hr⟩]
      exact ih (l + 1) h (by omega)
    · have : l = llen := by omega
      subst this
      unfold advLAux
      rw [if_neg (by omega)]

/-- With the left side exhausted from the start, `compare_lcs` emits a single
pure-insertion record covering the whole right side. -/
theorem compareLcs_left_empty (lm rm : List Bool) (n : Nat) (hn : 0 < n) :
    compareLcs lm 0 rm n = [⟨0, 0, 0, n⟩] := by
  obtain ⟨m, rfl⟩ : ∃ m, n = m + 1 := ⟨n - 1, by omega⟩
  unfold compareLcs compareLcsAux
  rw [if_pos (Or.inr hn)]
  rw [if_neg (by omega)]
  simp only []
  have hl2 : advLhs lm 0 (m + 1) 0 0 = 0 := rfl
  rw [hl2]
  have hr2 : advRhs rm 0 (m + 1) 0 0 = m + 1 :=
    advRAux_exhaust rm 0 (m + 1) 0 (le_refl 0) (m + 1) 0 (by omega) (by omega)
  rw [hr2]
  rw [if_pos (Or.inr hn)]
  have hrest : compareLcsAux lm 0 rm (m + 1) (0 + (m + 1)) 0 (m + 1) = [] := by
    rw [show (0 + (m + 1)) = m + 1 by omega]
    unfold compareLcsAux
    rw [if_neg (by omega)]
  rw [hrest]
  simp [mkItem]

/-- With the right side exhausted from the start, `compare_lcs` emits a single
pure-deletion record covering the whole left side. -/
theorem compareLcs_right_empty (lm rm : List Bool) (n : Nat) (hn : 0 < n) :
    compareLcs lm n rm 0 = [⟨0, n, 0, 0⟩] := by
  obtain ⟨m, rfl⟩ : ∃ m, n = m + 1 := ⟨n - 1, by omega⟩
  unfold compareLcs compareLcsAux
  rw [if_pos (Or.inl hn)]
  rw [if_neg (by omega)]
  simp only []
  have hl2 : advLhs lm (m + 1) 0 0 0 = m + 1 :=
    advLAux_exhaust lm (m + 1) 0 0 (le_refl 0) (m + 1) 0 (by omega) (by omega)
  rw [hl2]
  have hr2 : advRhs rm (m + 1) 0 (m + 1) 0 = 0 := rfl
  rw [hr2]
  rw [if_pos (Or.inl hn)]
  have hrest : compareLcsAux lm (m + 1) rm 0 ((m + 1) + 0) (m + 1) 0 = [] := by
    rw [show ((m + 1) + 0) = m + 1 by omega]
    unfold compareLcsAux
    rw [if_neg (by omega)]
  rw [hrest]
  simp [mkItem, Nat.min_def]

/-- `getLongestCommonSubsequence` with an empty left range: every right
position is marked modified, nothing else changes. -/
theorem lcs_left_empty (R : List Nat) (rm : List Bool) (n : Nat) :
    LCS [] [] 0 rm R n = some ([], markRange rm 0 n) := by
  unfold LCS lcsAux
  simp only [Nat.cast_zero]
  have hf : trimFront [] R 0 0 0 n = (0, 0) := rfl
  rw [hf]
  have he : trimEnd [] R 0 0 0 n = ((0 : Int), (n : Int)) := rfl
  rw [he]
  rw [if_pos rfl]

/-- `getLongestCommonSubsequence` with an empty right range: every left
position is marked modified, nothing else changes. -/
theorem lcs_right_empty (L : List Nat) (lm : List Bool) (n : Nat) (hn : 0 < n) :
    LCS lm L n [] [] 0 = some (markRange lm 0 n, []) := by
  unfold LCS lcsAux
  simp only [Nat.cast_zero]
  have hf : trimFront L [] 0 (n : Int) 0 0 = (0, 0) := by
    unfold trimFront
    obtain ⟨m, hm⟩ : ∃ m, ((n : Int) - 0).toNat = m + 1 := ⟨n - 1, by omega⟩
    rw [hm]
    unfold trimFrontAux
    rw [if_neg (by omega)]
  have he : trimEnd L [] 0 (n : Int) 0 0 = ((n : Int), 0) := by
    unfold trimEnd
    obtain ⟨m, hm⟩ : ∃ m, ((n : Int) - 0).toNat = m + 1 := ⟨n - 1, by omega⟩
    rw [hm]
    unfold trimEndAux
    rw [if_neg (by omega)]
  rw [hf, he]
  rw [if_neg (by omega), if_pos rfl]

/-- C10: `null` or the empty string as either input raises no error; the side
is split into zero tokens, and when the other side is non-empty (splits into
`n > 0` tokens) the result is exactly one change record: a pure insertion
`⟨at 0, del 0, at 0, add n⟩` when the left side is the absent one, and a pure
deletion `⟨at 0, del n, at 0, add 0⟩` when the right side is. -/
theorem diff_null_empty_sides (t : String) (s : Settings)
    (hn : 0 < (ctxLines s (Input.str t)).length) :
    (∃ r, diff Input.null (Input.str t) s = Except.ok (some r) ∧
        r.changes = [⟨0, 0, 0, (ctxLines s (Input.str t)).length⟩]) ∧
    (∃ r, diff (Input.str "") (Input.str t) s = Except.ok (some r) ∧
        r.changes = [⟨0, 0, 0, (ctxLines s (Input.str t)).length⟩]) ∧
    (∃ r, diff (Input.str t) Input.null s = Except.ok (some r) ∧
        r.changes = [⟨0, (ctxLines s (Input.str t)).length, 0, 0⟩]) ∧
    (∃ r, diff (Input.str t) (Input.str "") s = Except.ok (some r) ∧
        r.changes = [⟨0, (ctxLines s (Input.str t)).length, 0, 0⟩]) := by
  have hempty : ∀ (lhs : Input), ctxLines s lhs = [] → lhs ≠ Input.undef →
      ∃ r, diff lhs (Input.str t) s = Except.ok (some r) ∧
        r.changes = [⟨0, 0, 0, (ctxLines s (Input.str t)).length⟩] := by
    intro lhs hlines hundef
    rw [diff_eq lhs (Input.str t) s hundef (by simp), hlines]
    rw [show (encodeAll Encoder.init s []) = (Encoder.init, []) from rfl]
    simp only [List.length_nil, List.replicate_zero]
    rw [lcs_left_empty]
    refine ⟨_, rfl, ?_⟩
    simp only []
    rw [encodeAll_length]
    exact compareLcs_left_empty _ _ _ hn
  have hempty2 : ∀ (rhs : Input), ctxLines s rhs = [] → rhs ≠ Input.undef →
      ∃ r, diff (Input.str t) rhs s = Except.ok (some r) ∧
        r.changes = [⟨0, (ctxLines s (Input.str t)).length, 0, 0⟩] := by
    intro rhs hlines hundef
    rw [diff_eq (Input.str t) rhs s (by simp) hundef, hlines]
    rw [show ∀ e, (encodeAll e s []) = (e, []) from fun _ => rfl]
    simp only [List.length_nil, List.replicate_zero]
    rw [show (encodeAll Encoder.init s (ctxLines s (Input.str t))).2.length =
      (ctxLines s (Input.str t)).length from encodeAll_length _ _ _]
    rw [lcs_right_empty _ _ _ hn]
    refine ⟨_, rfl, ?_⟩
    exact compareLcs_right_empty _ _ _ hn
  exact ⟨hempty Input.null rfl (by simp),
    hempty (Input.str "") rfl (by simp),
    hempty2 Input.null rfl (by simp),
    hempty2 (Input.str "") rfl (by simp)⟩

/-- Witness for `diff_null_empty_sides` at a concrete input. -/
theorem diff_null_empty_sides_witness :
    0 < (ctxLines defaultSettings (Input.str "x\ny")).length ∧
    (∃ r, diff Input.null (Input.str "x\ny") defaultSettings = Except.ok (some r) ∧
        r.changes = [⟨0, 0, 0, (ctxLines defaultSettings (Input.str "x\ny")).length⟩]) := by
  refine ⟨by decide, ?_⟩
  exact (diff_null_empty_sides "x\ny" defaultSettings (by decide)).1

/-! ## C5: interning invariants -/

theorem lookup_mem {xs : List (String × Nat)} {k : String} {c : Nat}
    (h : xs.lookup k = some c) : (k, c) ∈ xs := by
  induction xs with
  | nil => simp [List.lookup] at h
  | cons p rest ih =>
    obtain ⟨a, b⟩ := p
    simp only [List.lookup] at h
    cases hk : (k == a) with
    | true =>
      rw [hk] at h
      simp only [Option.some.injEq] at h
      exact (eq_of_beq hk) ▸ h ▸ List.mem_cons_self _ _
    | false =>
      rw [hk] at h
      exact List.mem_cons_of_mem _ (ih h)

theorem snd_nodup_inj {l : List (String × Nat)} (hnd : (l.map Prod.snd).Nodup)
    {a b : String} {c : Nat} (ha : (a, c) ∈ l) (hb : (b, c) ∈ l) : a = b := by
  induction l with
  | nil => simp at ha
  | cons p rest ih =>
    simp only [List.map_cons, List.nodup_cons] at hnd
    rcases List.mem_cons.mp ha with ha1 | ha1 <;> rcases List.mem_cons.mp hb with hb1 | hb1
    · rw [← hb1, Prod.mk.injEq] at ha1
      exact ha1.1
    · subst ha1
      exact absurd (List.mem_map_of_mem Prod.snd hb1) hnd.1
    · subst hb1
      exact absurd (List.mem_map_of_mem Prod.snd ha1) hnd.1
    · exact ih hnd.2 ha1 hb1

theorem lookup_singleton (k a : String) (c : Nat) :
    List.lookup k [(a, c)] = if k == a then some c else none := by
  simp only [List.lookup]
  cases k == a <;> simp

theorem encInv_init : EncInv Encoder.init [] := by
  refine ⟨rfl, fun k => ?_, rfl⟩
  simp [Encoder.init, Encoder.getCode, List.lookup]

theorem encInv_encodeOne {e : Encoder} {seen : List String} (h : EncInv e seen)
    (s : Settings) (l : String) :
    EncInv (encodeOne e s l).1 (seen ++ [normTok s l]) := by
  obtain ⟨hcode, hmem, hvals⟩ := h
  unfold encodeOne
  cases hg : e.getCode (normTok s l) with
  | some c =>
    have hseen : normTok s l ∈ seen := (hmem _).mp (by simp [hg])
    refine ⟨?_, fun k => ?_, hvals⟩
    · rw [hcode]
      congr 1
      simp only [List.toFinset_append, List.toFinset_cons, List.toFinset_nil]
      rw [Finset.union_comm]
      simp [Finset.insert_eq, Finset.union_assoc, Finset.union_eq_right,
        List.mem_toFinset.mpr hseen]
    · rw [hmem k]
      constructor
      · intro hk; exact List.mem_append_left _ hk
      · intro hk
        rcases List.mem_append.mp hk with hk | hk
        · exact hk
        · simp only [List.mem_singleton] at hk
          exact hk ▸ hseen
  | none =>
    have hnot : normTok s l ∉ seen := by
      intro hmem2
      have := (hmem _).mpr hmem2
      rw [hg] at this
      simp at this
    refine ⟨?_, fun k => ?_, ?_⟩
    · show e.code + 1 = _
      rw [hcode]
      simp only [List.toFinset_append, List.toFinset_cons, List.toFinset_nil]
      rw [show (insert (normTok s l) (∅ : Finset String)) = {normTok s l} from rfl]
      rw [Finset.union_comm]
      rw [← Finset.insert_eq]
      rw [Finset.card_insert_of_not_mem (by simpa using hnot)]
    · show (List.lookup k (e.diff_codes ++ [(normTok s l, e.code + 1)])).isSome ↔ _
      by_cases hke : (e.getCode k).isSome
      · obtain ⟨c, hc⟩ := Option.isSome_iff_exists.mp hke
        rw [lookup_append_some hc]
        simp only [Option.isSome_some, true_iff]
        exact List.mem_append_left _ ((hmem k).mp hke)
      · have hnone : e.getCode k = none := Option.not_isSome_iff_eq_none.mp hke
        rw [lookup_append_none hnone, lookup_singleton]
        cases hkt : (k == normTok s l) with
        | true =>
          have hkeq : k = normTok s l := eq_of_beq hkt
          simp only [hkt, if_true, Option.isSome_some, true_iff]
          exact List.mem_append_right _ (by simp [hkeq])
        | false =>
          simp only [hkt, Bool.false_eq_true, if_false, Option.isSome_none,
            false_iff]
          intro hk
          rcases List.mem_append.mp hk with hk | hk
          · exact hke ((hmem k).mpr hk)
          · simp only [List.mem_singleton] at hk
            rw [hk] at hkt
            simp at hkt
    · show (e.diff_codes ++ [(normTok s l, e.code + 1)]).map Prod.snd = List.range' 1 (e.code + 1)
      rw [List.map_append, hvals, List.range'_concat]
      simp [Nat.add_comm]

theorem encInv_encodeAll {e : Encoder} {seen : List String} (h : EncInv e seen)
    (s : Settings) (ls : List String) :
    EncInv (encodeAll e s ls).1 (seen ++ ls.map (normTok s)) := by
  induction ls generalizing e seen with
  | nil => simpa using h
  | cons l ls ih =>
    have h1 := encInv_encodeOne h s l
    have h2 := ih h1
    simpa [List.append_assoc] using h2

/-- Every position's code is recorded in the final encoder under the
position's normalized token. -/
theorem encodeAll_recorded (s : Settings) (ls : List String) :
    ∀ (e : Encoder) (i : Nat) (t : String), (ls.map (normTok s)).get? i = some t →
      ∃ c, (encodeAll e s ls).2.get? i = some c ∧
        (encodeAll e s ls).1.getCode t = some c := by
  induction ls with
  | nil => intro e i t ht; simp at ht
  | cons l ls ih =>
    intro e i t ht
    cases i with
    | zero =>
      simp only [List.map_cons, List.get?] at ht
      obtain rfl : normTok s l = t := by simpa using ht
      refine ⟨(encodeOne e s l).2, rfl, ?_⟩
      exact encodeAll_le (encodeOne e s l).1 s ls _ _ (encodeOne_getCode e s l)
    | succ i =>
      simp only [List.map_cons, List.get?] at ht
      obtain ⟨c, hc1, hc2⟩ := ih (encodeOne e s l).1 i t ht
      exact ⟨c, hc1, hc2⟩

/-- A token's first occurrence is assigned code `1 + number of distinct
normalized tokens seen strictly before it`. -/
theorem encodeAll_first_occ (s : Settings) (ls : List String) :
    ∀ (e : Encoder) (seen : List String), EncInv e seen →
      ∀ (i : Nat) (t : String), (ls.map (normTok s)).get? i = some t →
        t ∉ seen → t ∉ (ls.map (normTok s)).take i →
        (encodeAll e s ls).2.get? i =
          some ((seen ++ (ls.map (normTok s)).take i).toFinset.card + 1) := by
  induction ls with
  | nil => intro e seen _ i t ht _ _; simp at ht
  | cons l ls ih =>
    intro e seen hinv i t ht hseen htake
    cases i with
    | zero =>
      simp only [List.map_cons, List.get?] at ht
      have hteq : normTok s l = t := by simpa using ht
      have hnone : e.getCode (normTok s l) = none := by
        cases hg : e.getCode (normTok s l) with
        | none => rfl
        | some c =>
          exact absurd (hteq ▸ (hinv.2.1 (normTok s l)).mp (by simp [hg])) hseen
      show ((encodeOne e s l).2 :: (encodeAll (encodeOne e s l).1 s ls).2).get? 0 = _
      have hone : encodeOne e s l = e.newCode (normTok s l) := by
        unfold encodeOne
        rw [hnone]
      rw [hone]
      simp only [Encoder.newCode, List.get?, List.take_zero, List.append_nil]
      rw [hinv.1]
    | succ i =>
      simp only [List.map_cons, List.get?] at ht
      rw [List.map_cons, List.take_succ_cons] at htake
      have h1 : t ∉ seen ++ [normTok s l] := by
        intro hmem
        rcases List.mem_append.mp hmem with hk | hk
        · exact hseen hk
        · simp only [List.mem_singleton] at hk
          exact htake (hk ▸ List.mem_cons_self _ _)
      have h2 : t ∉ (ls.map (normTok s)).take i := fun hk =>
        htake (List.mem_cons_of_mem _ hk)
      have := ih (encodeOne e s l).1 (seen ++ [normTok s l])
        (encInv_encodeOne hinv s l) i t ht h1 h2
      show ((encodeOne e s l).2 :: (encodeAll (encodeOne e s l).1 s ls).2).get? (i+1) = _
      simp only [List.get?]
      rw [this]
      congr 2
      rw [List.map_cons, List.take_succ_cons]
      rw [List.append_assoc]
      rfl

theorem encodeAll_append (e : Encoder) (s : Settings) (xs ys : List String) :
    encodeAll e s (xs ++ ys) =
      ((encodeAll (encodeAll e s xs).1 s ys).1,
        (encodeAll e s xs).2 ++ (encodeAll (encodeAll e s xs).1 s ys).2) := by
  induction xs generalizing e with
  | nil => simp [encodeAll]
  | cons x xs ih =>
    show ((encodeAll (encodeOne e s x).1 s (xs ++ ys)).1,
        (encodeOne e s x).2 :: (encodeAll (encodeOne e s x).1 s (xs ++ ys)).2) = _
    rw [ih (encodeOne e s x).1]
    rfl

/-- Codes are injective over the final table. -/
theorem getCode_inj {e : Encoder} {seen : List String} (h : EncInv e seen)
    {t1 t2 : String} {c : Nat} (h1 : e.getCode t1 = some c)
    (h2 : e.getCode t2 = some c) : t1 = t2 := by
  have hnd : (e.diff_codes.map Prod.snd).Nodup := by
    rw [h.2.2]
    exact List.nodup_range' 1 e.code
  exact snd_nodup_inj hnd (lookup_mem h1) (lookup_mem h2)

/-- **C5** (code bug, failing input `diff("toString", "x", {})`): `diff_codes`
is the plain object `{}`, so the very first lookup of the token `"toString"`
returns the inherited `Object.prototype.toString` through the prototype chain;
the `aCode !== undefined` guard in `_init` then stores that member as the
token's code, `newCode` never runs, the shared counter stays at 0 with an
empty table, and the *second* distinct token `"x"` is assigned code 1 — while
the claimed (and intended, table-only) first-seen numbering, reproduced by
`encodeAll`, assigns them codes 1 and 2. -/
theorem encoder_proto_member_failing_input :
    (encodeAllJs Encoder.init defaultSettings
        (ctxLines defaultSettings (Input.str "toString"))).2 =
      [JsCode.protoMember "toString"] ∧
    (encodeAllJs Encoder.init defaultSettings
        (ctxLines defaultSettings (Input.str "toString"))).1 = Encoder.init ∧
    (encodeAllJs
        (encodeAllJs Encoder.init defaultSettings
          (ctxLines defaultSettings (Input.str "toString"))).1
        defaultSettings (ctxLines defaultSettings (Input.str "x"))).2 =
      [JsCode.int 1] ∧
    (encodeAll Encoder.init defaultSettings
        (ctxLines defaultSettings (Input.str "toString"))).2 = [1] ∧
    (encodeAll
        (encodeAll Encoder.init defaultSettings
          (ctxLines defaultSettings (Input.str "toString"))).1
        defaultSettings (ctxLines defaultSettings (Input.str "x"))).2 = [2] :=
  ⟨rfl, rfl, rfl, rfl, rfl⟩

/-! ## C7: what `getLine` resolves to -/

theorem findKeyOfCode_eq {l : List (String × Nat)} (hnd : (l.map Prod.snd).Nodup)
    {k : String} {c : Nat} (hmem : (k, c) ∈ l) : findKeyOfCode l c = some k := by
  induction l with
  | nil => simp at hmem
  | cons p rest ih =>
    obtain ⟨a, b⟩ := p
    simp only [List.map_cons, List.nodup_cons] at hnd
    rcases List.mem_cons.mp hmem with h1 | h1
    · rw [← h1]
      simp [findKeyOfCode]
    · have hbc : b ≠ c := by
        intro hbc
        exact hnd.1 (hbc ▸ List.mem_map_of_mem Prod.snd h1)
      simp only [findKeyOfCode, if_neg hbc]
      exact ih hnd.2 h1

/-- C7 (amended): when a `diff` call returns change records and no normalized
token of the run is named after an `Object.prototype` member (so the
association-table model of the plain-object code table is exact), resolving a
token position through the records' context handle (`ctx.getLine(n)`, with the
shared encoder the context references) yields the **normalized** token text —
the whitespace-stripped form when `ignoreWhitespace` is set — not necessarily
the original token text; the reverse lookup walks the encoder's key table,
whose keys are the interned (normalized) strings.  A colliding token, by
contrast, is never interned: in `diff("toString", "x")` position 0 of the left
side holds the inherited `Object.prototype.toString` (faithful model
`encodeAllJs`), which matches no table key, so `getLine(0)` returns
`undefined`. -/
theorem getLine_normalized (lhs rhs : Input) (s : Settings) (r : DiffResult)
    (h : diff lhs rhs s = Except.ok (some r))
    (hp1 : ∀ t ∈ ctxLines s lhs, protoKey (normTok s t) = false)
    (hp2 : ∀ t ∈ ctxLines s rhs, protoKey (normTok s t) = false) :
    ((∀ n t, (ctxLines s lhs).get? n = some t →
      getLine r.encoder r.lhsCtx n = some (normTok s t)) ∧
    (∀ n t, (ctxLines s rhs).get? n = some t →
      getLine r.encoder r.rhsCtx n = some (normTok s t))) ∧
    getLineJs
        (encodeAllJs
          (encodeAllJs Encoder.init defaultSettings
            (ctxLines defaultSettings (Input.str "toString"))).1
          defaultSettings (ctxLines defaultSettings (Input.str "x"))).1
        (encodeAllJs Encoder.init defaultSettings
          (ctxLines defaultSettings (Input.str "toString"))).2 0 = none := by
  refine ⟨?_, rfl⟩

  have hl : lhs ≠ Input.undef := by
    rintro rfl
    unfold diff at h
    rw [if_pos rfl] at h
    exact Except.noConfusion h
  have hr : rhs ≠ Input.undef := by
    rintro rfl
    unfold diff at h
    rw [if_neg hl, if_pos rfl] at h
    exact Except.noConfusion h
  rw [diff_eq lhs rhs s hl hr] at h
  cases hL : LCS
      (List.replicate (encodeAll Encoder.init s (ctxLines s lhs)).2.length false)
      (encodeAll Encoder.init s (ctxLines s lhs)).2
      (encodeAll Encoder.init s (ctxLines s lhs)).2.length
      (List.replicate
        (encodeAll (encodeAll Encoder.init s (ctxLines s lhs)).1 s
          (ctxLines s rhs)).2.length false)
      (encodeAll (encodeAll Encoder.init s (ctxLines s lhs)).1 s (ctxLines s rhs)).2
      (encodeAll (encodeAll Encoder.init s (ctxLines s lhs)).1 s
        (ctxLines s rhs)).2.length with
  | none =>
    rw [hL] at h
    simp at h
  | some ms =>
    rw [hL] at h
    simp only [Except.ok.injEq, Option.some.injEq] at h
    subst h
    -- the final shared encoder and its invariant
    have hinv1 : EncInv (encodeAll Encoder.init s (ctxLines s lhs)).1
        ((ctxLines s lhs).map (normTok s)) := by
      simpa using encInv_encodeAll encInv_init s (ctxLines s lhs)
    have hinv2 : EncInv
        (encodeAll (encodeAll Encoder.init s (ctxLines s lhs)).1 s (ctxLines s rhs)).1
        ((ctxLines s lhs).map (normTok s) ++ (ctxLines s rhs).map (normTok s)) :=
      encInv_encodeAll hinv1 s (ctxLines s rhs)
    have hnd : ((encodeAll (encodeAll Encoder.init s (ctxLines s lhs)).1 s
        (ctxLines s rhs)).1.diff_codes.map Prod.snd).Nodup := by
      rw [hinv2.2.2]
      exact List.nodup_range' _ _
    constructor
    · intro n t ht
      obtain ⟨c, hc1, hc2⟩ := encodeAll_recorded s (ctxLines s lhs) Encoder.init n
        (normTok s t) (by rw [List.get?_map, ht]; rfl)
      have hfin : (encodeAll (encodeAll Encoder.init s (ctxLines s lhs)).1 s
          (ctxLines s rhs)).1.getCode (normTok s t) = some c :=
        encodeAll_le _ s (ctxLines s rhs) _ _ hc2
      show (match ((⟨_, ms.1⟩ : EncodeContext).codes.get? n) with
        | none => none
        | some ckey => findKeyOfCode _ ckey) = _
      rw [show (⟨(encodeAll Encoder.init s (ctxLines s lhs)).2, ms.1⟩ :
        EncodeContext).codes = (encodeAll Encoder.init s (ctxLines s lhs)).2 from rfl]
      rw [hc1]
      exact findKeyOfCode_eq hnd (lookup_mem hfin)
    · intro n t ht
      obtain ⟨c, hc1, hc2⟩ := encodeAll_recorded s (ctxLines s rhs)
        (encodeAll Encoder.init s (ctxLines s lhs)).1 n
        (normTok s t) (by rw [List.get?_map, ht]; rfl)
      show (match ((⟨_, ms.2⟩ : EncodeContext).codes.get? n) with
        | none => none
        | some ckey => findKeyOfCode _ ckey) = _
      rw [show (⟨(encodeAll (encodeAll Encoder.init s (ctxLines s lhs)).1 s
        (ctxLines s rhs)).2, ms.2⟩ : EncodeContext).codes =
        (encodeAll (encodeAll Encoder.init s (ctxLines s lhs)).1 s
          (ctxLines s rhs)).2 from rfl]
      rw [hc1]
      exact findKeyOfCode_eq hnd (lookup_mem hc2)

/-- `diffOk?` hits `some` only on an `ok (some _)` result. -/
theorem diffOk?_eq_some {x : Except String (Option DiffResult)} {r : DiffResult}
    (h : diffOk? x = some r) : x = Except.ok (some r) := by
  cases x with
  | error e => simp [diffOk?] at h
  | ok o =>
    cases o with
    | none => simp [diffOk?] at h
    | some r2 =>
      simp only [diffOk?, Option.some.injEq] at h
      rw [h]

/-- Witness for `getLine_normalized` at a concrete input, with the concrete
result record spelled out. -/
theorem getLine_normalized_witness :
    diff (Input.str " a") (Input.str "b")
        { defaultSettings with ignoreWhitespace := true } =
      Except.ok (some
        { changes := [⟨0, 1, 0, 1⟩],
          lhsCtx := ⟨[1], [true]⟩,
          rhsCtx := ⟨[2], [true]⟩,
          encoder := ⟨2, [("a", 1), ("b", 2)]⟩ }) ∧
    getLine (⟨2, [("a", 1), ("b", 2)]⟩ : Encoder) (⟨[1], [true]⟩ : EncodeContext) 0 =
      some (normTok { defaultSettings with ignoreWhitespace := true } " a") := by
  have hd : diff (Input.str " a") (Input.str "b")
      { defaultSettings with ignoreWhitespace := true } =
      Except.ok (some
        { changes := [⟨0, 1, 0, 1⟩],
          lhsCtx := ⟨[1], [true]⟩,
          rhsCtx := ⟨[2], [true]⟩,
          encoder := ⟨2, [("a", 1), ("b", 2)]⟩ }) :=
    diffOk?_eq_some (by decide)
  refine ⟨hd, ?_⟩
  exact (getLine_normalized (Input.str " a") (Input.str "b")
    { defaultSettings with ignoreWhitespace := true }
    { changes := [⟨0, 1, 0, 1⟩],
      lhsCtx := ⟨[1], [true]⟩,
      rhsCtx := ⟨[2], [true]⟩,
      encoder := ⟨2, [("a", 1), ("b", 2)]⟩ } hd
    (by decide) (by decide)).1.1 0 " a" (by decide)

/-- C7 counterexample: with `ignoreWhitespace: true`, the change record's
context handle resolves position 0 of the left side to the stripped form
`"a"`, not the original token text `" a"` that the tokenizer produced there. -/
theorem getLine_not_original :
    (diffOk? (diff (Input.str " a") (Input.str "b")
        { defaultSettings with ignoreWhitespace := true })).map
        (fun r => (r.changes, getLine r.encoder r.lhsCtx 0)) =
      some ([⟨0, 1, 0, 1⟩], some "a") ∧
    ctxLines { defaultSettings with ignoreWhitespace := true }
      (Input.str " a") = [" a"] ∧
    ("a" : String) ≠ " a" := by
  refine ⟨by decide, by decide, by decide⟩

/-! ## C4: the boundary optimizer -/

/-- C4 (code bug): `Myers.optimize` is dead code — its loop guard reads
`ctx._codes.length`, which is `undefined` on the plain object `_codes`, so no
slide is ever performed (`optimize` is the identity, see `optimize_id`).  On
the spec's own example `diff("a\na\nb", "a\nb\nb", {})` the code therefore
reports the unoptimized right-side boundary `at 1`, whereas the described
slide (performed by `optimizeIntended`, the same scan run with the real
length) relocates the right-side modified position from 1 to 2, which the
change builder would report as the boundary `at 2`. -/
theorem optimize_dead_code_failing_input :
    (diffOk? (diff (Input.str "a\na\nb") (Input.str "a\nb\nb") defaultSettings)).map
        (fun r => (r.changes, r.lhsCtx, r.rhsCtx)) =
      some ([⟨1, 1, 1, 1⟩],
        (⟨[1, 1, 2], [false, true, false]⟩ : EncodeContext),
        (⟨[1, 2, 2], [false, true, false]⟩ : EncodeContext)) ∧
    optimize ⟨[1, 2, 2], [false, true, false]⟩ =
      (⟨[1, 2, 2], [false, true, false]⟩ : EncodeContext) ∧
    (optimizeIntended ⟨[1, 2, 2], [false, true, false]⟩).modified =
      [false, false, true] ∧
    compareLcs (optimizeIntended ⟨[1, 1, 2], [false, true, false]⟩).modified 3
        (optimizeIntended ⟨[1, 2, 2], [false, true, false]⟩).modified 3 =
      [⟨1, 1, 1, 0⟩, ⟨2, 0, 2, 1⟩] := by
  exact ⟨by decide, optimize_id _, by decide, by decide⟩

/-! ## C3: shape of the emitted change list -/

theorem clampAt_mono {p q : Nat} (len : Nat) (h : p ≤ q) :
    clampAt p len ≤ clampAt q len :=
  min_le_min h (le_refl _)

theorem clampAt_eq_self {p len : Nat} (h : p < len) : clampAt p len = p := by
  unfold clampAt
  rw [if_neg (by omega)]
  omega

theorem coveredL_cons (it : ChangeItem) (items : List ChangeItem) :
    coveredL (it :: items) = List.range' it.lhsAt it.del ++ coveredL items := by
  simp [coveredL]

theorem coveredR_cons (it : ChangeItem) (items : List ChangeItem) :
    coveredR (it :: items) = List.range' it.rhsAt it.add ++ coveredR items := by
  simp [coveredR]

theorem coveredL_length (items : List ChangeItem) :
    (coveredL items).length = (items.map (·.del)).sum := by
  induction items with
  | nil => rfl
  | cons it items ih => simp [coveredL_cons, ih]

theorem coveredR_length (items : List ChangeItem) :
    (coveredR items).length = (items.map (·.add)).sum := by
  induction items with
  | nil => rfl
  | cons it items ih => simp [coveredR_cons, ih]

theorem mem_coveredL_of {it : ChangeItem} {items : List ChangeItem}
    (hm : it ∈ items) (hd : 0 < it.del) : it.lhsAt ∈ coveredL items := by
  induction items with
  | nil => simp at hm
  | cons b rest ih =>
    rw [coveredL_cons]
    rcases List.mem_cons.mp hm with h1 | h1
    · subst h1
      exact List.mem_append_left _ (by
        rw [List.mem_range']
        exact ⟨0, hd, by omega⟩)
    · exact List.mem_append_right _ (ih h1)

theorem mem_coveredR_of {it : ChangeItem} {items : List ChangeItem}
    (hm : it ∈ items) (hd : 0 < it.add) : it.rhsAt ∈ coveredR items := by
  induction items with
  | nil => simp at hm
  | cons b rest ih =>
    rw [coveredR_cons]
    rcases List.mem_cons.mp hm with h1 | h1
    · subst h1
      exact List.mem_append_left _ (by
        rw [List.mem_range']
        exact ⟨0, hd, by omega⟩)
    · exact List.mem_append_right _ (ih h1)

theorem chain'_le_cons_of_bound (f : ChangeItem → Nat) (a : ChangeItem)
    (its : List ChangeItem) (h : ∀ it ∈ its, f a ≤ f it)
    (hch : List.Chain' (· ≤ ·) (its.map f)) :
    List.Chain' (· ≤ ·) ((a :: its).map f) := by
  rw [List.map_cons, List.chain'_cons']
  refine ⟨?_, hch⟩
  intro y hy
  cases its with
  | nil => simp at hy
  | cons b rest =>
    simp only [List.map_cons, List.head?_cons, Option.mem_def,
      Option.some.injEq] at hy
    exact hy ▸ h b (List.mem_cons_self _ _)

theorem chain'_lt_cons_of_bound (f : ChangeItem → Nat) (a : ChangeItem)
    (its : List ChangeItem) (h : ∀ it ∈ its, f a < f it)
    (hch : List.Chain' (· < ·) (its.map f)) :
    List.Chain' (· < ·) ((a :: its).map f) := by
  rw [List.map_cons, List.chain'_cons']
  refine ⟨?_, hch⟩
  intro y hy
  cases its with
  | nil => simp at hy
  | cons b rest =>
    simp only [List.map_cons, List.head?_cons, Option.mem_def,
      Option.some.injEq] at hy
    exact hy ▸ h b (List.mem_cons_self _ _)

theorem advLAux_ge (lm : List Bool) (llen rlen r : Nat) :
    ∀ (fuel l : Nat), l ≤ advLAux lm llen rlen r fuel l := by
  intro fuel
  induction fuel with
  | zero => intro l; exact le_refl l
  | succ fuel ih =>
    intro l
    unfold advLAux
    split
    · exact le_trans (by omega) (ih (l + 1))
    · exact le_refl l

theorem advLAux_le (lm : List Bool) (llen rlen r : Nat) :
    ∀ (fuel l : Nat), l ≤ llen → advLAux lm llen rlen r fuel l ≤ llen := by
  intro fuel
  induction fuel with
  | zero => intro l h; exact h
  | succ fuel ih =>
    intro l h
    unfold advLAux
    split
    · rename_i hc
      exact ih (l + 1) hc.1
    · exact h

theorem advRAux_ge (rm : List Bool) (llen rlen l : Nat) :
    ∀ (fuel r : Nat), r ≤ advRAux rm llen rlen l fuel r := by
  intro fuel
  induction fuel with
  | zero => intro r; exact le_refl r
  | succ fuel ih =>
    intro r
    unfold advRAux
    split
    · exact le_trans (by omega) (ih (r + 1))
    · exact le_refl r

theorem advRAux_le (rm : List Bool) (llen rlen l : Nat) :
    ∀ (fuel r : Nat), r ≤ rlen → advRAux rm llen rlen l fuel r ≤ rlen := by
  intro fuel
  induction fuel with
  | zero => intro r h; exact h
  | succ fuel ih =>
    intro r h
    unfold advRAux
    split
    · rename_i hc
      exact ih (r + 1) hc.1
    · exact h

theorem advLhs_ge (lm : List Bool) (llen rlen l r : Nat) :
    l ≤ advLhs lm llen rlen l r := advLAux_ge lm llen rlen r _ l

theorem advLhs_le (lm : List Bool) (llen rlen l r : Nat) (h : l ≤ llen) :
    advLhs lm llen rlen l r ≤ llen := advLAux_le lm llen rlen r _ l h

theorem advRhs_ge (rm : List Bool) (llen rlen l r : Nat) :
    r ≤ advRhs rm llen rlen l r := advRAux_ge rm llen rlen l _ r

theorem advRhs_le (rm : List Bool) (llen rlen l r : Nat) (h : r ≤ rlen) :
    advRhs rm llen rlen l r ≤ rlen := advRAux_le rm llen rlen l _ r h

theorem advLhs_progress (lm : List Bool) {llen rlen l r : Nat}
    (hl : l < llen) (hc : rlen ≤ r ∨ modGet lm l = true) :
    l < advLhs lm llen rlen l r := by
  unfold advLhs
  obtain ⟨k, hk⟩ : ∃ k, llen - l = k + 1 := ⟨llen - l - 1, by omega⟩
  rw [hk]
  unfold advLAux
  rw [if_pos ⟨hl, hc⟩]
  exact lt_of_lt_of_le (by omega) (advLAux_ge lm llen rlen r k (l + 1))

theorem advRhs_progress (rm : List Bool) {llen rlen l r : Nat}
    (hr : r < rlen) (hc : llen ≤ l ∨ modGet rm r = true) :
    r < advRhs rm llen rlen l r := by
  unfold advRhs
  obtain ⟨k, hk⟩ : ∃ k, rlen - r = k + 1 := ⟨rlen - r - 1, by omega⟩
  rw [hk]
  unfold advRAux
  rw [if_pos ⟨hr, hc⟩]
  exact lt_of_lt_of_le (by omega) (advRAux_ge rm llen rlen l k (r + 1))

theorem advLhs_stay (lm : List Bool) {llen rlen l r : Nat}
    (h : ¬(l < llen ∧ (rlen ≤ r ∨ modGet lm l = true))) :
    advLhs lm llen rlen l r = l := by
  unfold advLhs
  cases hk : llen - l with
  | zero => rfl
  | succ k =>
    unfold advLAux
    rw [if_neg h]

theorem advRhs_stay (rm : List Bool) {llen rlen l r : Nat}
    (h : ¬(r < rlen ∧ (llen ≤ l ∨ modGet rm r = true))) :
    advRhs rm llen rlen l r = r := by
  unfold advRhs
  cases hk : rlen - r with
  | zero => rfl
  | succ k =>
    unfold advRAux
    rw [if_neg h]

/-- In the non-lockstep branch at least one of the two advancing loops makes
progress (so `compare_lcs` always terminates and every emitted record is
non-empty). -/
theorem adv_progress (lm rm : List Bool) {llen rlen l r : Nat}
    (hout : l < llen ∨ r < rlen)
    (hnl : ¬(l < llen ∧ modGet lm l = false ∧ r < rlen ∧ modGet rm r = false)) :
    l < advLhs lm llen rlen l r ∨
      r < advRhs rm llen rlen (advLhs lm llen rlen l r) r := by
  by_cases hr : rlen ≤ r
  · have hl : l < llen := by omega
    exact Or.inl (advLhs_progress lm hl (Or.inl hr))
  · push_neg at hr
    by_cases hl2 : llen ≤ l
    · exact Or.inr (advRhs_progress rm hr
        (Or.inl (le_trans hl2 (advLhs_ge lm llen rlen l r))))
    · push_neg at hl2
      by_cases hlm : modGet lm l = true
      · exact Or.inl (advLhs_progress lm hl2 (Or.inr hlm))
      · have hlm2 : modGet lm l = false := by
          cases h : modGet lm l
          · rfl
          · exact absurd h hlm
        have hrm : modGet rm r = true := by
          cases h : modGet rm r
          · exact absurd ⟨hl2, hlm2, hr, h⟩ hnl
          · rfl
        have hstay : advLhs lm llen rlen l r = l :=
          advLhs_stay lm (by
            intro ⟨h1, h2⟩
            rcases h2 with h2 | h2
            · omega
            · rw [hlm2] at h2; exact Bool.noConfusion h2)
        rw [hstay]
        exact Or.inr (advRhs_progress rm hr (Or.inr hrm))

theorem mem_range'_bounds {m s n : Nat} (h : m ∈ List.range' s n) :
    s ≤ m ∧ m < s + n := by
  rw [List.mem_range'] at h
  obtain ⟨i, hi, rfl⟩ := h
  omega

theorem mem_range'_of {m s n : Nat} (h1 : s ≤ m) (h2 : m < s + n) :
    m ∈ List.range' s n := by
  rw [List.mem_range']
  exact ⟨m - s, by omega, by omega⟩

/-- `ItemsSpec` is preserved backwards across one lockstep (both-unmodified)
step. -/
theorem itemsSpec_lockstep {lm : List Bool} {llen : Nat} {rm : List Bool}
    {rlen : Nat} {l r : Nat} {its : List ChangeItem}
    (h : ItemsSpec lm llen rm rlen (l + 1) (r + 1) its)
    (hcond : l < llen ∧ modGet lm l = false ∧ r < rlen ∧ modGet rm r = false) :
    ItemsSpec lm llen rm rlen l r its := by
  obtain ⟨a1, a2, a3, a4, a5, a6, a7, a8, a9, a10, a11⟩ := h
  obtain ⟨hl, hlm, hr, hrm⟩ := hcond
  have hrangeL : List.range' l (llen - l) = l :: List.range' (l + 1) (llen - (l + 1)) := by
    obtain ⟨k, hk⟩ : ∃ k, llen - l = k + 1 := ⟨llen - l - 1, by omega⟩
    rw [hk, List.range'_succ]
    have hke : k = llen - (l + 1) := by omega
    rw [hke]
  have hrangeR : List.range' r (rlen - r) = r :: List.range' (r + 1) (rlen - (r + 1)) := by
    obtain ⟨k, hk⟩ : ∃ k, rlen - r = k + 1 := ⟨rlen - r - 1, by omega⟩
    rw [hk, List.range'_succ]
    have hke : k = rlen - (r + 1) := by omega
    rw [hke]
  refine ⟨?_, ?_, ?_, ?_, a5, ?_, a7, a8, a9, a10, by omega⟩
  · rw [hrangeL]
    exact a1.cons l
  · rw [hrangeR]
    exact a2.cons r
  · intro p hp1 hp2 hp3
    rcases Nat.eq_or_lt_of_le hp1 with rfl | hp4
    · exact hlm
    · exact a3 p hp4 hp2 hp3
  · intro p hp1 hp2 hp3
    rcases Nat.eq_or_lt_of_le hp1 with rfl | hp4
    · exact hrm
    · exact a4 p hp4 hp2 hp3
  · intro it hit
    exact ⟨le_trans (clampAt_mono llen (by omega)) (a6 it hit).1,
      le_trans (clampAt_mono rlen (by omega)) (a6 it hit).2⟩

/-- `ItemsSpec` is preserved backwards across one record emission. -/
theorem itemsSpec_emit {lm : List Bool} {llen : Nat} {rm : List Bool}
    {rlen : Nat} {l r l2 r2 : Nat} {its : List ChangeItem}
    (h : ItemsSpec lm llen rm rlen l2 r2 its)
    (hl : l ≤ llen) (hr : r ≤ rlen)
    (hl2a : l ≤ l2) (hl2b : l2 ≤ llen) (hr2a : r ≤ r2) (hr2b : r2 ≤ rlen)
    (hprog : l < l2 ∨ r < r2) :
    ItemsSpec lm llen rm rlen l r (mkItem llen rlen l r l2 r2 :: its) := by
  obtain ⟨a1, a2, a3, a4, a5, a6, a7, a8, a9, a10, a11⟩ := h
  have hitem : (mkItem llen rlen l r l2 r2).lhsAt = clampAt l llen ∧
      (mkItem llen rlen l r l2 r2).del = l2 - l ∧
      (mkItem llen rlen l r l2 r2).rhsAt = clampAt r rlen ∧
      (mkItem llen rlen l r l2 r2).add = r2 - r := ⟨rfl, rfl, rfl, rfl⟩
  -- the head's delete span, as a list of positions
  have hspanL : List.range' (mkItem llen rlen l r l2 r2).lhsAt
      (mkItem llen rlen l r l2 r2).del = List.range' l (l2 - l) := by
    rw [hitem.1, hitem.2.1]
    by_cases hll : l < llen
    · rw [clampAt_eq_self hll]
    · have : l2 - l = 0 := by omega
      rw [this]
      rfl
  have hspanR : List.range' (mkItem llen rlen l r l2 r2).rhsAt
      (mkItem llen rlen l r l2 r2).add = List.range' r (r2 - r) := by
    rw [hitem.2.2.1, hitem.2.2.2]
    by_cases hrr : r < rlen
    · rw [clampAt_eq_self hrr]
    · have : r2 - r = 0 := by omega
      rw [this]
      rfl
  have hsplitL : List.range' l (llen - l) =
      List.range' l (l2 - l) ++ List.range' l2 (llen - l2) := by
    have hx := List.range'_append l (l2 - l) (llen - l2) 1
    rw [show l + 1 * (l2 - l) = l2 by omega, show llen - l2 + (l2 - l) = llen - l by omega]
      at hx
    exact hx.symm
  have hsplitR : List.range' r (rlen - r) =
      List.range' r (r2 - r) ++ List.range' r2 (rlen - r2) := by
    have hx := List.range'_append r (r2 - r) (rlen - r2) 1
    rw [show r + 1 * (r2 - r) = r2 by omega, show rlen - r2 + (r2 - r) = rlen - r by omega]
      at hx
    exact hx.symm
  have hcovL : coveredL (mkItem llen rlen l r l2 r2 :: its) =
      List.range' l (l2 - l) ++ coveredL its := by
    rw [coveredL_cons, hspanL]
  have hcovR : coveredR (mkItem llen rlen l r l2 r2 :: its) =
      List.range' r (r2 - r) ++ coveredR its := by
    rw [coveredR_cons, hspanR]
  have hboundL : ∀ it ∈ its, 0 < it.del → l2 ≤ it.lhsAt := by
    intro it hit hd
    have hm := mem_coveredL_of hit hd
    have := a1.subset hm
    exact (mem_range'_bounds this).1
  have hboundR : ∀ it ∈ its, 0 < it.add → r2 ≤ it.rhsAt := by
    intro it hit hd
    have hm := mem_coveredR_of hit hd
    have := a2.subset hm
    exact (mem_range'_bounds this).1
  refine ⟨?_, ?_, ?_, ?_, ?_, ?_, ?_, ?_, ?_, ?_, ?_⟩
  · rw [hcovL, hsplitL]
    exact (List.Sublist.refl _).append a1
  · rw [hcovR, hsplitR]
    exact (List.Sublist.refl _).append a2
  · intro p hp1 hp2 hp3
    rw [hcovL] at hp3
    by_cases hpl2 : p < l2
    · exfalso
      exact hp3 (List.mem_append_left _ (mem_range'_of hp1 (by omega)))
    · exact a3 p (by omega) hp2 (fun hx => hp3 (List.mem_append_right _ hx))
  · intro p hp1 hp2 hp3
    rw [hcovR] at hp3
    by_cases hpr2 : p < r2
    · exfalso
      exact hp3 (List.mem_append_left _ (mem_range'_of hp1 (by omega)))
    · exact a4 p (by omega) hp2 (fun hx => hp3 (List.mem_append_right _ hx))
  · intro it hit
    rcases List.mem_cons.mp hit with rfl | hit2
    · rw [hitem.2.1, hitem.2.2.2]
      omega
    · exact a5 it hit2
  · intro it hit
    rcases List.mem_cons.mp hit with rfl | hit2
    · rw [hitem.1, hitem.2.2.1]
      exact ⟨le_refl _, le_refl _⟩
    · exact ⟨le_trans (clampAt_mono llen hl2a) (a6 it hit2).1,
        le_trans (clampAt_mono rlen hr2a) (a6 it hit2).2⟩
  · refine chain'_le_cons_of_bound _ _ _ ?_ a7
    intro it hit
    rw [hitem.1]
    exact le_trans (clampAt_mono llen hl2a) (a6 it hit).1
  · refine chain'_le_cons_of_bound _ _ _ ?_ a8
    intro it hit
    rw [hitem.2.2.1]
    exact le_trans (clampAt_mono rlen hr2a) (a6 it hit).2
  · by_cases hd : 0 < (mkItem llen rlen l r l2 r2).del
    · rw [List.filter_cons_of_pos (by simpa using hd)]
      refine chain'_lt_cons_of_bound _ _ _ ?_ a9
      intro it hit
      have hit2 := List.mem_of_mem_filter hit
      have hdit : 0 < it.del := by simpa using List.of_mem_filter hit
      have hlt : l < llen := by
        rw [hitem.2.1] at hd
        omega
      rw [hitem.1, clampAt_eq_self hlt]
      have := hboundL it hit2 hdit
      rw [hitem.2.1] at hd
      omega
    · rw [List.filter_cons_of_neg (by simpa using hd)]
      exact a9
  · by_cases hd : 0 < (mkItem llen rlen l r l2 r2).add
    · rw [List.filter_cons_of_pos (by simpa using hd)]
      refine chain'_lt_cons_of_bound _ _ _ ?_ a10
      intro it hit
      have hit2 := List.mem_of_mem_filter hit
      have hdit : 0 < it.add := by simpa using List.of_mem_filter hit
      have hrt : r < rlen := by
        rw [hitem.2.2.2] at hd
        omega
      rw [hitem.2.2.1, clampAt_eq_self hrt]
      have := hboundR it hit2 hdit
      rw [hitem.2.2.2] at hd
      omega
    · rw [List.filter_cons_of_neg (by simpa using hd)]
      exact a10
  · rw [hcovL, hcovR]
    simp only [List.length_append, List.length_range']
    omega

/-- The change builder satisfies `ItemsSpec` from any in-range starting
position, given enough fuel. -/
theorem compareLcsAux_spec (lm : List Bool) (llen : Nat) (rm : List Bool) (rlen : Nat) :
    ∀ (fuel l r : Nat), l ≤ llen → r ≤ rlen → llen - l + (rlen - r) < fuel →
      ItemsSpec lm llen rm rlen l r (compareLcsAux lm llen rm rlen fuel l r) := by
  intro fuel
  induction fuel with
  | zero => intro l r h1 h2 h3; omega
  | succ fuel ih =>
    intro l r hl hr hf
    unfold compareLcsAux
    by_cases hout : l < llen ∨ r < rlen
    · rw [if_pos hout]
      by_cases hlock : l < llen ∧ modGet lm l = false ∧ r < rlen ∧ modGet rm r = false
      · rw [if_pos hlock]
        exact itemsSpec_lockstep (ih (l + 1) (r + 1) hlock.1 hlock.2.2.1 (by omega)) hlock
      · rw [if_neg hlock]
        simp only []
        have hprog := adv_progress lm rm hout hlock
        rw [if_pos hprog]
        have hl2a := advLhs_ge lm llen rlen l r
        have hl2b := advLhs_le lm llen rlen l r hl
        have hr2a := advRhs_ge rm llen rlen (advLhs lm llen rlen l r) r
        have hr2b := advRhs_le rm llen rlen (advLhs lm llen rlen l r) r hr
        have hmeas : llen - advLhs lm llen rlen l r +
            (rlen - advRhs rm llen rlen (advLhs lm llen rlen l r) r) < fuel := by
          rcases hprog with hp | hp <;> omega
        exact itemsSpec_emit (ih _ _ hl2b hr2b hmeas) hl hr hl2a hl2b hr2a hr2b hprog
    · rw [if_neg hout]
      push_neg at hout
      refine ⟨List.nil_sublist _, List.nil_sublist _, ?_, ?_, ?_, ?_,
        List.chain'_nil, List.chain'_nil, List.chain'_nil, List.chain'_nil, ?_⟩
      · intro p h1 h2 _
        omega
      · intro p h1 h2 _
        omega
      · intro it hit
        simp at hit
      · intro it hit
        simp at hit
      · show (coveredL []).length + _ = (coveredR []).length + _
        simp only [coveredL, coveredR, List.flatMap_nil, List.length_nil]
        omega

/-- C3 (amended): the change records returned by `diff` partition the token
positions: the delete spans are disjoint sub-ranges of the left side listed in
strictly increasing order, and symmetrically for add spans; every position not
covered by a span is unmodified (part of an unmodified run), and every covered
position lies in exactly one record's span; every record has `del > 0` or
`add > 0`; the clamped `at` values are **non-decreasing** on each side (not
always strictly increasing, see the counterexample), and strictly increasing
across the records whose span on that side is non-empty; and both sides leave
the same number of positions uncovered. -/
theorem diff_changes_shape (lhs rhs : Input) (s : Settings) (r : DiffResult)
    (h : diff lhs rhs s = Except.ok (some r)) :
    ItemsSpec r.lhsCtx.modified r.lhsCtx.codes.length r.rhsCtx.modified
      r.rhsCtx.codes.length 0 0 r.changes := by
  have hl : lhs ≠ Input.undef := by
    rintro rfl
    unfold diff at h
    rw [if_pos rfl] at h
    exact Except.noConfusion h
  have hr : rhs ≠ Input.undef := by
    rintro rfl
    unfold diff at h
    rw [if_neg hl, if_pos rfl] at h
    exact Except.noConfusion h
  rw [diff_eq lhs rhs s hl hr] at h
  cases hL : LCS
      (List.replicate (encodeAll Encoder.init s (ctxLines s lhs)).2.length false)
      (encodeAll Encoder.init s (ctxLines s lhs)).2
      (encodeAll Encoder.init s (ctxLines s lhs)).2.length
      (List.replicate
        (encodeAll (encodeAll Encoder.init s (ctxLines s lhs)).1 s
          (ctxLines s rhs)).2.length false)
      (encodeAll (encodeAll Encoder.init s (ctxLines s lhs)).1 s (ctxLines s rhs)).2
      (encodeAll (encodeAll Encoder.init s (ctxLines s lhs)).1 s
        (ctxLines s rhs)).2.length with
  | none =>
    rw [hL] at h
    simp at h
  | some ms =>
    rw [hL] at h
    simp only [Except.ok.injEq, Option.some.injEq] at h
    subst h
    show ItemsSpec ms.1 (encodeAll Encoder.init s (ctxLines s lhs)).2.length ms.2
      (encodeAll (encodeAll Encoder.init s (ctxLines s lhs)).1 s
        (ctxLines s rhs)).2.length 0 0
      (compareLcs ms.1 (encodeAll Encoder.init s (ctxLines s lhs)).2.length ms.2
        (encodeAll (encodeAll Encoder.init s (ctxLines s lhs)).1 s
          (ctxLines s rhs)).2.length)
    exact compareLcsAux_spec ms.1 _ ms.2 _ _ 0 0 (Nat.zero_le _) (Nat.zero_le _)
      (by omega)

/-- Witness for `diff_changes_shape` at a concrete input. -/
theorem diff_changes_shape_witness :
    ItemsSpec [true] 1 [true] 1 0 0 [⟨0, 1, 0, 1⟩] := by
  have hd : diff (Input.str "a") (Input.str "b") defaultSettings =
      Except.ok (some
        { changes := [⟨0, 1, 0, 1⟩],
          lhsCtx := ⟨[1], [true]⟩,
          rhsCtx := ⟨[2], [true]⟩,
          encoder := ⟨2, [("a", 1), ("b", 2)]⟩ }) :=
    diffOk?_eq_some (by decide)
  exact diff_changes_shape _ _ _ _ hd

/-- C3 counterexample: `diff("b", "a\nb\nc", {})` emits two records whose left
`at` values are both 0 (the second is clamped to `lhs_codes_length - 1`), so
the records are *not* in strictly increasing `at` order on the left side. -/
theorem changes_at_not_strict :
    (diffOk? (diff (Input.str "b") (Input.str "a\nb\nc") defaultSettings)).map
        (fun r => r.changes) =
      some [⟨0, 0, 0, 1⟩, ⟨0, 0, 2, 1⟩] ∧
    ¬ List.Chain' (· < ·)
      (([⟨0, 0, 0, 1⟩, ⟨0, 0, 2, 1⟩] : List ChangeItem).map (fun it => it.lhsAt)) := by
  constructor
  · decide
  · intro hch
    have := List.chain'_cons.mp hch
    exact absurd this.1 (by decide)

/-! ## The longest-common-subsequence length: basic theory -/

theorem lcsLenAux_stable :
    ∀ (n m : Nat) (xs ys : List Nat), xs.length + ys.length ≤ n →
      xs.length + ys.length ≤ m → lcsLenAux n xs ys = lcsLenAux m xs ys := by
  intro n
  induction n with
  | zero =>
    intro m xs ys hn hm
    match xs, ys with
    | [], _ => cases m <;> rfl
    | a :: xs, ys => simp at hn
  | succ n ih =>
    intro m xs ys hn hm
    match xs, ys with
    | [], _ => cases m <;> rfl
    | a :: xs, [] => cases m with
      | zero => simp at hm
      | succ m => rfl
    | a :: xs, b :: ys =>
      cases m with
      | zero => simp at hm
      | succ m =>
        show (if a = b then lcsLenAux n xs ys + 1
              else max (lcsLenAux n (a :: xs) ys) (lcsLenAux n xs (b :: ys)))
           = (if a = b then lcsLenAux m xs ys + 1
              else max (lcsLenAux m (a :: xs) ys) (lcsLenAux m xs (b :: ys)))
        simp only [List.length_cons] at hn hm
        by_cases hab : a = b
        · rw [if_pos hab, if_pos hab, ih m xs ys (by omega) (by omega)]
        · rw [if_neg hab, if_neg hab, ih m (a :: xs) ys (by simp; omega) (by simp; omega),
            ih m xs (b :: ys) (by simp; omega) (by simp; omega)]

theorem lcsLen_nil_left (ys : List Nat) : lcsLen [] ys = 0 := by
  cases ys <;> rfl

theorem lcsLen_nil_right (xs : List Nat) : lcsLen xs [] = 0 := by
  cases xs <;> rfl

theorem lcsLen_cons (a b : Nat) (xs ys : List Nat) :
    lcsLen (a :: xs) (b :: ys) =
      if a = b then lcsLen xs ys + 1
      else max (lcsLen (a :: xs) ys) (lcsLen xs (b :: ys)) := by
  show lcsLenAux (xs.length + 1 + (ys.length + 1)) (a :: xs) (b :: ys) = _
  rw [show xs.length + 1 + (ys.length + 1) = (xs.length + 1 + ys.length) + 1 by omega]
  show (if a = b then lcsLenAux (xs.length + 1 + ys.length) xs ys + 1
        else max (lcsLenAux (xs.length + 1 + ys.length) (a :: xs) ys)
          (lcsLenAux (xs.length + 1 + ys.length) xs (b :: ys)))
     = (if a = b then lcsLen xs ys + 1
        else max (lcsLen (a :: xs) ys) (lcsLen xs (b :: ys)))
  unfold lcsLen
  by_cases hab : a = b
  · rw [if_pos hab, if_pos hab,
      lcsLenAux_stable _ (xs.length + ys.length) xs ys (by omega) (by omega)]
  · rw [if_neg hab, if_neg hab,
      lcsLenAux_stable _ ((a :: xs).length + ys.length) (a :: xs) ys
        (by simp only [List.length_cons]; omega) (by simp only [List.length_cons]; omega),
      lcsLenAux_stable _ (xs.length + (b :: ys).length) xs (b :: ys)
        (by simp only [List.length_cons]; omega) (by simp only [List.length_cons]; omega)]

theorem lcsLen_ub :
    ∀ (xs ys ws : List Nat), ws.Sublist xs → ws.Sublist ys →
      ws.length ≤ lcsLen xs ys := by
  have main : ∀ (n : Nat) (xs ys ws : List Nat), xs.length + ys.length ≤ n →
      ws.Sublist xs → ws.Sublist ys → ws.length ≤ lcsLen xs ys := by
    intro n
    induction n with
    | zero =>
      intro xs ys ws hn h1 h2
      match xs, ys with
      | [], _ =>
        have := List.sublist_nil.mp h1
        subst this
        simp
      | a :: xs, ys => simp at hn
    | succ n ih =>
      intro xs ys ws hn h1 h2
      match xs, ys with
      | [], _ =>
        have := List.sublist_nil.mp h1
        subst this
        simp
      | _ :: _, [] =>
        have := List.sublist_nil.mp h2
        subst this
        simp
      | a :: xs, b :: ys =>
        simp only [List.length_cons] at hn
        rw [lcsLen_cons]
        by_cases hab : a = b
        · subst hab
          rw [if_pos rfl]
          cases h1
          next h1' =>
            cases h2
            next h2' =>
              exact le_trans (ih xs ys ws (by omega) h1' h2') (by omega)
            next ws₂ h2' =>
              have hws₂ : ws₂.Sublist xs :=
                List.Sublist.trans (List.sublist_cons_self a ws₂) h1'
              have := ih xs ys ws₂ (by omega) hws₂ h2'
              simp only [List.length_cons]
              omega
          next ws₂ h1' =>
            cases h2
            next h2' =>
              have hws₂ : ws₂.Sublist ys :=
                List.Sublist.trans (List.sublist_cons_self a ws₂) h2'
              have := ih xs ys ws₂ (by omega) h1' hws₂
              simp only [List.length_cons]
              omega
            next ws₃ h2' =>
              have := ih xs ys ws₂ (by omega) h1' h2'
              simp only [List.length_cons]
              omega
        · rw [if_neg hab]
          cases h1
          next h1' =>
            have := ih xs (b :: ys) ws (by simp; omega) h1' h2
            exact le_trans this (le_max_right _ _)
          next ws₂ h1' =>
            cases h2
            next h2' =>
              have := ih (a :: xs) ys (a :: ws₂) (by simp; omega)
                (List.cons_sublist_cons.mpr h1') h2'
              exact le_trans this (le_max_left _ _)
            next h2' => exact absurd rfl hab
  intro xs ys ws h1 h2
  exact main (xs.length + ys.length) xs ys ws (le_refl _) h1 h2

theorem lcsLen_ex :
    ∀ (xs ys : List Nat), ∃ ws : List Nat, ws.Sublist xs ∧ ws.Sublist ys ∧
      ws.length = lcsLen xs ys := by
  have main : ∀ (n : Nat) (xs ys : List Nat), xs.length + ys.length ≤ n →
      ∃ ws : List Nat, ws.Sublist xs ∧ ws.Sublist ys ∧ ws.length = lcsLen xs ys := by
    intro n
    induction n with
    | zero =>
      intro xs ys hn
      match xs, ys with
      | [], ys => exact ⟨[], List.nil_sublist _, List.nil_sublist _,
          by rw [lcsLen_nil_left]; rfl⟩
      | a :: xs, ys => simp at hn
    | succ n ih =>
      intro xs ys hn
      match xs, ys with
      | [], ys => exact ⟨[], List.nil_sublist _, List.nil_sublist _,
          by rw [lcsLen_nil_left]; rfl⟩
      | a :: xs, [] => exact ⟨[], List.nil_sublist _, List.nil_sublist _,
          by rw [lcsLen_nil_right]; rfl⟩
      | a :: xs, b :: ys =>
        simp only [List.length_cons] at hn
        rw [lcsLen_cons]
        by_cases hab : a = b
        · subst hab
          obtain ⟨ws, hw1, hw2, hw3⟩ := ih xs ys (by omega)
          rw [if_pos rfl]
          exact ⟨a :: ws, List.cons_sublist_cons.mpr hw1,
            List.cons_sublist_cons.mpr hw2, by simp [hw3]⟩
        · rw [if_neg hab]
          obtain ⟨w1, hw11, hw12, hw13⟩ := ih (a :: xs) ys (by simp; omega)
          obtain ⟨w2, hw21, hw22, hw23⟩ := ih xs (b :: ys) (by simp; omega)
          by_cases hc : lcsLen xs (b :: ys) ≤ lcsLen (a :: xs) ys
          · rw [max_eq_left hc]
            exact ⟨w1, hw11, hw12.trans (List.sublist_cons_self b ys), hw13⟩
          · rw [max_eq_right (by omega)]
            exact ⟨w2, hw21.trans (List.sublist_cons_self a xs), hw22, hw23⟩
  intro xs ys
  exact main (xs.length + ys.length) xs ys (le_refl _)

theorem lcsLen_rev (xs ys : List Nat) :
    lcsLen xs.reverse ys.reverse = lcsLen xs ys := by
  apply le_antisymm
  · obtain ⟨ws, h1, h2, h3⟩ := lcsLen_ex xs.reverse ys.reverse
    rw [← h3, ← List.length_reverse ws]
    exact lcsLen_ub xs ys ws.reverse
      (by rw [← List.reverse_reverse xs]; exact List.Sublist.reverse h1)
      (by rw [← List.reverse_reverse ys]; exact List.Sublist.reverse h2)
  · obtain ⟨ws, h1, h2, h3⟩ := lcsLen_ex xs ys
    rw [← h3, ← List.length_reverse ws]
    exact lcsLen_ub xs.reverse ys.reverse ws.reverse
      (List.Sublist.reverse h1) (List.Sublist.reverse h2)

theorem lcsLen_comm (xs ys : List Nat) : lcsLen xs ys = lcsLen ys xs := by
  apply le_antisymm
  · obtain ⟨ws, h1, h2, h3⟩ := lcsLen_ex xs ys
    rw [← h3]
    exact lcsLen_ub ys xs ws h2 h1
  · obtain ⟨ws, h1, h2, h3⟩ := lcsLen_ex ys xs
    rw [← h3]
    exact lcsLen_ub xs ys ws h2 h1

theorem lcsLen_cons_eq (a : Nat) (xs ys : List Nat) :
    lcsLen (a :: xs) (a :: ys) = lcsLen xs ys + 1 := by
  rw [lcsLen_cons, if_pos rfl]

theorem lcsLen_concat_eq (a : Nat) (xs ys : List Nat) :
    lcsLen (xs ++ [a]) (ys ++ [a]) = lcsLen xs ys + 1 := by
  rw [← lcsLen_rev, List.reverse_append, List.reverse_append]
  simp only [List.reverse_singleton, List.singleton_append]
  rw [lcsLen_cons_eq, lcsLen_rev]

theorem lcsLen_le_append_right (xs ys zs : List Nat) :
    lcsLen xs ys ≤ lcsLen xs (ys ++ zs) := by
  obtain ⟨ws, h1, h2, h3⟩ := lcsLen_ex xs ys
  rw [← h3]
  exact lcsLen_ub _ _ ws h1 (h2.trans (List.sublist_append_left ys zs))

theorem lcsLen_le_append_left (xs ys zs : List Nat) :
    lcsLen xs ys ≤ lcsLen (xs ++ zs) ys := by
  obtain ⟨ws, h1, h2, h3⟩ := lcsLen_ex xs ys
  rw [← h3]
  exact lcsLen_ub _ _ ws (h1.trans (List.sublist_append_left xs zs)) h2

theorem lcsLen_concat_le_left (a : Nat) (xs ys : List Nat) :
    lcsLen (xs ++ [a]) ys ≤ lcsLen xs ys + 1 := by
  obtain ⟨ws, h1, h2, h3⟩ := lcsLen_ex (xs ++ [a]) ys
  rw [← h3]
  rcases List.sublist_append_iff.mp h1 with ⟨w1, w2, rfl, hw1, hw2⟩
  have hlen2 : w2.length ≤ 1 := le_trans hw2.length_le (by simp)
  have hw1ys : w1.Sublist ys := (List.sublist_append_left w1 w2).trans h2
  have := lcsLen_ub xs ys w1 hw1 hw1ys
  simp only [List.length_append]
  omega

theorem lcsLen_concat_le_right (a : Nat) (xs ys : List Nat) :
    lcsLen xs (ys ++ [a]) ≤ lcsLen xs ys + 1 := by
  rw [lcsLen_comm, lcsLen_comm xs ys]
  exact lcsLen_concat_le_left a ys xs

theorem lcsLen_tail_tail (a b : Nat) (xs ys : List Nat) :
    lcsLen (a :: xs) (b :: ys) ≤ lcsLen xs ys + 1 := by
  obtain ⟨ws, h1, h2, h3⟩ := lcsLen_ex (a :: xs) (b :: ys)
  rw [← h3]
  cases h1
  next h1' =>
    cases h2
    next h2' => exact le_trans (lcsLen_ub _ _ ws h1' h2') (by omega)
    next ws₂ h2' =>
      have hx : ws₂.Sublist xs := (List.sublist_cons_self b ws₂).trans h1'
      have := lcsLen_ub _ _ ws₂ hx h2'
      simp only [List.length_cons]
      omega
  next ws₂ h1' =>
    cases h2
    next h2' =>
      have hy : ws₂.Sublist ys := (List.sublist_cons_self a ws₂).trans h2'
      have := lcsLen_ub _ _ ws₂ h1' hy
      simp only [List.length_cons]
      omega
    next h2' =>
      have := lcsLen_ub _ _ ws₂ h1' h2'
      simp only [List.length_cons]
      omega

theorem lcsLen_superadd (xs1 xs2 ys1 ys2 : List Nat) :
    lcsLen xs1 ys1 + lcsLen xs2 ys2 ≤ lcsLen (xs1 ++ xs2) (ys1 ++ ys2) := by
  obtain ⟨w1, h11, h12, h13⟩ := lcsLen_ex xs1 ys1
  obtain ⟨w2, h21, h22, h23⟩ := lcsLen_ex xs2 ys2
  rw [← h13, ← h23, ← List.length_append]
  exact lcsLen_ub _ _ (w1 ++ w2) (h11.append h21) (h12.append h22)

theorem lcsLen_le_length_left (xs ys : List Nat) : lcsLen xs ys ≤ xs.length := by
  obtain ⟨ws, h1, _, h3⟩ := lcsLen_ex xs ys
  rw [← h3]
  exact h1.length_le

theorem lcsLen_le_length_right (xs ys : List Nat) : lcsLen xs ys ≤ ys.length := by
  obtain ⟨ws, _, h2, h3⟩ := lcsLen_ex xs ys
  rw [← h3]
  exact h2.length_le

/-- Witness for `diff_error_iff_absent` at a concrete input. -/
theorem diff_error_iff_absent_witness :
    (∃ msg, diff Input.undef (Input.str "a") defaultSettings = Except.error msg) ∧
      ¬∃ msg, diff (Input.str "a") (Input.str "b") defaultSettings = Except.error msg := by
  constructor
  · exact (diff_error_iff_absent Input.undef (Input.str "a") defaultSettings).mpr (Or.inl rfl)
  · intro hmsg
    rcases (diff_error_iff_absent (Input.str "a") (Input.str "b") defaultSettings).mp hmsg
      with h | h <;> exact Input.noConfusion h


/-! ## Further `lcsLen` calculus -/

theorem lcsLen_mono_left {xs xs' : List Nat} (ys : List Nat) (h : xs.Sublist xs') :
    lcsLen xs ys ≤ lcsLen xs' ys := by
  obtain ⟨ws, h1, h2, h3⟩ := lcsLen_ex xs ys
  rw [← h3]
  exact lcsLen_ub _ _ ws (h1.trans h) h2

theorem lcsLen_mono_right (xs : List Nat) {ys ys' : List Nat} (h : ys.Sublist ys') :
    lcsLen xs ys ≤ lcsLen xs ys' := by
  obtain ⟨ws, h1, h2, h3⟩ := lcsLen_ex xs ys
  rw [← h3]
  exact lcsLen_ub _ _ ws h1 (h2.trans h)

theorem lcsLen_append_le_left (xs zs ys : List Nat) :
    lcsLen (xs ++ zs) ys ≤ lcsLen xs ys + zs.length := by
  obtain ⟨ws, h1, h2, h3⟩ := lcsLen_ex (xs ++ zs) ys
  rw [← h3]
  rcases List.sublist_append_iff.mp h1 with ⟨w1, w2, rfl, hw1, hw2⟩
  have h2' : w1.Sublist ys := (List.sublist_append_left w1 w2).trans h2
  have hb1 := lcsLen_ub xs ys w1 hw1 h2'
  have hb2 := hw2.length_le
  simp only [List.length_append]
  omega

theorem lcsLen_append_le_right (xs ys zs : List Nat) :
    lcsLen xs (ys ++ zs) ≤ lcsLen xs ys + zs.length := by
  rw [lcsLen_comm, lcsLen_comm xs ys]
  exact lcsLen_append_le_left ys zs xs

theorem lcsLen_concat_concat_le (a b : Nat) (xs ys : List Nat) :
    lcsLen (xs ++ [a]) (ys ++ [b]) ≤ lcsLen xs ys + 1 := by
  rw [← lcsLen_rev, List.reverse_append, List.reverse_append]
  simp only [List.reverse_singleton, List.singleton_append]
  calc lcsLen (a :: xs.reverse) (b :: ys.reverse)
      ≤ lcsLen xs.reverse ys.reverse + 1 := lcsLen_tail_tail a b _ _
    _ = lcsLen xs ys + 1 := by rw [lcsLen_rev]

theorem lcsLen_ext_le_one (xs ys zs ws : List Nat) (hz : zs.length ≤ 1)
    (hw : ws.length ≤ 1) : lcsLen (xs ++ zs) (ys ++ ws) ≤ lcsLen xs ys + 1 := by
  match zs, hz with
  | [], _ =>
    simp only [List.append_nil]
    calc lcsLen xs (ys ++ ws) ≤ lcsLen xs ys + ws.length := lcsLen_append_le_right _ _ _
      _ ≤ lcsLen xs ys + 1 := by omega
  | [a], _ =>
    match ws, hw with
    | [], _ =>
      simp only [List.append_nil]
      exact lcsLen_concat_le_left a xs ys
    | [b], _ => exact lcsLen_concat_concat_le a b xs ys

/-- The `lcsLen` recursion in last-element form. -/
theorem lcsLen_concat (a b : Nat) (xs ys : List Nat) :
    lcsLen (xs ++ [a]) (ys ++ [b]) =
      if a = b then lcsLen xs ys + 1
      else max (lcsLen xs (ys ++ [b])) (lcsLen (xs ++ [a]) ys) := by
  rw [← lcsLen_rev, List.reverse_append, List.reverse_append]
  simp only [List.reverse_singleton, List.singleton_append]
  rw [lcsLen_cons]
  by_cases hab : a = b
  · rw [if_pos hab, if_pos hab, lcsLen_rev]
  · rw [if_neg hab, if_neg hab]
    have h1 : lcsLen (a :: xs.reverse) ys.reverse = lcsLen (xs ++ [a]) ys := by
      rw [← lcsLen_rev (xs ++ [a]) ys, List.reverse_append, List.reverse_singleton,
        List.singleton_append]
    have h2 : lcsLen xs.reverse (b :: ys.reverse) = lcsLen xs (ys ++ [b]) := by
      rw [← lcsLen_rev xs (ys ++ [b]), List.reverse_append, List.reverse_singleton,
        List.singleton_append]
    rw [h1, h2, Nat.max_comm]

/-! ## Integer-indexed segments -/

theorem segI_nil {L : List Nat} {a b : Int} (h : b ≤ a) : segI L a b = [] := by
  unfold segI
  have h0 : (b - a).toNat = 0 := by omega
  rw [h0, List.take_zero]

theorem segI_length {L : List Nat} {a b : Int} (h0 : 0 ≤ a)
    (hb : b ≤ (L.length : Int)) : (segI L a b).length = (b - a).toNat := by
  unfold segI
  rw [List.length_take, List.length_drop]
  omega

theorem segI_split (L : List Nat) {a c b : Int} (h0 : 0 ≤ a) (hac : a ≤ c)
    (hcb : c ≤ b) : segI L a b = segI L a c ++ segI L c b := by
  unfold segI
  have hsum : (b - a).toNat = (c - a).toNat + (b - c).toNat := by omega
  rw [hsum, List.take_add, List.drop_drop]
  have he : a.toNat + (c - a).toNat = c.toNat := by omega
  rw [he]

theorem getI_some_bounds {L : List Nat} {i : Int} {c : Nat}
    (h : getI L i = some c) : 0 ≤ i ∧ i < (L.length : Int) := by
  unfold getI at h
  by_cases hi : i < 0
  · rw [if_pos hi] at h
    exact absurd h (by simp)
  · rw [if_neg hi] at h
    have := List.get?_eq_some.mp h
    obtain ⟨hlt, _⟩ := this
    constructor
    · omega
    · omega

theorem getI_of_bounds {L : List Nat} {i : Int} (h0 : 0 ≤ i)
    (hlt : i < (L.length : Int)) : ∃ c, getI L i = some c := by
  unfold getI
  rw [if_neg (by omega)]
  have hl : i.toNat < L.length := by omega
  exact ⟨L.get ⟨i.toNat, hl⟩, List.get?_eq_get hl⟩

theorem segI_single {L : List Nat} {a : Int} {c : Nat} (h0 : 0 ≤ a)
    (h : getI L a = some c) : segI L a (a + 1) = [c] := by
  unfold segI
  have h1 : (a + 1 - a).toNat = 1 := by omega
  rw [h1]
  unfold getI at h
  rw [if_neg (by omega)] at h
  obtain ⟨hlt, hget⟩ := List.get?_eq_some.mp h
  rw [List.drop_eq_get_cons hlt, List.take_cons, List.take_zero, hget]
  omega

theorem segI_snoc {L : List Nat} {a b : Int} {c : Nat} (h0 : 0 ≤ a) (hab : a ≤ b)
    (h : getI L b = some c) : segI L a (b + 1) = segI L a b ++ [c] := by
  have hb0 : 0 ≤ b := (getI_some_bounds h).1
  rw [segI_split L h0 hab (by omega : b ≤ b + 1), segI_single hb0 h]

theorem segI_cons {L : List Nat} {a b : Int} {c : Nat} (h0 : 0 ≤ a) (hab : a < b)
    (h : getI L a = some c) : segI L a b = c :: segI L (a + 1) b := by
  rw [segI_split L h0 (by omega : a ≤ a + 1) (by omega : a + 1 ≤ b),
    segI_single h0 h, List.singleton_append]

/-! ## Basic facts about the cost functions `eF` and `eB` -/

theorem rectWF_of_smsWF {env : SmsEnv} (h : SmsWF env) : RectWF env :=
  ⟨h.1, le_of_lt h.2.1, h.2.2.1, h.2.2.2.1, le_of_lt h.2.2.2.2.1, h.2.2.2.2.2.1⟩

theorem take_sublist_take {α : Type} (xs : List α) {m m' : Nat} (h : m ≤ m') :
    (xs.take m).Sublist (xs.take m') := by
  have h1 : xs.take m = (xs.take m').take m := by
    rw [List.take_take, Nat.min_eq_left h]
  rw [h1]
  exact List.take_sublist _ _

theorem segI_sublist_right {L : List Nat} {a b b' : Int} (h : b ≤ b') :
    (segI L a b).Sublist (segI L a b') := by
  unfold segI
  exact take_sublist_take _ (by omega)

theorem segI_sublist_left {L : List Nat} {a a' b : Int} (h0 : 0 ≤ a')
    (h : a' ≤ a) : (segI L a b).Sublist (segI L a' b) := by
  by_cases hab : a ≤ b
  · rw [segI_split L h0 h hab]
    exact List.sublist_append_right _ _
  · rw [segI_nil (by omega)]
    exact List.nil_sublist _

theorem segI_length_le (L : List Nat) (a b : Int) :
    (segI L a b).length ≤ (b - a).toNat := by
  unfold segI
  rw [List.length_take]
  exact min_le_left _ _

theorem segI_ext_le_one (L : List Nat) {a b b' : Int} (h0 : 0 ≤ a) (hbb : b ≤ b')
    (h1 : b' ≤ b + 1) : ∃ zs, segI L a b' = segI L a b ++ zs ∧ zs.length ≤ 1 := by
  by_cases hba : b ≤ a
  · refine ⟨segI L a b', ?_, ?_⟩
    · rw [segI_nil hba, List.nil_append]
    · exact le_trans (segI_length_le _ _ _) (by omega)
  · refine ⟨segI L b b', segI_split L h0 (by omega) hbb, ?_⟩
    exact le_trans (segI_length_le _ _ _) (by omega)

theorem segI_front_ext_le_one (L : List Nat) {a a' b : Int} (h0 : 0 ≤ a')
    (ha : a' ≤ a) (h1 : a ≤ a' + 1) :
    ∃ zs, segI L a' b = zs ++ segI L a b ∧ zs.length ≤ 1 := by
  by_cases hab : a ≤ b
  · refine ⟨segI L a' a, (segI_split L h0 ha hab).symm ▸ rfl, ?_⟩
    exact le_trans (segI_length_le _ _ _) (by omega)
  · refine ⟨segI L a' b, ?_, ?_⟩
    · rw [segI_nil (a := a) (b := b) (by omega), List.append_nil]
    · exact le_trans (segI_length_le _ _ _) (by omega)

theorem lcsLen_front_ext_le_one (xs ys zs ws : List Nat) (hz : zs.length ≤ 1)
    (hw : ws.length ≤ 1) : lcsLen (zs ++ xs) (ws ++ ys) ≤ lcsLen xs ys + 1 := by
  rw [← lcsLen_rev, List.reverse_append, List.reverse_append]
  calc lcsLen (xs.reverse ++ zs.reverse) (ys.reverse ++ ws.reverse)
      ≤ lcsLen xs.reverse ys.reverse + 1 :=
        lcsLen_ext_le_one _ _ _ _ (by simpa using hz) (by simpa using hw)
    _ = lcsLen xs ys + 1 := by rw [lcsLen_rev]

theorem cF_mono (env : SmsEnv) {x y x' y' : Int} (hx : x ≤ x') (hy : y ≤ y') :
    cF env x y ≤ cF env x' y' := by
  unfold cF
  exact le_trans
    (lcsLen_mono_left _ (segI_sublist_right (by omega)))
    (lcsLen_mono_right _ (segI_sublist_right (by omega)))

theorem cF_le_left (env : SmsEnv) (h : RectWF env) {x y : Int}
    (hx : env.ll ≤ x) : (cF env x y : Int) ≤ x - env.ll := by
  obtain ⟨h1, h2, h3, h4, h5, h6⟩ := h
  have hb := lcsLen_le_length_left (segI env.L env.ll (min x env.lu))
    (segI env.R env.rl (min y env.ru))
  have hl : (segI env.L env.ll (min x env.lu)).length = (min x env.lu - env.ll).toNat :=
    segI_length h1 (le_trans (min_le_right _ _) h3)
  unfold cF
  omega

theorem cF_le_right (env : SmsEnv) (h : RectWF env) {x y : Int}
    (hy : env.rl ≤ y) : (cF env x y : Int) ≤ y - env.rl := by
  obtain ⟨h1, h2, h3, h4, h5, h6⟩ := h
  have hb := lcsLen_le_length_right (segI env.L env.ll (min x env.lu))
    (segI env.R env.rl (min y env.ru))
  have hl : (segI env.R env.rl (min y env.ru)).length = (min y env.ru - env.rl).toNat :=
    segI_length h4 (le_trans (min_le_right _ _) h6)
  unfold cF
  omega

theorem cF_le_cAB (env : SmsEnv) (x y : Int) :
    cF env x y ≤ lcsLen (segI env.L env.ll env.lu) (segI env.R env.rl env.ru) := by
  unfold cF
  exact le_trans
    (lcsLen_mono_left _ (segI_sublist_right (min_le_right _ _)))
    (lcsLen_mono_right _ (segI_sublist_right (min_le_right _ _)))

theorem cF_step_le (env : SmsEnv) (h : RectWF env) {x y x' y' : Int}
    (hx : x ≤ x') (hx1 : x' ≤ x + 1) (hy : y ≤ y') (hy1 : y' ≤ y + 1) :
    cF env x' y' ≤ cF env x y + 1 := by
  have hzex : ∃ zs, segI env.L env.ll (min x' env.lu) =
      segI env.L env.ll (min x env.lu) ++ zs ∧ zs.length ≤ 1 :=
    segI_ext_le_one env.L h.1 (by omega) (by omega)
  have hwex : ∃ ws, segI env.R env.rl (min y' env.ru) =
      segI env.R env.rl (min y env.ru) ++ ws ∧ ws.length ≤ 1 :=
    segI_ext_le_one env.R h.2.2.2.1 (by omega) (by omega)
  obtain ⟨zs, hzs, hzl⟩ := hzex
  obtain ⟨ws, hws, hwl⟩ := hwex
  unfold cF
  rw [hzs, hws]
  exact lcsLen_ext_le_one _ _ _ _ hzl hwl

theorem eF_right_le (env : SmsEnv) (x y : Int) :
    eF env (x + 1) y ≤ eF env x y + 1 := by
  have h1 := cF_mono env (le_of_lt (lt_add_one x)) (le_refl y)
  unfold eF
  omega

theorem eF_down_le (env : SmsEnv) (x y : Int) :
    eF env x (y + 1) ≤ eF env x y + 1 := by
  have h1 := cF_mono env (le_refl x) (le_of_lt (lt_add_one y))
  unfold eF
  omega

theorem eF_right_ge (env : SmsEnv) (h : RectWF env) (x y : Int) :
    eF env x y - 1 ≤ eF env (x + 1) y := by
  have h1 := cF_step_le env h (le_of_lt (lt_add_one x)) (le_refl (x + 1))
    (le_refl y) (by omega)
  unfold eF
  omega

theorem eF_down_ge (env : SmsEnv) (h : RectWF env) (x y : Int) :
    eF env x y - 1 ≤ eF env x (y + 1) := by
  have h1 := cF_step_le env h (le_refl x) (by omega) (le_of_lt (lt_add_one y))
    (le_refl (y + 1))
  unfold eF
  omega

theorem eF_diag_ge (env : SmsEnv) (h : RectWF env) (x y : Int) :
    eF env x y ≤ eF env (x + 1) (y + 1) := by
  have h1 := cF_step_le env h (le_of_lt (lt_add_one x)) (le_refl (x + 1))
    (le_of_lt (lt_add_one y)) (le_refl (y + 1))
  unfold eF
  omega

theorem eF_diag_eq_of_match (env : SmsEnv) (h : RectWF env) {x y : Int}
    (hx0 : env.ll ≤ x) (hx1 : x < env.lu) (hy0 : env.rl ≤ y) (hy1 : y < env.ru)
    (hm : getI env.L x = getI env.R y) : eF env (x + 1) (y + 1) = eF env x y := by
  obtain ⟨h1, h2, h3, h4, h5, h6⟩ := h
  obtain ⟨cx, hcx⟩ := getI_of_bounds (by omega) (by omega : x < (env.L.length : Int))
  have hcy : getI env.R y = some cx := by rw [← hm, hcx]
  have hLseg : segI env.L env.ll (x + 1) = segI env.L env.ll x ++ [cx] :=
    segI_snoc h1 hx0 hcx
  have hRseg : segI env.R env.rl (y + 1) = segI env.R env.rl y ++ [cx] :=
    segI_snoc h4 hy0 hcy
  have hminx : min x env.lu = x := min_eq_left (by omega)
  have hminx1 : min (x + 1) env.lu = x + 1 := min_eq_left (by omega)
  have hminy : min y env.ru = y := min_eq_left (by omega)
  have hminy1 : min (y + 1) env.ru = y + 1 := min_eq_left (by omega)
  unfold eF cF
  rw [hminx, hminx1, hminy, hminy1, hLseg, hRseg, lcsLen_concat_eq]
  push_cast
  ring

theorem eF_ge_diff1 (env : SmsEnv) (h : RectWF env) {x y : Int}
    (hy : env.rl ≤ y) : (x - env.ll) - (y - env.rl) ≤ eF env x y := by
  have h1 := cF_le_right env h (x := x) hy
  unfold eF
  omega

theorem eF_ge_diff2 (env : SmsEnv) (h : RectWF env) {x y : Int}
    (hx : env.ll ≤ x) : (y - env.rl) - (x - env.ll) ≤ eF env x y := by
  have h1 := cF_le_left env h (y := y) hx
  unfold eF
  omega

theorem eF_nonneg (env : SmsEnv) (h : RectWF env) {x y : Int}
    (hx : env.ll ≤ x) (hy : env.rl ≤ y) : 0 ≤ eF env x y := by
  have h1 := eF_ge_diff1 env h (x := x) hy
  have h2 := eF_ge_diff2 env h (y := y) hx
  omega

theorem eF_parity (env : SmsEnv) (x k : Int) :
    eF env x (x - k) - (k - (env.ll - env.rl)) =
      2 * (x - k - env.rl - (cF env x (x - k) : Int)) := by
  unfold eF
  ring

theorem eF_ge_out (env : SmsEnv) (x y : Int) :
    Dtot env + (x - env.lu) + (y - env.ru) ≤ eF env x y := by
  have h1 := cF_le_cAB env x y
  unfold eF Dtot
  omega

theorem cB_antitone (env : SmsEnv) (h : RectWF env) {x y x' y' : Int}
    (hx : x ≤ x') (hy : y ≤ y') : cB env x' y' ≤ cB env x y := by
  unfold cB
  exact le_trans
    (lcsLen_mono_left _ (segI_sublist_left (le_trans h.1 (le_max_right _ _))
      (by omega)))
    (lcsLen_mono_right _ (segI_sublist_left (le_trans h.2.2.2.1 (le_max_right _ _))
      (by omega)))

theorem cB_le_left (env : SmsEnv) (h : RectWF env) {x y : Int}
    (hx : x ≤ env.lu) : (cB env x y : Int) ≤ env.lu - x := by
  obtain ⟨h1, h2, h3, h4, h5, h6⟩ := h
  have hb := lcsLen_le_length_left (segI env.L (max x env.ll) env.lu)
    (segI env.R (max y env.rl) env.ru)
  have hl : (segI env.L (max x env.ll) env.lu).length = (env.lu - max x env.ll).toNat :=
    segI_length (le_trans h1 (le_max_right _ _)) h3
  unfold cB
  omega

theorem cB_le_right (env : SmsEnv) (h : RectWF env) {x y : Int}
    (hy : y ≤ env.ru) : (cB env x y : Int) ≤ env.ru - y := by
  obtain ⟨h1, h2, h3, h4, h5, h6⟩ := h
  have hb := lcsLen_le_length_right (segI env.L (max x env.ll) env.lu)
    (segI env.R (max y env.rl) env.ru)
  have hl : (segI env.R (max y env.rl) env.ru).length = (env.ru - max y env.rl).toNat :=
    segI_length (le_trans h4 (le_max_right _ _)) h6
  unfold cB
  omega

theorem cB_le_cAB (env : SmsEnv) (h : RectWF env) (x y : Int) :
    cB env x y ≤ lcsLen (segI env.L env.ll env.lu) (segI env.R env.rl env.ru) := by
  unfold cB
  exact le_trans
    (lcsLen_mono_left _ (segI_sublist_left h.1 (le_max_right _ _)))
    (lcsLen_mono_right _ (segI_sublist_left h.2.2.2.1 (le_max_right _ _)))

theorem cB_step_le (env : SmsEnv) (h : RectWF env) {x y x' y' : Int}
    (hx : x' ≤ x) (hx1 : x ≤ x' + 1) (hy : y' ≤ y) (hy1 : y ≤ y' + 1) :
    cB env x' y' ≤ cB env x y + 1 := by
  have hzex : ∃ zs, segI env.L (max x' env.ll) env.lu =
      zs ++ segI env.L (max x env.ll) env.lu ∧ zs.length ≤ 1 :=
    segI_front_ext_le_one env.L (le_trans h.1 (le_max_right _ _)) (by omega) (by omega)
  have hwex : ∃ ws, segI env.R (max y' env.rl) env.ru =
      ws ++ segI env.R (max y env.rl) env.ru ∧ ws.length ≤ 1 :=
    segI_front_ext_le_one env.R (le_trans h.2.2.2.1 (le_max_right _ _)) (by omega)
      (by omega)
  obtain ⟨zs, hzs, hzl⟩ := hzex
  obtain ⟨ws, hws, hwl⟩ := hwex
  unfold cB
  rw [hzs, hws]
  exact lcsLen_front_ext_le_one _ _ _ _ hzl hwl

theorem cB_zero_of_out (env : SmsEnv) {x y : Int}
    (hout : env.lu < x ∨ env.ru < y) : cB env x y = 0 := by
  unfold cB
  rcases hout with hx | hy
  · rw [segI_nil (by omega : env.lu ≤ max x env.ll), lcsLen_nil_left]
  · rw [segI_nil (by omega : env.ru ≤ max y env.rl), lcsLen_nil_right]

theorem eB_left_le (env : SmsEnv) (h : RectWF env) (x y : Int) :
    eB env (x - 1) y ≤ eB env x y + 1 := by
  have h1 := cB_antitone env h (by omega : x - 1 ≤ x) (le_refl y)
  unfold eB
  omega

theorem eB_up_le (env : SmsEnv) (h : RectWF env) (x y : Int) :
    eB env x (y - 1) ≤ eB env x y + 1 := by
  have h1 := cB_antitone env h (le_refl x) (by omega : y - 1 ≤ y)
  unfold eB
  omega

theorem eB_left_ge (env : SmsEnv) (h : RectWF env) (x y : Int) :
    eB env x y - 1 ≤ eB env (x - 1) y := by
  have h1 := cB_step_le env h (by omega : x - 1 ≤ x) (by omega) (le_refl y) (by omega)
  unfold eB
  omega

theorem eB_up_ge (env : SmsEnv) (h : RectWF env) (x y : Int) :
    eB env x y - 1 ≤ eB env x (y - 1) := by
  have h1 := cB_step_le env h (le_refl x) (by omega) (by omega : y - 1 ≤ y) (by omega)
  unfold eB
  omega

theorem eB_diag_ge (env : SmsEnv) (h : RectWF env) (x y : Int) :
    eB env x y ≤ eB env (x - 1) (y - 1) := by
  have h1 := cB_step_le env h (by omega : x - 1 ≤ x) (by omega) (by omega : y - 1 ≤ y)
    (by omega)
  unfold eB
  omega

theorem eB_diag_eq_of_match (env : SmsEnv) (h : RectWF env) {x y : Int}
    (hx0 : env.ll ≤ x) (hx1 : x < env.lu) (hy0 : env.rl ≤ y) (hy1 : y < env.ru)
    (hm : getI env.L x = getI env.R y) : eB env x y = eB env (x + 1) (y + 1) := by
  obtain ⟨h1, h2, h3, h4, h5, h6⟩ := h
  obtain ⟨cx, hcx⟩ := getI_of_bounds (by omega) (by omega : x < (env.L.length : Int))
  have hcy : getI env.R y = some cx := by rw [← hm, hcx]
  have hLseg : segI env.L x env.lu = cx :: segI env.L (x + 1) env.lu :=
    segI_cons (by omega) hx1 hcx
  have hRseg : segI env.R y env.ru = cx :: segI env.R (y + 1) env.ru :=
    segI_cons (by omega) hy1 hcy
  have hmaxx : max x env.ll = x := max_eq_left hx0
  have hmaxx1 : max (x + 1) env.ll = x + 1 := max_eq_left (by omega)
  have hmaxy : max y env.rl = y := max_eq_left hy0
  have hmaxy1 : max (y + 1) env.rl = y + 1 := max_eq_left (by omega)
  unfold eB cB
  rw [hmaxx, hmaxx1, hmaxy, hmaxy1, hLseg, hRseg, lcsLen_cons_eq]
  push_cast
  ring

theorem eB_ge_diff1 (env : SmsEnv) (h : RectWF env) {x y : Int}
    (hy : y ≤ env.ru) : (env.lu - x) - (env.ru - y) ≤ eB env x y := by
  have h1 := cB_le_right env h (x := x) hy
  unfold eB
  omega

theorem eB_ge_diff2 (env : SmsEnv) (h : RectWF env) {x y : Int}
    (hx : x ≤ env.lu) : (env.ru - y) - (env.lu - x) ≤ eB env x y := by
  have h1 := cB_le_left env h (y := y) hx
  unfold eB
  omega

theorem eB_nonneg (env : SmsEnv) (h : RectWF env) {x y : Int}
    (hx : x ≤ env.lu) (hy : y ≤ env.ru) : 0 ≤ eB env x y := by
  have h1 := eB_ge_diff1 env h (x := x) hy
  have h2 := eB_ge_diff2 env h (y := y) hx
  omega

theorem eB_parity (env : SmsEnv) (x k : Int) :
    eB env x (x - k) - ((env.lu - env.ru) - k) =
      2 * (env.ru - (x - k) - (cB env x (x - k) : Int)) := by
  unfold eB
  ring

theorem eB_ge_out (env : SmsEnv) (h : RectWF env) (x y : Int) :
    Dtot env + (env.ll - x) + (env.rl - y) ≤ eB env x y := by
  have h1 := cB_le_cAB env h x y
  unfold eB Dtot
  omega

/-- The edit distance of the rectangle splits over any in-rectangle point. -/
theorem split_in_box (env : SmsEnv) (h : RectWF env) {x y : Int}
    (h1 : env.ll ≤ x) (h2 : x ≤ env.lu) (h3 : env.rl ≤ y) (h4 : y ≤ env.ru) :
    Dtot env ≤ eF env x y + eB env x y := by
  obtain ⟨hA, hB, hC, hD, hE, hF⟩ := h
  have hsup := lcsLen_superadd (segI env.L env.ll x) (segI env.L x env.lu)
    (segI env.R env.rl y) (segI env.R y env.ru)
  rw [← segI_split env.L hA h1 h2, ← segI_split env.R hD h3 h4] at hsup
  have hminx : min x env.lu = x := min_eq_left h2
  have hminy : min y env.ru = y := min_eq_left h4
  have hmaxx : max x env.ll = x := max_eq_left h1
  have hmaxy : max y env.rl = y := max_eq_left h3
  unfold Dtot eF eB cF cB
  rw [hminx, hminy, hmaxx, hmaxy]
  omega

/-- The splitting inequality on the forward-extended grid. -/
theorem split_ext (env : SmsEnv) (h : RectWF env) {x y : Int}
    (h1 : env.ll ≤ x) (h3 : env.rl ≤ y) :
    Dtot env ≤ eF env x y + eB env x y := by
  by_cases hbox : x ≤ env.lu ∧ y ≤ env.ru
  · exact split_in_box env h h1 hbox.1 h3 hbox.2
  · have hout : env.lu < x ∨ env.ru < y := by omega
    have hz := cB_zero_of_out env hout
    have hf := eF_ge_out env x y
    unfold eB
    rw [hz]
    omega

/-- When the split is tight at an in-rectangle point, the matched-pair counts
of the two sub-rectangles add up exactly. -/
theorem split_exact (env : SmsEnv) (h : RectWF env) {x y : Int}
    (h1 : env.ll ≤ x) (h2 : x ≤ env.lu) (h3 : env.rl ≤ y) (h4 : y ≤ env.ru)
    (hle : eF env x y + eB env x y ≤ Dtot env) :
    lcsLen (segI env.L env.ll x) (segI env.R env.rl y) +
      lcsLen (segI env.L x env.lu) (segI env.R y env.ru) =
      lcsLen (segI env.L env.ll env.lu) (segI env.R env.rl env.ru) := by
  obtain ⟨hA, hB, hC, hD, hE, hF⟩ := h
  have hsup := lcsLen_superadd (segI env.L env.ll x) (segI env.L x env.lu)
    (segI env.R env.rl y) (segI env.R y env.ru)
  rw [← segI_split env.L hA h1 h2, ← segI_split env.R hD h3 h4] at hsup
  have hminx : min x env.lu = x := min_eq_left h2
  have hminy : min y env.ru = y := min_eq_left h4
  have hmaxx : max x env.ll = x := max_eq_left h1
  have hmaxy : max y env.rl = y := max_eq_left h3
  unfold Dtot eF eB cF cB at hle
  rw [hminx, hminy, hmaxx, hmaxy] at hle
  omega

/-! ## The rectangle's edit distance under differing corners -/

theorem Dtot_parity (env : SmsEnv) :
    Dtot env - ((env.lu - env.ll) - (env.ru - env.rl)) =
      2 * ((env.ru - env.rl) -
        (lcsLen (segI env.L env.ll env.lu) (segI env.R env.rl env.ru) : Int)) := by
  unfold Dtot
  ring

theorem Dtot_le (env : SmsEnv) :
    Dtot env ≤ (env.lu - env.ll) + (env.ru - env.rl) := by
  unfold Dtot
  have h : (0 : Int) ≤
      (lcsLen (segI env.L env.ll env.lu) (segI env.R env.rl env.ru) : Int) := by
    exact_mod_cast Nat.zero_le _
  omega

/-- A proper sublist one element short shares its first or its last element
with the longer list. -/
theorem sublist_len_succ_head_or_last {A B : List Nat} (h : A.Sublist B)
    (hlen : B.length = A.length + 1) (hne : A ≠ []) :
    A.head? = B.head? ∨ A.getLast? = B.getLast? := by
  cases h with
  | slnil => simp at hlen
  | cons b h' =>
    rename_i B'
    have hAB : A = B' := by
      refine (List.Sublist.length_eq h').mp ?_
      simp only [List.length_cons] at hlen
      omega
    subst hAB
    right
    match A, hne with
    | a :: A', _ => rfl
  | cons₂ a h' =>
    left
    rfl

theorem corners_differ_len {A B : List Nat} (hA : A ≠ []) (hB : B ≠ [])
    (hhead : A.head? ≠ B.head?) (hlast : A.getLast? ≠ B.getLast?) :
    2 * lcsLen A B + 2 ≤ A.length + B.length := by
  by_contra hc
  push_neg at hc
  obtain ⟨ws, h1, h2, h3⟩ := lcsLen_ex A B
  have l1 : ws.length ≤ A.length := h1.length_le
  have l2 : ws.length ≤ B.length := h2.length_le
  rw [← h3] at hc
  by_cases hA1 : A.length = ws.length
  · have hwA : ws = A := (List.Sublist.length_eq h1).mp hA1.symm
    subst hwA
    by_cases hB1 : B.length = ws.length
    · have hwB : ws = B := (List.Sublist.length_eq h2).mp hB1.symm
      subst hwB
      exact hhead rfl
    · have hB2 : B.length = ws.length + 1 := by omega
      rcases sublist_len_succ_head_or_last h2 hB2 hA with hh | hl
      · exact hhead hh
      · exact hlast hl
  · have hA2 : A.length = ws.length + 1 := by omega
    have hB1 : B.length = ws.length := by omega
    have hwB : ws = B := (List.Sublist.length_eq h2).mp hB1.symm
    subst hwB
    rcases sublist_len_succ_head_or_last h1 hA2 hB with hh | hl
    · exact hhead hh.symm
    · exact hlast hl.symm

/-- A trimmed rectangle (differing codes at both corners, both sides
non-empty) has edit distance at least 2. -/
theorem Dtot_ge_two (env : SmsEnv) (h : SmsWF env) : 2 ≤ Dtot env := by
  obtain ⟨h1, h2, h3, h4, h5, h6, _, _, _, hcl, hcu⟩ := h
  obtain ⟨ca, hca⟩ := getI_of_bounds (by omega) (by omega : env.ll < (env.L.length : Int))
  obtain ⟨cb, hcb⟩ := getI_of_bounds (by omega) (by omega : env.rl < (env.R.length : Int))
  obtain ⟨da, hda⟩ := getI_of_bounds (by omega)
    (by omega : env.lu - 1 < (env.L.length : Int))
  obtain ⟨db, hdb⟩ := getI_of_bounds (by omega)
    (by omega : env.ru - 1 < (env.R.length : Int))
  have hAcons : segI env.L env.ll env.lu = ca :: segI env.L (env.ll + 1) env.lu :=
    segI_cons h1 h2 hca
  have hBcons : segI env.R env.rl env.ru = cb :: segI env.R (env.rl + 1) env.ru :=
    segI_cons h4 h5 hcb
  have hAsnoc : segI env.L env.ll env.lu = segI env.L env.ll (env.lu - 1) ++ [da] := by
    have := segI_snoc h1 (by omega : env.ll ≤ env.lu - 1) hda
    rw [show env.lu - 1 + 1 = env.lu by omega] at this
    exact this
  have hBsnoc : segI env.R env.rl env.ru = segI env.R env.rl (env.ru - 1) ++ [db] := by
    have := segI_snoc h4 (by omega : env.rl ≤ env.ru - 1) hdb
    rw [show env.ru - 1 + 1 = env.ru by omega] at this
    exact this
  have hheads : (segI env.L env.ll env.lu).head? ≠ (segI env.R env.rl env.ru).head? := by
    rw [hAcons, hBcons]
    intro hcon
    simp only [List.head?_cons, Option.some.injEq] at hcon
    exact hcl (by rw [hca, hcb, hcon])
  have hlasts : (segI env.L env.ll env.lu).getLast? ≠
      (segI env.R env.rl env.ru).getLast? := by
    rw [hAsnoc, hBsnoc, List.getLast?_concat, List.getLast?_concat]
    intro hcon
    simp only [Option.some.injEq] at hcon
    exact hcu (by rw [hda, hdb, hcon])
  have hAne : segI env.L env.ll env.lu ≠ [] := by
    rw [hAcons]
    exact List.cons_ne_nil _ _
  have hBne : segI env.R env.rl env.ru ≠ [] := by
    rw [hBcons]
    exact List.cons_ne_nil _ _
  have hcount := corners_differ_len hAne hBne hheads hlasts
  have hlenA : (segI env.L env.ll env.lu).length = (env.lu - env.ll).toNat :=
    segI_length h1 h3
  have hlenB : (segI env.R env.rl env.ru).length = (env.ru - env.rl).toNat :=
    segI_length h4 h6
  unfold Dtot
  omega

/-! ## Characterization of the snake loops -/

theorem fwdSnakeAux_ge (L R : List Nat) (lu ru k : Int) :
    ∀ (fuel : Nat) (x : Int), x ≤ fwdSnakeAux L R lu ru k fuel x := by
  intro fuel
  induction fuel with
  | zero => intro x; exact le_refl x
  | succ fuel ih =>
    intro x
    unfold fwdSnakeAux
    split
    · exact le_trans (by omega) (ih (x + 1))
    · exact le_refl x

theorem fwdSnakeAux_matches (L R : List Nat) (lu ru k : Int) :
    ∀ (fuel : Nat) (x t : Int), x ≤ t → t < fwdSnakeAux L R lu ru k fuel x →
      t < lu ∧ t - k < ru ∧ getI L t = getI R (t - k) := by
  intro fuel
  induction fuel with
  | zero =>
    intro x t hxt ht
    unfold fwdSnakeAux at ht
    omega
  | succ fuel ih =>
    intro x t hxt ht
    unfold fwdSnakeAux at ht
    split at ht
    · rename_i hg
      by_cases hx : t = x
      · subst hx; exact hg
      · exact ih (x + 1) t (by omega) ht
    · omega

theorem fwdSnakeAux_stop (L R : List Nat) (lu ru k : Int) :
    ∀ (fuel : Nat) (x : Int), (lu - x).toNat ≤ fuel →
      ¬(fwdSnakeAux L R lu ru k fuel x < lu ∧
        fwdSnakeAux L R lu ru k fuel x - k < ru ∧
        getI L (fwdSnakeAux L R lu ru k fuel x) =
          getI R (fwdSnakeAux L R lu ru k fuel x - k)) := by
  intro fuel
  induction fuel with
  | zero =>
    intro x hf
    unfold fwdSnakeAux
    intro hcon
    omega
  | succ fuel ih =>
    intro x hf
    unfold fwdSnakeAux
    split
    · rename_i hg
      exact ih (x + 1) (by omega)
    · rename_i hg
      exact hg

theorem fwdSnake_ge (L R : List Nat) (lu ru k x0 : Int) :
    x0 ≤ fwdSnake L R lu ru k x0 :=
  fwdSnakeAux_ge L R lu ru k _ x0

theorem fwdSnake_matches (L R : List Nat) (lu ru k x0 : Int) {t : Int}
    (h1 : x0 ≤ t) (h2 : t < fwdSnake L R lu ru k x0) :
    t < lu ∧ t - k < ru ∧ getI L t = getI R (t - k) :=
  fwdSnakeAux_matches L R lu ru k _ x0 t h1 h2

theorem fwdSnake_stop (L R : List Nat) (lu ru k x0 : Int) :
    ¬(fwdSnake L R lu ru k x0 < lu ∧ fwdSnake L R lu ru k x0 - k < ru ∧
      getI L (fwdSnake L R lu ru k x0) = getI R (fwdSnake L R lu ru k x0 - k)) :=
  fwdSnakeAux_stop L R lu ru k _ x0 (le_refl _)

theorem fwdSnake_match_step (L R : List Nat) (lu ru k : Int) {x0 : Int}
    (hg : x0 < lu ∧ x0 - k < ru ∧ getI L x0 = getI R (x0 - k)) :
    fwdSnake L R lu ru k x0 = fwdSnake L R lu ru k (x0 + 1) := by
  unfold fwdSnake
  have hf : (lu - x0).toNat = (lu - (x0 + 1)).toNat + 1 := by omega
  rw [hf]
  conv_lhs => rw [fwdSnakeAux]
  rw [if_pos hg]

theorem fwdSnake_ge_of_run (L R : List Nat) (lu ru k : Int) :
    ∀ (x0 z : Int), x0 ≤ z →
      (∀ t, x0 ≤ t → t < z → t < lu ∧ t - k < ru ∧ getI L t = getI R (t - k)) →
      z ≤ fwdSnake L R lu ru k x0 := by
  have main : ∀ (n : Nat) (x0 z : Int), (z - x0).toNat ≤ n → x0 ≤ z →
      (∀ t, x0 ≤ t → t < z → t < lu ∧ t - k < ru ∧ getI L t = getI R (t - k)) →
      z ≤ fwdSnake L R lu ru k x0 := by
    intro n
    induction n with
    | zero =>
      intro x0 z hn hxz hrun
      have hz : z = x0 := by omega
      subst hz
      exact fwdSnake_ge L R lu ru k z
    | succ n ih =>
      intro x0 z hn hxz hrun
      by_cases hz : z ≤ x0
      · exact le_trans hz (fwdSnake_ge L R lu ru k x0)
      · have hg := hrun x0 (le_refl x0) (by omega)
        rw [fwdSnake_match_step L R lu ru k hg]
        exact ih (x0 + 1) z (by omega) (by omega)
          (fun t ht1 ht2 => hrun t (by omega) ht2)
  intro x0 z hxz hrun
  exact main (z - x0).toNat x0 z (le_refl _) hxz hrun

theorem fwdSnake_mono (L R : List Nat) (lu ru k : Int) {x0 x0' : Int}
    (h : x0 ≤ x0') : fwdSnake L R lu ru k x0 ≤ fwdSnake L R lu ru k x0' := by
  by_cases hc : fwdSnake L R lu ru k x0 ≤ x0'
  · exact le_trans hc (fwdSnake_ge L R lu ru k x0')
  · push_neg at hc
    exact fwdSnake_ge_of_run L R lu ru k x0' (fwdSnake L R lu ru k x0) (by omega)
      (fun t ht1 ht2 => fwdSnake_matches L R lu ru k x0 (by omega) ht2)

/-- The forward snake preserves the two lower bounds and the forward cost. -/
theorem fwdSnake_preserves (env : SmsEnv) (h : RectWF env) (k : Int) :
    ∀ (x0 : Int), env.ll ≤ x0 → env.rl ≤ x0 - k →
      env.ll ≤ fwdSnake env.L env.R env.lu env.ru k x0 ∧
      env.rl ≤ fwdSnake env.L env.R env.lu env.ru k x0 - k ∧
      eF env (fwdSnake env.L env.R env.lu env.ru k x0)
        (fwdSnake env.L env.R env.lu env.ru k x0 - k) = eF env x0 (x0 - k) := by
  have main : ∀ (n : Nat) (x0 : Int), (env.lu - x0).toNat ≤ n → env.ll ≤ x0 →
      env.rl ≤ x0 - k →
      env.ll ≤ fwdSnake env.L env.R env.lu env.ru k x0 ∧
      env.rl ≤ fwdSnake env.L env.R env.lu env.ru k x0 - k ∧
      eF env (fwdSnake env.L env.R env.lu env.ru k x0)
        (fwdSnake env.L env.R env.lu env.ru k x0 - k) = eF env x0 (x0 - k) := by
    intro n
    induction n with
    | zero =>
      intro x0 hn h1 h2
      have hz : fwdSnake env.L env.R env.lu env.ru k x0 = x0 := by
        unfold fwdSnake
        have h0 : (env.lu - x0).toNat = 0 := by omega
        rw [h0]
        rfl
      rw [hz]
      exact ⟨h1, h2, rfl⟩
    | succ n ih =>
      intro x0 hn h1 h2
      by_cases hg : x0 < env.lu ∧ x0 - k < env.ru ∧
          getI env.L x0 = getI env.R (x0 - k)
      · rw [fwdSnake_match_step env.L env.R env.lu env.ru k hg]
        obtain ⟨ha, hb, hc⟩ := ih (x0 + 1) (by omega) (by omega) (by omega)
        refine ⟨ha, hb, ?_⟩
        rw [hc, show x0 + 1 - k = (x0 - k) + 1 by ring]
        exact eF_diag_eq_of_match env h h1 hg.1 h2 hg.2.1 hg.2.2
      · have hz : fwdSnake env.L env.R env.lu env.ru k x0 = x0 := by
          by_contra hne
          have hlt : x0 < fwdSnake env.L env.R env.lu env.ru k x0 := by
            have := fwdSnake_ge env.L env.R env.lu env.ru k x0
            omega
          exact hg (fwdSnake_matches env.L env.R env.lu env.ru k x0 (le_refl x0) hlt)
        rw [hz]
        exact ⟨h1, h2, rfl⟩
  intro x0 h1 h2
  exact main (env.lu - x0).toNat x0 (le_refl _) h1 h2

theorem bwdSnakeAux_le (L R : List Nat) (ll rl k : Int) :
    ∀ (fuel : Nat) (x : Int), bwdSnakeAux L R ll rl k fuel x ≤ x := by
  intro fuel
  induction fuel with
  | zero => intro x; exact le_refl x
  | succ fuel ih =>
    intro x
    unfold bwdSnakeAux
    split
    · exact le_trans (ih (x - 1)) (by omega)
    · exact le_refl x

theorem bwdSnakeAux_matches (L R : List Nat) (ll rl k : Int) :
    ∀ (fuel : Nat) (x t : Int), bwdSnakeAux L R ll rl k fuel x < t → t ≤ x →
      ll < t ∧ rl < t - k ∧ getI L (t - 1) = getI R (t - k - 1) := by
  intro fuel
  induction fuel with
  | zero =>
    intro x t ht hxt
    unfold bwdSnakeAux at ht
    omega
  | succ fuel ih =>
    intro x t ht hxt
    unfold bwdSnakeAux at ht
    split at ht
    · rename_i hg
      by_cases hx : t = x
      · subst hx; exact hg
      · exact ih (x - 1) t ht (by omega)
    · omega

theorem bwdSnakeAux_stop (L R : List Nat) (ll rl k : Int) :
    ∀ (fuel : Nat) (x : Int), (x - ll).toNat ≤ fuel →
      ¬(ll < bwdSnakeAux L R ll rl k fuel x ∧
        rl < bwdSnakeAux L R ll rl k fuel x - k ∧
        getI L (bwdSnakeAux L R ll rl k fuel x - 1) =
          getI R (bwdSnakeAux L R ll rl k fuel x - k - 1)) := by
  intro fuel
  induction fuel with
  | zero =>
    intro x hf
    unfold bwdSnakeAux
    intro hcon
    omega
  | succ fuel ih =>
    intro x hf
    unfold bwdSnakeAux
    split
    · rename_i hg
      exact ih (x - 1) (by omega)
    · rename_i hg
      exact hg

theorem bwdSnake_le (L R : List Nat) (ll rl k x0 : Int) :
    bwdSnake L R ll rl k x0 ≤ x0 :=
  bwdSnakeAux_le L R ll rl k _ x0

theorem bwdSnake_matches (L R : List Nat) (ll rl k x0 : Int) {t : Int}
    (h1 : bwdSnake L R ll rl k x0 < t) (h2 : t ≤ x0) :
    ll < t ∧ rl < t - k ∧ getI L (t - 1) = getI R (t - k - 1) :=
  bwdSnakeAux_matches L R ll rl k _ x0 t h1 h2

theorem bwdSnake_stop (L R : List Nat) (ll rl k x0 : Int) :
    ¬(ll < bwdSnake L R ll rl k x0 ∧ rl < bwdSnake L R ll rl k x0 - k ∧
      getI L (bwdSnake L R ll rl k x0 - 1) =
        getI R (bwdSnake L R ll rl k x0 - k - 1)) :=
  bwdSnakeAux_stop L R ll rl k _ x0 (le_refl _)

theorem bwdSnake_match_step (L R : List Nat) (ll rl k : Int) {x0 : Int}
    (hg : ll < x0 ∧ rl < x0 - k ∧ getI L (x0 - 1) = getI R (x0 - k - 1)) :
    bwdSnake L R ll rl k x0 = bwdSnake L R ll rl k (x0 - 1) := by
  unfold bwdSnake
  have hf : (x0 - ll).toNat = (x0 - 1 - ll).toNat + 1 := by omega
  rw [hf]
  conv_lhs => rw [bwdSnakeAux]
  rw [if_pos hg]

theorem bwdSnake_le_of_run (L R : List Nat) (ll rl k : Int) :
    ∀ (x0 z : Int), z ≤ x0 →
      (∀ t, z < t → t ≤ x0 → ll < t ∧ rl < t - k ∧
        getI L (t - 1) = getI R (t - k - 1)) →
      bwdSnake L R ll rl k x0 ≤ z := by
  have main : ∀ (n : Nat) (x0 z : Int), (x0 - z).toNat ≤ n → z ≤ x0 →
      (∀ t, z < t → t ≤ x0 → ll < t ∧ rl < t - k ∧
        getI L (t - 1) = getI R (t - k - 1)) →
      bwdSnake L R ll rl k x0 ≤ z := by
    intro n
    induction n with
    | zero =>
      intro x0 z hn hxz hrun
      have hz : z = x0 := by omega
      subst hz
      exact bwdSnake_le L R ll rl k z
    | succ n ih =>
      intro x0 z hn hxz hrun
      by_cases hz : x0 ≤ z
      · exact le_trans (bwdSnake_le L R ll rl k x0) hz
      · have hg := hrun x0 (by omega) (le_refl x0)
        rw [bwdSnake_match_step L R ll rl k hg]
        exact ih (x0 - 1) z (by omega) (by omega)
          (fun t ht1 ht2 => hrun t ht1 (by omega))
  intro x0 z hxz hrun
  exact main (x0 - z).toNat x0 z (le_refl _) hxz hrun

theorem bwdSnake_mono (L R : List Nat) (ll rl k : Int) {x0 x0' : Int}
    (h : x0 ≤ x0') : bwdSnake L R ll rl k x0 ≤ bwdSnake L R ll rl k x0' := by
  by_cases hc : x0 ≤ bwdSnake L R ll rl k x0'
  · exact le_trans (bwdSnake_le L R ll rl k x0) hc
  · push_neg at hc
    exact bwdSnake_le_of_run L R ll rl k x0 (bwdSnake L R ll rl k x0') (by omega)
      (fun t ht1 ht2 => bwdSnake_matches L R ll rl k x0' ht1 (by omega))

/-- The backward snake preserves the two upper bounds and the backward cost. -/
theorem bwdSnake_preserves (env : SmsEnv) (h : RectWF env) (k : Int) :
    ∀ (x0 : Int), x0 ≤ env.lu → x0 - k ≤ env.ru →
      bwdSnake env.L env.R env.ll env.rl k x0 ≤ env.lu ∧
      bwdSnake env.L env.R env.ll env.rl k x0 - k ≤ env.ru ∧
      eB env (bwdSnake env.L env.R env.ll env.rl k x0)
        (bwdSnake env.L env.R env.ll env.rl k x0 - k) = eB env x0 (x0 - k) := by
  have main : ∀ (n : Nat) (x0 : Int), (x0 - env.ll).toNat ≤ n → x0 ≤ env.lu →
      x0 - k ≤ env.ru →
      bwdSnake env.L env.R env.ll env.rl k x0 ≤ env.lu ∧
      bwdSnake env.L env.R env.ll env.rl k x0 - k ≤ env.ru ∧
      eB env (bwdSnake env.L env.R env.ll env.rl k x0)
        (bwdSnake env.L env.R env.ll env.rl k x0 - k) = eB env x0 (x0 - k) := by
    intro n
    induction n with
    | zero =>
      intro x0 hn h1 h2
      have hz : bwdSnake env.L env.R env.ll env.rl k x0 = x0 := by
        unfold bwdSnake
        have h0 : (x0 - env.ll).toNat = 0 := by omega
        rw [h0]
        rfl
      rw [hz]
      exact ⟨h1, h2, rfl⟩
    | succ n ih =>
      intro x0 hn h1 h2
      by_cases hg : env.ll < x0 ∧ env.rl < x0 - k ∧
          getI env.L (x0 - 1) = getI env.R (x0 - k - 1)
      · rw [bwdSnake_match_step env.L env.R env.ll env.rl k hg]
        obtain ⟨ha, hb, hc⟩ := ih (x0 - 1) (by omega) (by omega) (by omega)
        refine ⟨ha, hb, ?_⟩
        rw [hc]
        have hstep := eB_diag_eq_of_match env h (x := x0 - 1) (y := x0 - k - 1)
          (by omega) (by omega) (by omega) (by omega) hg.2.2
        rw [show x0 - 1 + 1 = x0 by ring, show x0 - k - 1 + 1 = x0 - k by ring] at hstep
        rw [show x0 - 1 - k = x0 - k - 1 by ring]
        exact hstep
      · have hz : bwdSnake env.L env.R env.ll env.rl k x0 = x0 := by
          by_contra hne
          have hlt : bwdSnake env.L env.R env.ll env.rl k x0 < x0 := by
            have := bwdSnake_le env.L env.R env.ll env.rl k x0
            omega
          exact hg (bwdSnake_matches env.L env.R env.ll env.rl k x0 hlt (le_refl x0))
        rw [hz]
        exact ⟨h1, h2, rfl⟩
  intro x0 h1 h2
  exact main (x0 - env.ll).toNat x0 (le_refl _) h1 h2

/-! ## Local step dichotomies for the cost functions -/

/-- Every point other than the origin has a predecessor: a free diagonal step
inside the rectangle, or a unit step of strictly smaller forward cost. -/
theorem backStepF (env : SmsEnv) (h : RectWF env) {x y : Int}
    (hx : env.ll ≤ x) (hy : env.rl ≤ y) (hne : ¬(x = env.ll ∧ y = env.rl)) :
    (env.ll < x ∧ env.rl < y ∧ x ≤ env.lu ∧ y ≤ env.ru ∧
      getI env.L (x - 1) = getI env.R (y - 1) ∧
      eF env (x - 1) (y - 1) = eF env x y) ∨
    (env.ll < x ∧ eF env (x - 1) y = eF env x y - 1) ∨
    (env.rl < y ∧ eF env x (y - 1) = eF env x y - 1) := by
  obtain ⟨hA, hB, hC, hD, hE, hF⟩ := h
  by_cases hlu : env.lu < x
  · refine Or.inr (Or.inl ⟨by omega, ?_⟩)
    have hc : cF env (x - 1) y = cF env x y := by
      unfold cF
      rw [min_eq_right (by omega : env.lu ≤ x - 1),
        min_eq_right (by omega : env.lu ≤ x)]
    unfold eF
    rw [hc]
    ring
  · by_cases hru : env.ru < y
    · refine Or.inr (Or.inr ⟨by omega, ?_⟩)
      have hc : cF env x (y - 1) = cF env x y := by
        unfold cF
        rw [min_eq_right (by omega : env.ru ≤ y - 1),
          min_eq_right (by omega : env.ru ≤ y)]
      unfold eF
      rw [hc]
      ring
    · by_cases hxll : x = env.ll
      · have hyrl : env.rl < y := by
          rcases lt_or_eq_of_le hy with hlt | heq
          · exact hlt
          · exact absurd ⟨hxll, heq.symm⟩ hne
        refine Or.inr (Or.inr ⟨hyrl, ?_⟩)
        have hc1 : cF env x (y - 1) = 0 := by
          unfold cF
          rw [min_eq_left (by omega : x ≤ env.lu),
            segI_nil (by omega : x ≤ env.ll), lcsLen_nil_left]
        have hc2 : cF env x y = 0 := by
          unfold cF
          rw [min_eq_left (by omega : x ≤ env.lu),
            segI_nil (by omega : x ≤ env.ll), lcsLen_nil_left]
        unfold eF
        rw [hc1, hc2]
        ring
      · by_cases hyrl : y = env.rl
        · refine Or.inr (Or.inl ⟨by omega, ?_⟩)
          have hc1 : cF env (x - 1) y = 0 := by
            unfold cF
            rw [min_eq_left (by omega : y ≤ env.ru),
              segI_nil (by omega : y ≤ env.rl), lcsLen_nil_right]
          have hc2 : cF env x y = 0 := by
            unfold cF
            rw [min_eq_left (by omega : y ≤ env.ru),
              segI_nil (by omega : y ≤ env.rl), lcsLen_nil_right]
          unfold eF
          rw [hc1, hc2]
          ring
        · have hxll' : env.ll < x := by omega
          have hyrl' : env.rl < y := by omega
          obtain ⟨a, ha⟩ := getI_of_bounds (by omega)
            (by omega : x - 1 < (env.L.length : Int))
          obtain ⟨b, hb⟩ := getI_of_bounds (by omega)
            (by omega : y - 1 < (env.R.length : Int))
          have hP : segI env.L env.ll x = segI env.L env.ll (x - 1) ++ [a] := by
            have := segI_snoc hA (by omega : env.ll ≤ x - 1) ha
            rw [show x - 1 + 1 = x by ring] at this
            exact this
          have hQ : segI env.R env.rl y = segI env.R env.rl (y - 1) ++ [b] := by
            have := segI_snoc hD (by omega : env.rl ≤ y - 1) hb
            rw [show y - 1 + 1 = y by ring] at this
            exact this
          by_cases hab : a = b
          · refine Or.inl ⟨hxll', hyrl', by omega, by omega, ?_, ?_⟩
            · rw [ha, hb, hab]
            · have := eF_diag_eq_of_match env ⟨hA, hB, hC, hD, hE, hF⟩
                (x := x - 1) (y := y - 1) (by omega) (by omega) (by omega) (by omega)
                (by rw [ha, hb, hab])
              rw [show x - 1 + 1 = x by ring, show y - 1 + 1 = y by ring] at this
              exact this.symm
          · have hcxy : cF env x y =
                max (cF env x (y - 1)) (cF env (x - 1) y) := by
              have e1 : cF env x y =
                  lcsLen (segI env.L env.ll x) (segI env.R env.rl y) := by
                unfold cF
                rw [min_eq_left (by omega : x ≤ env.lu),
                  min_eq_left (by omega : y ≤ env.ru)]
              have e2 : cF env x (y - 1) =
                  lcsLen (segI env.L env.ll x) (segI env.R env.rl (y - 1)) := by
                unfold cF
                rw [min_eq_left (by omega : x ≤ env.lu),
                  min_eq_left (by omega : y - 1 ≤ env.ru)]
              have e3 : cF env (x - 1) y =
                  lcsLen (segI env.L env.ll (x - 1)) (segI env.R env.rl y) := by
                unfold cF
                rw [min_eq_left (by omega : x - 1 ≤ env.lu),
                  min_eq_left (by omega : y ≤ env.ru)]
              rw [e1, e2, e3, hP, hQ, lcsLen_concat, if_neg hab, ← hP, ← hQ]
              exact Nat.max_comm _ _
            by_cases hm : cF env (x - 1) y ≤ cF env x (y - 1)
            · refine Or.inr (Or.inr ⟨hyrl', ?_⟩)
              have hc : cF env x (y - 1) = cF env x y := by
                rw [hcxy, max_eq_left hm]
              unfold eF
              rw [hc]
              ring
            · refine Or.inr (Or.inl ⟨hxll', ?_⟩)
              have hc : cF env (x - 1) y = cF env x y := by
                rw [hcxy, max_eq_right (by omega)]
              unfold eF
              rw [hc]
              ring

/-- Every point other than the far corner has a successor: a free diagonal
step inside the rectangle, or a unit step of strictly smaller backward cost. -/
theorem fwdStepB (env : SmsEnv) (h : RectWF env) {x y : Int}
    (hx : x ≤ env.lu) (hy : y ≤ env.ru) (hne : ¬(x = env.lu ∧ y = env.ru)) :
    (env.ll ≤ x ∧ env.rl ≤ y ∧ x < env.lu ∧ y < env.ru ∧
      getI env.L x = getI env.R y ∧
      eB env (x + 1) (y + 1) = eB env x y) ∨
    (x < env.lu ∧ eB env (x + 1) y = eB env x y - 1) ∨
    (y < env.ru ∧ eB env x (y + 1) = eB env x y - 1) := by
  obtain ⟨hA, hB, hC, hD, hE, hF⟩ := h
  by_cases hll : x < env.ll
  · refine Or.inr (Or.inl ⟨by omega, ?_⟩)
    have hc : cB env (x + 1) y = cB env x y := by
      unfold cB
      have e1 : max (x + 1) env.ll = env.ll := max_eq_right (by omega)
      have e2 : max x env.ll = env.ll := max_eq_right (by omega)
      rw [e1, e2]
    unfold eB
    rw [hc]
    ring
  · by_cases hrl : y < env.rl
    · refine Or.inr (Or.inr ⟨by omega, ?_⟩)
      have hc : cB env x (y + 1) = cB env x y := by
        unfold cB
        have e1 : max (y + 1) env.rl = env.rl := max_eq_right (by omega)
        have e2 : max y env.rl = env.rl := max_eq_right (by omega)
        rw [e1, e2]
      unfold eB
      rw [hc]
      ring
    · by_cases hxlu : x = env.lu
      · have hyru : y < env.ru := by
          rcases lt_or_eq_of_le hy with hlt | heq
          · exact hlt
          · exact absurd ⟨hxlu, heq⟩ hne
        refine Or.inr (Or.inr ⟨hyru, ?_⟩)
        have hc1 : cB env x (y + 1) = 0 := by
          unfold cB
          rw [max_eq_left (by omega : env.ll ≤ x),
            segI_nil (by omega : env.lu ≤ x), lcsLen_nil_left]
        have hc2 : cB env x y = 0 := by
          unfold cB
          rw [max_eq_left (by omega : env.ll ≤ x),
            segI_nil (by omega : env.lu ≤ x), lcsLen_nil_left]
        unfold eB
        rw [hc1, hc2]
        ring
      · by_cases hyru : y = env.ru
        · refine Or.inr (Or.inl ⟨by omega, ?_⟩)
          have hc1 : cB env (x + 1) y = 0 := by
            unfold cB
            rw [max_eq_left (by omega : env.rl ≤ y),
              segI_nil (by omega : env.ru ≤ y), lcsLen_nil_right]
          have hc2 : cB env x y = 0 := by
            unfold cB
            rw [max_eq_left (by omega : env.rl ≤ y),
              segI_nil (by omega : env.ru ≤ y), lcsLen_nil_right]
          unfold eB
          rw [hc1, hc2]
          ring
        · have hxlu' : x < env.lu := by omega
          have hyru' : y < env.ru := by omega
          obtain ⟨a, ha⟩ := getI_of_bounds (by omega)
            (by omega : x < (env.L.length : Int))
          obtain ⟨b, hb⟩ := getI_of_bounds (by omega)
            (by omega : y < (env.R.length : Int))
          have hP : segI env.L x env.lu = a :: segI env.L (x + 1) env.lu :=
            segI_cons (by omega) hxlu' ha
          have hQ : segI env.R y env.ru = b :: segI env.R (y + 1) env.ru :=
            segI_cons (by omega) hyru' hb
          by_cases hab : a = b
          · refine Or.inl ⟨by omega, by omega, hxlu', hyru', ?_, ?_⟩
            · rw [ha, hb, hab]
            · exact (eB_diag_eq_of_match env ⟨hA, hB, hC, hD, hE, hF⟩
                (by omega) hxlu' (by omega) hyru' (by rw [ha, hb, hab])).symm
          · have hcxy : cB env x y =
                max (cB env x (y + 1)) (cB env (x + 1) y) := by
              have e1 : cB env x y =
                  lcsLen (segI env.L x env.lu) (segI env.R y env.ru) := by
                unfold cB
                rw [max_eq_left (by omega : env.ll ≤ x),
                  max_eq_left (by omega : env.rl ≤ y)]
              have e2 : cB env x (y + 1) =
                  lcsLen (segI env.L x env.lu) (segI env.R (y + 1) env.ru) := by
                unfold cB
                rw [max_eq_left (by omega : env.ll ≤ x),
                  max_eq_left (by omega : env.rl ≤ y + 1)]
              have e3 : cB env (x + 1) y =
                  lcsLen (segI env.L (x + 1) env.lu) (segI env.R y env.ru) := by
                unfold cB
                rw [max_eq_left (by omega : env.ll ≤ x + 1),
                  max_eq_left (by omega : env.rl ≤ y)]
              rw [e1, e2, e3, hP, hQ, lcsLen_cons, if_neg hab, ← hP, ← hQ]
            by_cases hm : cB env (x + 1) y ≤ cB env x (y + 1)
            · refine Or.inr (Or.inr ⟨hyru', ?_⟩)
              have hc : cB env x (y + 1) = cB env x y := by
                rw [hcxy, max_eq_left hm]
              unfold eB
              rw [hc]
              ring
            · refine Or.inr (Or.inl ⟨hxlu', ?_⟩)
              have hc : cB env (x + 1) y = cB env x y := by
                rw [hcxy, max_eq_right (by omega)]
              unfold eB
              rw [hc]
              ring

/-! ## Maximal free runs -/

/-- Walking back along free diagonal steps from any point reaches a point with
no free predecessor, preserving the forward cost. -/
theorem slideBackF (env : SmsEnv) (h : RectWF env) (k : Int) :
    ∀ (x : Int), env.ll ≤ x → env.rl ≤ x - k →
      ∃ x0, env.ll ≤ x0 ∧ env.rl ≤ x0 - k ∧ x0 ≤ x ∧
        (∀ t, x0 ≤ t → t < x →
          t < env.lu ∧ t - k < env.ru ∧ getI env.L t = getI env.R (t - k)) ∧
        eF env x0 (x0 - k) = eF env x (x - k) ∧
        ¬(env.ll < x0 ∧ env.rl < x0 - k ∧ x0 ≤ env.lu ∧ x0 - k ≤ env.ru ∧
          getI env.L (x0 - 1) = getI env.R (x0 - k - 1)) := by
  have main : ∀ (n : Nat) (x : Int), (x - env.ll).toNat ≤ n → env.ll ≤ x →
      env.rl ≤ x - k →
      ∃ x0, env.ll ≤ x0 ∧ env.rl ≤ x0 - k ∧ x0 ≤ x ∧
        (∀ t, x0 ≤ t → t < x →
          t < env.lu ∧ t - k < env.ru ∧ getI env.L t = getI env.R (t - k)) ∧
        eF env x0 (x0 - k) = eF env x (x - k) ∧
        ¬(env.ll < x0 ∧ env.rl < x0 - k ∧ x0 ≤ env.lu ∧ x0 - k ≤ env.ru ∧
          getI env.L (x0 - 1) = getI env.R (x0 - k - 1)) := by
    intro n
    induction n with
    | zero =>
      intro x hn h1 h2
      refine ⟨x, h1, h2, le_refl x, fun t ht1 ht2 => by omega, rfl, ?_⟩
      intro hcon
      omega
    | succ n ih =>
      intro x hn h1 h2
      by_cases hC : env.ll < x ∧ env.rl < x - k ∧ x ≤ env.lu ∧ x - k ≤ env.ru ∧
          getI env.L (x - 1) = getI env.R (x - k - 1)
      · obtain ⟨x0, g1, g2, g3, g4, g5, g6⟩ := ih (x - 1) (by omega) (by omega)
          (by omega)
        refine ⟨x0, g1, g2, by omega, ?_, ?_, g6⟩
        · intro t ht1 ht2
          by_cases hte : t = x - 1
          · subst hte
            refine ⟨by omega, by omega, ?_⟩
            rw [show x - 1 - k = x - k - 1 by ring]
            exact hC.2.2.2.2
          · exact g4 t ht1 (by omega)
        · rw [g5]
          have := eF_diag_eq_of_match env h (x := x - 1) (y := x - k - 1)
            (by omega) (by omega) (by omega) (by omega) hC.2.2.2.2
          rw [show x - 1 + 1 = x by ring, show x - k - 1 + 1 = x - k by ring] at this
          rw [show x - 1 - k = x - k - 1 by ring]
          exact this.symm
      · exact ⟨x, h1, h2, le_refl x, fun t ht1 ht2 => by omega, rfl, hC⟩
  intro x h1 h2
  exact main (x - env.ll).toNat x (le_refl _) h1 h2

/-- Walking forward along free diagonal steps from any point reaches a point
with no free successor, preserving the backward cost. -/
theorem slideFwdB (env : SmsEnv) (h : RectWF env) (k : Int) :
    ∀ (x : Int), x ≤ env.lu → x - k ≤ env.ru →
      ∃ x0, x0 ≤ env.lu ∧ x0 - k ≤ env.ru ∧ x ≤ x0 ∧
        (∀ t, x ≤ t → t < x0 →
          env.ll ≤ t ∧ env.rl ≤ t - k ∧ getI env.L t = getI env.R (t - k)) ∧
        eB env x0 (x0 - k) = eB env x (x - k) ∧
        ¬(env.ll ≤ x0 ∧ env.rl ≤ x0 - k ∧ x0 < env.lu ∧ x0 - k < env.ru ∧
          getI env.L x0 = getI env.R (x0 - k)) := by
  have main : ∀ (n : Nat) (x : Int), (env.lu - x).toNat ≤ n → x ≤ env.lu →
      x - k ≤ env.ru →
      ∃ x0, x0 ≤ env.lu ∧ x0 - k ≤ env.ru ∧ x ≤ x0 ∧
        (∀ t, x ≤ t → t < x0 →
          env.ll ≤ t ∧ env.rl ≤ t - k ∧ getI env.L t = getI env.R (t - k)) ∧
        eB env x0 (x0 - k) = eB env x (x - k) ∧
        ¬(env.ll ≤ x0 ∧ env.rl ≤ x0 - k ∧ x0 < env.lu ∧ x0 - k < env.ru ∧
          getI env.L x0 = getI env.R (x0 - k)) := by
    intro n
    induction n with
    | zero =>
      intro x hn h1 h2
      refine ⟨x, h1, h2, le_refl x, fun t ht1 ht2 => by omega, rfl, ?_⟩
      intro hcon
      omega
    | succ n ih =>
      intro x hn h1 h2
      by_cases hC : env.ll ≤ x ∧ env.rl ≤ x - k ∧ x < env.lu ∧ x - k < env.ru ∧
          getI env.L x = getI env.R (x - k)
      · obtain ⟨x0, g1, g2, g3, g4, g5, g6⟩ := ih (x + 1) (by omega) (by omega)
          (by omega)
        refine ⟨x0, g1, g2, by omega, ?_, ?_, g6⟩
        · intro t ht1 ht2
          by_cases hte : t = x
          · subst hte
            exact ⟨hC.1, hC.2.1, hC.2.2.2.2⟩
          · exact g4 t (by omega) ht2
        · rw [g5]
          have := eB_diag_eq_of_match env h (x := x) (y := x - k)
            hC.1 hC.2.2.1 hC.2.1 hC.2.2.2.1 hC.2.2.2.2
          rw [show x + 1 - k = x - k + 1 by ring]
          exact this.symm
      · exact ⟨x, h1, h2, le_refl x, fun t ht1 ht2 => by omega, rfl, hC⟩
  intro x h1 h2
  exact main (env.lu - x).toNat x (le_refl _) h1 h2

/-! ## The greedy recurrence computes the furthest reaches -/

theorem eF_origin (env : SmsEnv) (h : RectWF env) : eF env env.ll env.rl = 0 := by
  have hc : cF env env.ll env.rl = 0 := by
    unfold cF
    rw [min_eq_left h.2.1, segI_nil (le_refl env.ll), lcsLen_nil_left]
  unfold eF
  rw [hc]
  ring

theorem eB_corner (env : SmsEnv) (h : RectWF env) : eB env env.lu env.ru = 0 := by
  have hc : cB env env.lu env.ru = 0 := by
    unfold cB
    rw [max_eq_left h.2.1, segI_nil (le_refl env.lu), lcsLen_nil_left]
  unfold eB
  rw [hc]
  ring

theorem isFR_zero (env : SmsEnv) (h : RectWF env) {k : Int}
    (hk : k = env.ll - env.rl) :
    IsFR env 0 k (fwdSnake env.L env.R env.lu env.ru k env.ll) := by
  obtain ⟨hz1, hz2, hz3⟩ := fwdSnake_preserves env h k env.ll (le_refl env.ll)
    (by omega)
  refine ⟨hz1, hz2, ?_, ?_⟩
  · rw [hz3, show env.ll - k = env.rl by omega, eF_origin env h]
  · intro x' h1 h2 h3
    obtain ⟨x0, g1, g2, g3, g4, g5, g6⟩ := slideBackF env h k x' h1 h2
    have he0 : eF env x0 (x0 - k) ≤ 0 := by rw [g5]; exact h3
    have hx0 : x0 = env.ll := by
      by_contra hne
      have hne2 : ¬(x0 = env.ll ∧ x0 - k = env.rl) := by
        intro hcon
        exact hne hcon.1
      rcases backStepF env h g1 g2 hne2 with hA | hB | hC
      · exact g6 ⟨hA.1, hA.2.1, hA.2.2.1, hA.2.2.2.1, hA.2.2.2.2.1⟩
      · have := eF_nonneg env h (x := x0 - 1) (y := x0 - k) (by omega) g2
        omega
      · have := eF_nonneg env h (x := x0) (y := x0 - k - 1) g1 (by omega)
        omega
    have hrun := fwdSnake_ge_of_run env.L env.R env.lu env.ru k x0 x' g3 g4
    rw [hx0] at hrun
    exact hrun

theorem isFR_succ_low (env : SmsEnv) (h : RectWF env) {d k xp : Int} (hd : 1 ≤ d)
    (hk : k = (env.ll - env.rl) - d) (hp : IsFR env (d - 1) (k + 1) xp) :
    IsFR env d k (fwdSnake env.L env.R env.lu env.ru k xp) := by
  obtain ⟨hp1, hp2, hp3, hp4⟩ := hp
  obtain ⟨hz1, hz2, hz3⟩ := fwdSnake_preserves env h k xp hp1 (by omega)
  refine ⟨hz1, hz2, ?_, ?_⟩
  · rw [hz3]
    have hstep := eF_down_le env xp (xp - (k + 1))
    rw [show xp - (k + 1) + 1 = xp - k by ring] at hstep
    omega
  · intro x' h1 h2 h3
    obtain ⟨x0, g1, g2, g3, g4, g5, g6⟩ := slideBackF env h k x' h1 h2
    have he0 : eF env x0 (x0 - k) ≤ d := by rw [g5]; exact h3
    have hne2 : ¬(x0 = env.ll ∧ x0 - k = env.rl) := by
      intro hcon
      omega
    have hx0 : x0 ≤ xp := by
      rcases backStepF env h g1 g2 hne2 with hA | hB | hC
      · exact absurd ⟨hA.1, hA.2.1, hA.2.2.1, hA.2.2.2.1, hA.2.2.2.2.1⟩ g6
      · -- a point on diagonal k - 1 would be too costly
        have hlow := eF_ge_diff2 env h (x := x0 - 1) (y := x0 - k) (by omega)
        omega
      · exact hp4 x0 g1 (by omega)
          (by rw [show x0 - (k + 1) = x0 - k - 1 by ring]; omega)
    have hrun := fwdSnake_ge_of_run env.L env.R env.lu env.ru k x0 x' g3 g4
    exact le_trans hrun (fwdSnake_mono env.L env.R env.lu env.ru k hx0)

theorem isFR_succ_high (env : SmsEnv) (h : RectWF env) {d k xm : Int} (hd : 1 ≤ d)
    (hk : k = (env.ll - env.rl) + d) (hm : IsFR env (d - 1) (k - 1) xm) :
    IsFR env d k (fwdSnake env.L env.R env.lu env.ru k (xm + 1)) := by
  obtain ⟨hm1, hm2, hm3, hm4⟩ := hm
  obtain ⟨hz1, hz2, hz3⟩ := fwdSnake_preserves env h k (xm + 1) (by omega) (by omega)
  refine ⟨hz1, hz2, ?_, ?_⟩
  · rw [hz3]
    have hstep := eF_right_le env xm (xm - (k - 1))
    rw [show xm - (k - 1) = xm + 1 - k by ring] at hstep
    have hm3' : eF env xm (xm + 1 - k) ≤ d - 1 := by
      rw [show xm + 1 - k = xm - (k - 1) by ring]
      exact hm3
    omega
  · intro x' h1 h2 h3
    obtain ⟨x0, g1, g2, g3, g4, g5, g6⟩ := slideBackF env h k x' h1 h2
    have he0 : eF env x0 (x0 - k) ≤ d := by rw [g5]; exact h3
    have hne2 : ¬(x0 = env.ll ∧ x0 - k = env.rl) := by
      intro hcon
      omega
    have hx0 : x0 ≤ xm + 1 := by
      rcases backStepF env h g1 g2 hne2 with hA | hB | hC
      · exact absurd ⟨hA.1, hA.2.1, hA.2.2.1, hA.2.2.2.1, hA.2.2.2.2.1⟩ g6
      · have := hm4 (x0 - 1) (by omega)
          (by rw [show x0 - 1 - (k - 1) = x0 - k by ring]; omega)
          (by rw [show x0 - 1 - (k - 1) = x0 - k by ring]; omega)
        omega
      · -- a point on diagonal k + 1 would be too costly
        have hhigh := eF_ge_diff1 env h (x := x0) (y := x0 - k - 1) (by omega)
        omega
    have hrun := fwdSnake_ge_of_run env.L env.R env.lu env.ru k x0 x' g3 g4
    exact le_trans hrun (fwdSnake_mono env.L env.R env.lu env.ru k hx0)

theorem isFR_succ_mid (env : SmsEnv) (h : RectWF env) {d k xm xp : Int} (hd : 1 ≤ d)
    (hkl : (env.ll - env.rl) - d < k) (hku : k < (env.ll - env.rl) + d)
    (hm : IsFR env (d - 1) (k - 1) xm) (hp : IsFR env (d - 1) (k + 1) xp) :
    IsFR env d k (fwdSnake env.L env.R env.lu env.ru k (max (xm + 1) xp)) := by
  obtain ⟨hm1, hm2, hm3, hm4⟩ := hm
  obtain ⟨hp1, hp2, hp3, hp4⟩ := hp
  obtain ⟨hz1, hz2, hz3⟩ := fwdSnake_preserves env h k (max (xm + 1) xp)
    (by omega) (by omega)
  refine ⟨hz1, hz2, ?_, ?_⟩
  · rw [hz3]
    rcases max_cases (xm + 1) xp with ⟨hmx, _⟩ | ⟨hmx, _⟩
    · rw [hmx]
      have hstep := eF_right_le env xm (xm - (k - 1))
      rw [show xm - (k - 1) = xm + 1 - k by ring] at hstep
      have hm3' : eF env xm (xm + 1 - k) ≤ d - 1 := by
        rw [show xm + 1 - k = xm - (k - 1) by ring]
        exact hm3
      omega
    · rw [hmx]
      have hstep := eF_down_le env xp (xp - (k + 1))
      rw [show xp - (k + 1) + 1 = xp - k by ring] at hstep
      omega
  · intro x' h1 h2 h3
    obtain ⟨x0, g1, g2, g3, g4, g5, g6⟩ := slideBackF env h k x' h1 h2
    have he0 : eF env x0 (x0 - k) ≤ d := by rw [g5]; exact h3
    have hx0 : x0 ≤ max (xm + 1) xp := by
      by_cases hne2 : x0 = env.ll ∧ x0 - k = env.rl
      · have : env.ll ≤ xp := hp1
        omega
      · rcases backStepF env h g1 g2 hne2 with hA | hB | hC
        · exact absurd ⟨hA.1, hA.2.1, hA.2.2.1, hA.2.2.2.1, hA.2.2.2.2.1⟩ g6
        · have := hm4 (x0 - 1) (by omega)
            (by rw [show x0 - 1 - (k - 1) = x0 - k by ring]; omega)
            (by rw [show x0 - 1 - (k - 1) = x0 - k by ring]; omega)
          omega
        · have := hp4 x0 g1
            (by rw [show x0 - (k + 1) = x0 - k - 1 by ring]; omega)
            (by rw [show x0 - (k + 1) = x0 - k - 1 by ring]; omega)
          omega
    have hrun := fwdSnake_ge_of_run env.L env.R env.lu env.ru k x0 x' g3 g4
    exact le_trans hrun (fwdSnake_mono env.L env.R env.lu env.ru k hx0)

theorem isBR_zero (env : SmsEnv) (h : RectWF env) {k : Int}
    (hk : k = env.lu - env.ru) :
    IsBR env 0 k (bwdSnake env.L env.R env.ll env.rl k env.lu) := by
  obtain ⟨hz1, hz2, hz3⟩ := bwdSnake_preserves env h k env.lu (le_refl env.lu)
    (by omega)
  refine ⟨hz1, hz2, ?_, ?_⟩
  · rw [hz3, show env.lu - k = env.ru by omega, eB_corner env h]
  · intro x' h1 h2 h3
    obtain ⟨x0, g1, g2, g3, g4, g5, g6⟩ := slideFwdB env h k x' h1 h2
    have he0 : eB env x0 (x0 - k) ≤ 0 := by rw [g5]; exact h3
    have hx0 : x0 = env.lu := by
      by_contra hne
      have hne2 : ¬(x0 = env.lu ∧ x0 - k = env.ru) := by
        intro hcon
        exact hne hcon.1
      rcases fwdStepB env h g1 g2 hne2 with hA | hB | hC
      · exact g6 ⟨hA.1, hA.2.1, hA.2.2.1, hA.2.2.2.1, hA.2.2.2.2.1⟩
      · have := eB_nonneg env h (x := x0 + 1) (y := x0 - k) (by omega) g2
        omega
      · have := eB_nonneg env h (x := x0) (y := x0 - k + 1) g1 (by omega)
        omega
    have hrun := bwdSnake_le_of_run env.L env.R env.ll env.rl k x0 x' g3
      (fun t ht1 ht2 => by
        obtain ⟨c1, c2, c3⟩ := g4 (t - 1) (by omega) (by omega)
        exact ⟨by omega, by omega, by rw [show t - k - 1 = t - 1 - k by ring]; exact c3⟩)
    rw [hx0] at hrun
    exact hrun

theorem isBR_succ_high (env : SmsEnv) (h : RectWF env) {d k xm : Int} (hd : 1 ≤ d)
    (hk : k = (env.lu - env.ru) + d) (hm : IsBR env (d - 1) (k - 1) xm) :
    IsBR env d k (bwdSnake env.L env.R env.ll env.rl k xm) := by
  obtain ⟨hm1, hm2, hm3, hm4⟩ := hm
  obtain ⟨hz1, hz2, hz3⟩ := bwdSnake_preserves env h k xm hm1 (by omega)
  refine ⟨hz1, hz2, ?_, ?_⟩
  · rw [hz3]
    have hstep := eB_up_le env h xm (xm - (k - 1))
    rw [show xm - (k - 1) - 1 = xm - k by ring] at hstep
    omega
  · intro x' h1 h2 h3
    obtain ⟨x0, g1, g2, g3, g4, g5, g6⟩ := slideFwdB env h k x' h1 h2
    have he0 : eB env x0 (x0 - k) ≤ d := by rw [g5]; exact h3
    have hne2 : ¬(x0 = env.lu ∧ x0 - k = env.ru) := by
      intro hcon
      omega
    have hx0 : xm ≤ x0 := by
      rcases fwdStepB env h g1 g2 hne2 with hA | hB | hC
      · exact absurd ⟨hA.1, hA.2.1, hA.2.2.1, hA.2.2.2.1, hA.2.2.2.2.1⟩ g6
      · -- a point on diagonal k + 1 would be too costly
        have hhigh := eB_ge_diff2 env h (x := x0 + 1) (y := x0 - k) (by omega)
        omega
      · have := hm4 x0 g1
          (by rw [show x0 - (k - 1) = x0 - k + 1 by ring]; omega)
          (by rw [show x0 - (k - 1) = x0 - k + 1 by ring]; omega)
        omega
    have hrun := bwdSnake_le_of_run env.L env.R env.ll env.rl k x0 x' g3
      (fun t ht1 ht2 => by
        obtain ⟨c1, c2, c3⟩ := g4 (t - 1) (by omega) (by omega)
        exact ⟨by omega, by omega, by rw [show t - k - 1 = t - 1 - k by ring]; exact c3⟩)
    exact le_trans (bwdSnake_mono env.L env.R env.ll env.rl k hx0) hrun

theorem isBR_succ_low (env : SmsEnv) (h : RectWF env) {d k xp : Int} (hd : 1 ≤ d)
    (hk : k = (env.lu - env.ru) - d) (hp : IsBR env (d - 1) (k + 1) xp) :
    IsBR env d k (bwdSnake env.L env.R env.ll env.rl k (xp - 1)) := by
  obtain ⟨hp1, hp2, hp3, hp4⟩ := hp
  obtain ⟨hz1, hz2, hz3⟩ := bwdSnake_preserves env h k (xp - 1) (by omega) (by omega)
  refine ⟨hz1, hz2, ?_, ?_⟩
  · rw [hz3]
    have hstep := eB_left_le env h xp (xp - (k + 1))
    rw [show xp - (k + 1) = xp - 1 - k by ring] at hstep
    have hp3' : eB env xp (xp - 1 - k) ≤ d - 1 := by
      rw [show xp - 1 - k = xp - (k + 1) by ring]
      exact hp3
    omega
  · intro x' h1 h2 h3
    obtain ⟨x0, g1, g2, g3, g4, g5, g6⟩ := slideFwdB env h k x' h1 h2
    have he0 : eB env x0 (x0 - k) ≤ d := by rw [g5]; exact h3
    have hne2 : ¬(x0 = env.lu ∧ x0 - k = env.ru) := by
      intro hcon
      omega
    have hx0 : xp - 1 ≤ x0 := by
      rcases fwdStepB env h g1 g2 hne2 with hA | hB | hC
      · exact absurd ⟨hA.1, hA.2.1, hA.2.2.1, hA.2.2.2.1, hA.2.2.2.2.1⟩ g6
      · have := hp4 (x0 + 1) (by omega)
          (by rw [show x0 + 1 - (k + 1) = x0 - k by ring]; omega)
          (by rw [show x0 + 1 - (k + 1) = x0 - k by ring]; omega)
        omega
      · -- a point on diagonal k - 1 would be too costly
        have hlow := eB_ge_diff1 env h (x := x0) (y := x0 - k + 1) (by omega)
        omega
    have hrun := bwdSnake_le_of_run env.L env.R env.ll env.rl k x0 x' g3
      (fun t ht1 ht2 => by
        obtain ⟨c1, c2, c3⟩ := g4 (t - 1) (by omega) (by omega)
        exact ⟨by omega, by omega, by rw [show t - k - 1 = t - 1 - k by ring]; exact c3⟩)
    exact le_trans (bwdSnake_mono env.L env.R env.ll env.rl k hx0) hrun

theorem isBR_succ_mid (env : SmsEnv) (h : RectWF env) {d k xm xp : Int} (hd : 1 ≤ d)
    (hkl : (env.lu - env.ru) - d < k) (hku : k < (env.lu - env.ru) + d)
    (hm : IsBR env (d - 1) (k - 1) xm) (hp : IsBR env (d - 1) (k + 1) xp) :
    IsBR env d k (bwdSnake env.L env.R env.ll env.rl k (min xm (xp - 1))) := by
  obtain ⟨hm1, hm2, hm3, hm4⟩ := hm
  obtain ⟨hp1, hp2, hp3, hp4⟩ := hp
  obtain ⟨hz1, hz2, hz3⟩ := bwdSnake_preserves env h k (min xm (xp - 1))
    (by omega) (by omega)
  refine ⟨hz1, hz2, ?_, ?_⟩
  · rw [hz3]
    rcases min_cases xm (xp - 1) with ⟨hmx, _⟩ | ⟨hmx, _⟩
    · rw [hmx]
      have hstep := eB_up_le env h xm (xm - (k - 1))
      rw [show xm - (k - 1) - 1 = xm - k by ring] at hstep
      omega
    · rw [hmx]
      have hstep := eB_left_le env h xp (xp - (k + 1))
      rw [show xp - (k + 1) = xp - 1 - k by ring] at hstep
      have hp3' : eB env xp (xp - 1 - k) ≤ d - 1 := by
        rw [show xp - 1 - k = xp - (k + 1) by ring]
        exact hp3
      omega
  · intro x' h1 h2 h3
    obtain ⟨x0, g1, g2, g3, g4, g5, g6⟩ := slideFwdB env h k x' h1 h2
    have he0 : eB env x0 (x0 - k) ≤ d := by rw [g5]; exact h3
    have hx0 : min xm (xp - 1) ≤ x0 := by
      by_cases hne2 : x0 = env.lu ∧ x0 - k = env.ru
      · have : xp ≤ env.lu := hp1
        omega
      · rcases fwdStepB env h g1 g2 hne2 with hA | hB | hC
        · exact absurd ⟨hA.1, hA.2.1, hA.2.2.1, hA.2.2.2.1, hA.2.2.2.2.1⟩ g6
        · have := hp4 (x0 + 1) (by omega)
            (by rw [show x0 + 1 - (k + 1) = x0 - k by ring]; omega)
            (by rw [show x0 + 1 - (k + 1) = x0 - k by ring]; omega)
          omega
        · have := hm4 x0 g1
            (by rw [show x0 - (k - 1) = x0 - k + 1 by ring]; omega)
            (by rw [show x0 - (k - 1) = x0 - k + 1 by ring]; omega)
          omega
    have hrun := bwdSnake_le_of_run env.L env.R env.ll env.rl k x0 x' g3
      (fun t ht1 ht2 => by
        obtain ⟨c1, c2, c3⟩ := g4 (t - 1) (by omega) (by omega)
        exact ⟨by omega, by omega, by rw [show t - k - 1 = t - 1 - k by ring]; exact c3⟩)
    exact le_trans (bwdSnake_mono env.L env.R env.ll env.rl k hx0) hrun

/-! ## The `k`-loops compute the reaches -/

theorem isFR_unique {env : SmsEnv} {d k x x' : Int} (h1 : IsFR env d k x)
    (h2 : IsFR env d k x') : x = x' := by
  have a1 := h1.2.2.2 x' h2.1 h2.2.1 h2.2.2.1
  have a2 := h2.2.2.2 x h1.1 h1.2.1 h1.2.2.1
  omega

theorem isBR_unique {env : SmsEnv} {d k x x' : Int} (h1 : IsBR env d k x)
    (h2 : IsBR env d k x') : x = x' := by
  have a1 := h1.2.2.2 x' h2.1 h2.2.1 h2.2.2.1
  have a2 := h2.2.2.2 x h1.1 h1.2.1 h1.2.2.1
  omega

theorem mem_kList {base : Int} {d : Nat} {k : Int} :
    k ∈ kList base d ↔
      base - d ≤ k ∧ k ≤ base + d ∧ (k - base + d) % 2 = 0 := by
  constructor
  · intro hmem
    obtain ⟨i, hi, heq⟩ := List.mem_map.mp hmem
    simp at hi
    obtain ⟨a, ha, rfl⟩ := hi
    omega
  · intro hcond
    refine List.mem_map.mpr ⟨((k - base + d) / 2 : Int), ?_, by omega⟩
    simp
    refine ⟨((k - base + d) / 2).toNat, by omega, by omega⟩

/-- One forward step stores the phase-`d` reach of its diagonal; it fires the
early return exactly when the overlap test holds of that reach. -/
theorem fwdStep_spec (env : SmsEnv) (h : SmsWF env) (d : Nat) (vu vd : Int → Int)
    (k : Int) (hk : k ∈ kList env.kdown d)
    (hseed : d = 0 → vd (env.odown + env.kdown + 1) = env.ll)
    (hF : ∀ j : Int, env.kdown - ((d : Int) - 1) ≤ j → j ≤ env.kdown + ((d : Int) - 1) →
      (j - env.kdown + ((d : Int) - 1)) % 2 = 0 → IsFR env ((d : Int) - 1) j (vd (env.odown + j))) :
    ∃ x, IsFR env (d : Int) k x ∧
      ((fwdStep env d vu vd k = Sum.inl (updI vd (env.odown + k) x) ∧
        ¬(env.odd = true ∧ env.kup - (d : Int) < k ∧ k < env.kup + (d : Int) ∧
          vu (env.oup + k) ≤ x)) ∨
       (fwdStep env d vu vd k = Sum.inr (x, x - k) ∧ env.odd = true ∧
        env.kup - (d : Int) < k ∧ k < env.kup + (d : Int) ∧ vu (env.oup + k) ≤ x)) := by
  have hrect : RectWF env := rectWF_of_smsWF h
  have hkd : env.kdown = env.ll - env.rl := h.2.2.2.2.2.2.1
  rw [mem_kList] at hk
  -- the starting point chosen by the source
  have hx0 : ∃ x0 : Int,
      (if k = env.kdown - (d : Int) then vd (env.odown + k + 1)
       else
        let xr := vd (env.odown + k - 1) + 1
        if k < env.kdown + (d : Int) ∧ xr ≤ vd (env.odown + k + 1) then
          vd (env.odown + k + 1)
        else xr) = x0 ∧
      IsFR env (d : Int) k (fwdSnake env.L env.R env.lu env.ru k x0) := by
    by_cases hklow : k = env.kdown - (d : Int)
    · rw [if_pos hklow]
      refine ⟨vd (env.odown + k + 1), rfl, ?_⟩
      by_cases hd0 : d = 0
      · subst hd0
        have hkk : k = env.kdown := by omega
        have hv : vd (env.odown + k + 1) = env.ll := by
          rw [show env.odown + k + 1 = env.odown + env.kdown + 1 by omega]
          exact hseed rfl
        rw [hv]
        exact isFR_zero env hrect (by omega)
      · have hd1 : 1 ≤ (d : Int) := by omega
        have hp := hF (k + 1) (by omega) (by omega) (by omega)
        have := isFR_succ_low env hrect hd1 (by omega) hp
        rw [show env.odown + (k + 1) = env.odown + k + 1 by omega] at this
        exact this
    · have hd1 : 1 ≤ (d : Int) := by omega
      rw [if_neg hklow]
      have hm := hF (k - 1) (by omega) (by omega) (by omega)
      rw [show env.odown + (k - 1) = env.odown + k - 1 by omega] at hm
      by_cases hkhigh : k = env.kdown + (d : Int)
      · refine ⟨vd (env.odown + k - 1) + 1, ?_, ?_⟩
        · simp only []
          rw [if_neg (by
            intro hcon
            exact absurd hcon.1 (by omega))]
        · exact isFR_succ_high env hrect hd1 (by omega) hm
      · have hp := hF (k + 1) (by omega) (by omega) (by omega)
        rw [show env.odown + (k + 1) = env.odown + k + 1 by omega] at hp
        have hmid := isFR_succ_mid env hrect hd1 (by omega) (by omega) hm hp
        by_cases hcmp : vd (env.odown + k - 1) + 1 ≤ vd (env.odown + k + 1)
        · refine ⟨vd (env.odown + k + 1), ?_, ?_⟩
          · simp only []
            rw [if_pos ⟨by omega, hcmp⟩]
          · rw [show max (vd (env.odown + k - 1) + 1) (vd (env.odown + k + 1)) =
                vd (env.odown + k + 1) by omega] at hmid
            exact hmid
        · refine ⟨vd (env.odown + k - 1) + 1, ?_, ?_⟩
          · simp only []
            rw [if_neg (by
              intro hcon
              exact hcmp hcon.2)]
          · rw [show max (vd (env.odown + k - 1) + 1) (vd (env.odown + k + 1)) =
                vd (env.odown + k - 1) + 1 by omega] at hmid
            exact hmid
  obtain ⟨x0, hx0eq, hx0fr⟩ := hx0
  refine ⟨fwdSnake env.L env.R env.lu env.ru k x0, hx0fr, ?_⟩
  by_cases htest : env.odd = true ∧ env.kup - (d : Int) < k ∧ k < env.kup + (d : Int) ∧
      vu (env.oup + k) ≤ fwdSnake env.L env.R env.lu env.ru k x0
  · right
    refine ⟨?_, htest.1, htest.2.1, htest.2.2.1, htest.2.2.2⟩
    unfold fwdStep
    simp only []
    rw [hx0eq]
    rw [if_pos htest]
  · left
    refine ⟨?_, htest⟩
    unfold fwdStep
    simp only []
    rw [hx0eq]
    rw [if_neg htest]

/-- One backward step stores the phase-`d` backward reach of its diagonal; it
fires the early return exactly when the overlap test holds of that reach. -/
theorem bwdStep_spec (env : SmsEnv) (h : SmsWF env) (d : Nat) (vd vu : Int → Int)
    (k : Int) (hk : k ∈ kList env.kup d)
    (hseed : d = 0 → vu (env.oup + env.kup - 1) = env.lu)
    (hB : ∀ j : Int, env.kup - ((d : Int) - 1) ≤ j → j ≤ env.kup + ((d : Int) - 1) →
      (j - env.kup + ((d : Int) - 1)) % 2 = 0 →
      IsBR env ((d : Int) - 1) j (vu (env.oup + j))) :
    ∃ x, IsBR env (d : Int) k x ∧
      ((bwdStep env d vd vu k = Sum.inl (updI vu (env.oup + k) x) ∧
        ¬((!env.odd) = true ∧ env.kdown - (d : Int) ≤ k ∧ k ≤ env.kdown + (d : Int) ∧
          x ≤ vd (env.odown + k))) ∨
       (bwdStep env d vd vu k = Sum.inr (vd (env.odown + k), vd (env.odown + k) - k) ∧
        (!env.odd) = true ∧ env.kdown - (d : Int) ≤ k ∧ k ≤ env.kdown + (d : Int) ∧
        x ≤ vd (env.odown + k))) := by
  have hrect : RectWF env := rectWF_of_smsWF h
  have hku : env.kup = env.lu - env.ru := h.2.2.2.2.2.2.2.1
  rw [mem_kList] at hk
  have hx0 : ∃ x0 : Int,
      (if k = env.kup + (d : Int) then vu (env.oup + k - 1)
       else
        let xl := vu (env.oup + k + 1) - 1
        if env.kup - (d : Int) < k ∧ vu (env.oup + k - 1) < xl then
          vu (env.oup + k - 1)
        else xl) = x0 ∧
      IsBR env (d : Int) k (bwdSnake env.L env.R env.ll env.rl k x0) := by
    by_cases hkhigh : k = env.kup + (d : Int)
    · rw [if_pos hkhigh]
      refine ⟨vu (env.oup + k - 1), rfl, ?_⟩
      by_cases hd0 : d = 0
      · subst hd0
        have hkk : k = env.kup := by omega
        have hv : vu (env.oup + k - 1) = env.lu := by
          rw [show env.oup + k - 1 = env.oup + env.kup - 1 by omega]
          exact hseed rfl
        rw [hv]
        exact isBR_zero env hrect (by omega)
      · have hd1 : 1 ≤ (d : Int) := by omega
        have hm := hB (k - 1) (by omega) (by omega) (by omega)
        have := isBR_succ_high env hrect hd1 (by omega) hm
        rw [show env.oup + (k - 1) = env.oup + k - 1 by omega] at this
        exact this
    · have hd1 : 1 ≤ (d : Int) := by omega
      rw [if_neg hkhigh]
      have hp := hB (k + 1) (by omega) (by omega) (by omega)
      rw [show env.oup + (k + 1) = env.oup + k + 1 by omega] at hp
      by_cases hklow : k = env.kup - (d : Int)
      · refine ⟨vu (env.oup + k + 1) - 1, ?_, ?_⟩
        · simp only []
          rw [if_neg (by
            intro hcon
            exact absurd hcon.1 (by omega))]
        · exact isBR_succ_low env hrect hd1 (by omega) hp
      · have hm := hB (k - 1) (by omega) (by omega) (by omega)
        rw [show env.oup + (k - 1) = env.oup + k - 1 by omega] at hm
        have hmid := isBR_succ_mid env hrect hd1 (by omega) (by omega) hm hp
        by_cases hcmp : vu (env.oup + k - 1) < vu (env.oup + k + 1) - 1
        · refine ⟨vu (env.oup + k - 1), ?_, ?_⟩
          · simp only []
            rw [if_pos ⟨by omega, hcmp⟩]
          · rw [show min (vu (env.oup + k - 1)) (vu (env.oup + k + 1) - 1) =
                vu (env.oup + k - 1) by omega] at hmid
            exact hmid
        · refine ⟨vu (env.oup + k + 1) - 1, ?_, ?_⟩
          · simp only []
            rw [if_neg (by
              intro hcon
              exact absurd hcon.2 hcmp)]
          · rw [show min (vu (env.oup + k - 1)) (vu (env.oup + k + 1) - 1) =
                vu (env.oup + k + 1) - 1 by omega] at hmid
            exact hmid
  obtain ⟨x0, hx0eq, hx0br⟩ := hx0
  refine ⟨bwdSnake env.L env.R env.ll env.rl k x0, hx0br, ?_⟩
  by_cases htest : (!env.odd) = true ∧ env.kdown - (d : Int) ≤ k ∧
      k ≤ env.kdown + (d : Int) ∧
      bwdSnake env.L env.R env.ll env.rl k x0 ≤ vd (env.odown + k)
  · right
    refine ⟨?_, htest.1, htest.2.1, htest.2.2.1, htest.2.2.2⟩
    unfold bwdStep
    simp only []
    rw [hx0eq]
    rw [if_pos htest]
  · left
    refine ⟨?_, htest⟩
    unfold bwdStep
    simp only []
    rw [hx0eq]
    rw [if_neg htest]

theorem updI_self (f : Int → Int) (i v : Int) : updI f i v i = v := by
  unfold updI
  rw [if_pos rfl]

theorem updI_other (f : Int → Int) {i j : Int} (v : Int) (h : j ≠ i) :
    updI f i v j = f j := by
  unfold updI
  rw [if_neg h]

/-- The forward `k`-loop: either it completes with the phase-`d` band stored
and no step's overlap test fired, or it returns a midpoint whose coordinates
are a phase-`d` forward reach passing the test. -/
theorem fwdLoop_spec (env : SmsEnv) (h : SmsWF env) (d : Nat) (vu : Int → Int) :
    ∀ (ks : List Int) (vd : Int → Int),
      (∀ k ∈ ks, k ∈ kList env.kdown d) →
      (d = 0 → vd (env.odown + env.kdown + 1) = env.ll) →
      FBand env ((d : Int) - 1) vd →
      (∀ j ∈ kList env.kdown d, j ∉ ks → IsFR env (d : Int) j (vd (env.odown + j))) →
      (match fwdLoop env d vu vd ks with
       | Sum.inl vd2 =>
         (∀ j ∈ kList env.kdown d, IsFR env (d : Int) j (vd2 (env.odown + j))) ∧
         (∀ k ∈ ks, ¬(env.odd = true ∧ env.kup - (d : Int) < k ∧
            k < env.kup + (d : Int) ∧
            ∃ x, IsFR env (d : Int) k x ∧ vu (env.oup + k) ≤ x))
       | Sum.inr p =>
         ∃ k x, p = (x, x - k) ∧ k ∈ kList env.kdown d ∧ IsFR env (d : Int) k x ∧
           env.odd = true ∧ env.kup - (d : Int) < k ∧ k < env.kup + (d : Int) ∧
           vu (env.oup + k) ≤ x) := by
  intro ks
  induction ks with
  | nil =>
    intro vd hsub hseed hF hacc
    unfold fwdLoop
    refine ⟨fun j hj => hacc j hj (by simp), ?_⟩
    intro k hk
    simp at hk
  | cons k ks ih =>
    intro vd hsub hseed hF hacc
    obtain ⟨x, hxFR, hcase⟩ := fwdStep_spec env h d vu vd k
      (hsub k (List.mem_cons_self k ks)) hseed hF
    rcases hcase with ⟨hstep, hnotest⟩ | ⟨hstep, hodd, hb1, hb2, hle⟩
    · have hunf : fwdLoop env d vu vd (k :: ks) =
          fwdLoop env d vu (updI vd (env.odown + k) x) ks := by
        have hdef : fwdLoop env d vu vd (k :: ks) =
            match fwdStep env d vu vd k with
            | Sum.inr p => Sum.inr p
            | Sum.inl vd2 => fwdLoop env d vu vd2 ks := rfl
        rw [hdef, hstep]
      rw [hunf]
      have hkmem := hsub k (List.mem_cons_self k ks)
      have hkbounds := mem_kList.mp hkmem
      have hih := ih (updI vd (env.odown + k) x)
        (fun k' hk' => hsub k' (List.mem_cons_of_mem k hk'))
        (fun hd0 => by
          have hkk : k ≠ env.kdown + 1 := by
            subst hd0
            rw [mem_kList] at hkmem
            omega
          rw [updI_other vd x (by omega)]
          exact hseed hd0)
        (fun j hj1 hj2 hj3 => by
          have hjk : j ≠ k := by omega
          rw [updI_other vd x (by omega)]
          exact hF j hj1 hj2 hj3)
        (fun j hj hnot => by
          by_cases hjk : j = k
          · subst hjk
            rw [updI_self]
            exact hxFR
          · rw [updI_other vd x (by omega : env.odown + j ≠ env.odown + k)]
            exact hacc j hj (by
              intro hcon
              rcases List.mem_cons.mp hcon with hc | hc
              · exact hjk hc
              · exact hnot hc))
      match hres : fwdLoop env d vu (updI vd (env.odown + k) x) ks with
      | Sum.inl vd2 =>
        rw [hres] at hih
        refine ⟨hih.1, ?_⟩
        intro k' hk'
        rcases List.mem_cons.mp hk' with hc | hc
        · subst hc
          intro hcon
          obtain ⟨ho, hc1, hc2, x', hx'FR, hx'le⟩ := hcon
          have hxx : x' = x := isFR_unique hx'FR hxFR
          exact hnotest ⟨ho, hc1, hc2, by omega⟩
        · exact hih.2 k' hc
      | Sum.inr p =>
        rw [hres] at hih
        exact hih
    · have hunf : fwdLoop env d vu vd (k :: ks) = Sum.inr (x, x - k) := by
        have hdef : fwdLoop env d vu vd (k :: ks) =
            match fwdStep env d vu vd k with
            | Sum.inr p => Sum.inr p
            | Sum.inl vd2 => fwdLoop env d vu vd2 ks := rfl
        rw [hdef, hstep]
      rw [hunf]
      exact ⟨k, x, rfl, hsub k (List.mem_cons_self k ks), hxFR, hodd, hb1, hb2, hle⟩

/-- The backward `k`-loop, mirror statement. -/
theorem bwdLoop_spec (env : SmsEnv) (h : SmsWF env) (d : Nat) (vd : Int → Int) :
    ∀ (ks : List Int) (vu : Int → Int),
      (∀ k ∈ ks, k ∈ kList env.kup d) →
      (d = 0 → vu (env.oup + env.kup - 1) = env.lu) →
      BBand env ((d : Int) - 1) vu →
      (∀ j ∈ kList env.kup d, j ∉ ks → IsBR env (d : Int) j (vu (env.oup + j))) →
      (match bwdLoop env d vd vu ks with
       | Sum.inl vu2 =>
         (∀ j ∈ kList env.kup d, IsBR env (d : Int) j (vu2 (env.oup + j))) ∧
         (∀ k ∈ ks, ¬((!env.odd) = true ∧ env.kdown - (d : Int) ≤ k ∧
            k ≤ env.kdown + (d : Int) ∧
            ∃ x, IsBR env (d : Int) k x ∧ x ≤ vd (env.odown + k)))
       | Sum.inr p =>
         ∃ k x, p = (vd (env.odown + k), vd (env.odown + k) - k) ∧
           k ∈ kList env.kup d ∧ IsBR env (d : Int) k x ∧
           (!env.odd) = true ∧ env.kdown - (d : Int) ≤ k ∧ k ≤ env.kdown + (d : Int) ∧
           x ≤ vd (env.odown + k)) := by
  intro ks
  induction ks with
  | nil =>
    intro vu hsub hseed hB hacc
    unfold bwdLoop
    refine ⟨fun j hj => hacc j hj (by simp), ?_⟩
    intro k hk
    simp at hk
  | cons k ks ih =>
    intro vu hsub hseed hB hacc
    obtain ⟨x, hxBR, hcase⟩ := bwdStep_spec env h d vd vu k
      (hsub k (List.mem_cons_self k ks)) hseed hB
    rcases hcase with ⟨hstep, hnotest⟩ | ⟨hstep, hodd, hb1, hb2, hle⟩
    · have hunf : bwdLoop env d vd vu (k :: ks) =
          bwdLoop env d vd (updI vu (env.oup + k) x) ks := by
        have hdef : bwdLoop env d vd vu (k :: ks) =
            match bwdStep env d vd vu k with
            | Sum.inr p => Sum.inr p
            | Sum.inl vu2 => bwdLoop env d vd vu2 ks := rfl
        rw [hdef, hstep]
      rw [hunf]
      have hkmem := hsub k (List.mem_cons_self k ks)
      have hkbounds := mem_kList.mp hkmem
      have hih := ih (updI vu (env.oup + k) x)
        (fun k' hk' => hsub k' (List.mem_cons_of_mem k hk'))
        (fun hd0 => by
          have hkk : k ≠ env.kup - 1 := by
            subst hd0
            rw [mem_kList] at hkmem
            omega
          rw [updI_other vu x (by omega)]
          exact hseed hd0)
        (fun j hj1 hj2 hj3 => by
          have hjk : j ≠ k := by omega
          rw [updI_other vu x (by omega)]
          exact hB j hj1 hj2 hj3)
        (fun j hj hnot => by
          by_cases hjk : j = k
          · subst hjk
            rw [updI_self]
            exact hxBR
          · rw [updI_other vu x (by omega : env.oup + j ≠ env.oup + k)]
            exact hacc j hj (by
              intro hcon
              rcases List.mem_cons.mp hcon with hc | hc
              · exact hjk hc
              · exact hnot hc))
      match hres : bwdLoop env d vd (updI vu (env.oup + k) x) ks with
      | Sum.inl vu2 =>
        rw [hres] at hih
        refine ⟨hih.1, ?_⟩
        intro k' hk'
        rcases List.mem_cons.mp hk' with hc | hc
        · subst hc
          intro hcon
          obtain ⟨ho, hc1, hc2, x', hx'BR, hx'le⟩ := hcon
          have hxx : x' = x := isBR_unique hx'BR hxBR
          exact hnotest ⟨ho, hc1, hc2, by omega⟩
        · exact hih.2 k' hc
      | Sum.inr p =>
        rw [hres] at hih
        exact hih
    · have hunf : bwdLoop env d vd vu (k :: ks) =
          Sum.inr (vd (env.odown + k), vd (env.odown + k) - k) := by
        have hdef : bwdLoop env d vd vu (k :: ks) =
            match bwdStep env d vd vu k with
            | Sum.inr p => Sum.inr p
            | Sum.inl vu2 => bwdLoop env d vd vu2 ks := rfl
        rw [hdef, hstep]
      rw [hunf]
      exact ⟨k, x, rfl, hsub k (List.mem_cons_self k ks), hxBR, hodd, hb1, hb2, hle⟩

/-! ## Soundness of a fired overlap test, and existence of a crossing -/

theorem eB_diag_mono (env : SmsEnv) (h : RectWF env) (k : Int) :
    ∀ {x1 x2 : Int}, x1 ≤ x2 → eB env x2 (x2 - k) ≤ eB env x1 (x1 - k) := by
  have main : ∀ (n : Nat) (x1 x2 : Int), (x2 - x1).toNat ≤ n → x1 ≤ x2 →
      eB env x2 (x2 - k) ≤ eB env x1 (x1 - k) := by
    intro n
    induction n with
    | zero =>
      intro x1 x2 hn hx
      have : x2 = x1 := by omega
      subst this
      exact le_refl _
    | succ n ih =>
      intro x1 x2 hn hx
      by_cases hx2 : x2 ≤ x1
      · have : x2 = x1 := by omega
        subst this
        exact le_refl _
      · have hstep := eB_diag_ge env h x2 (x2 - k)
        have hrec := ih x1 (x2 - 1) (by omega) (by omega)
        rw [show x2 - 1 - k = x2 - k - 1 by ring] at hrec
        omega
  intro x1 x2 hx
  exact main (x2 - x1).toNat x1 x2 (le_refl _) hx

theorem eF_run_eq (env : SmsEnv) (h : RectWF env) (k : Int) :
    ∀ {x x0 : Int}, x ≤ x0 → x0 ≤ env.lu → x0 - k ≤ env.ru →
      (∀ t, x ≤ t → t < x0 →
        env.ll ≤ t ∧ env.rl ≤ t - k ∧ getI env.L t = getI env.R (t - k)) →
      eF env x0 (x0 - k) = eF env x (x - k) := by
  have main : ∀ (n : Nat) (x x0 : Int), (x0 - x).toNat ≤ n → x ≤ x0 →
      x0 ≤ env.lu → x0 - k ≤ env.ru →
      (∀ t, x ≤ t → t < x0 →
        env.ll ≤ t ∧ env.rl ≤ t - k ∧ getI env.L t = getI env.R (t - k)) →
      eF env x0 (x0 - k) = eF env x (x - k) := by
    intro n
    induction n with
    | zero =>
      intro x x0 hn hx _ _ _
      have : x0 = x := by omega
      subst this
      rfl
    | succ n ih =>
      intro x x0 hn hx hub1 hub2 hrun
      by_cases hx0 : x0 ≤ x
      · have : x0 = x := by omega
        subst this
        rfl
      · obtain ⟨c1, c2, c3⟩ := hrun (x0 - 1) (by omega) (by omega)
        have hstep := eF_diag_eq_of_match env h (x := x0 - 1) (y := x0 - k - 1)
          c1 (by omega) (by omega) (by omega)
          (by rw [show x0 - k - 1 = x0 - 1 - k by ring]; exact c3)
        rw [show x0 - 1 + 1 = x0 by ring, show x0 - k - 1 + 1 = x0 - k by ring] at hstep
        have hrec := ih x (x0 - 1) (by omega) (by omega) (by omega) (by omega)
          (fun t ht1 ht2 => hrun t ht1 (by omega))
        rw [show x0 - 1 - k = x0 - k - 1 by ring] at hrec
        omega
  intro x x0 hx hub1 hub2 hrun
  exact main (x0 - x).toNat x x0 (le_refl _) hx hub1 hub2 hrun

theorem eB_at_origin (env : SmsEnv) (h : RectWF env) :
    eB env env.ll env.rl = Dtot env := by
  have hc : cB env env.ll env.rl =
      lcsLen (segI env.L env.ll env.lu) (segI env.R env.rl env.ru) := by
    unfold cB
    rw [max_self, max_self]
  unfold eB Dtot
  rw [hc]

/-- Every budget `0 ≤ e ≤ D` is realised by an in-rectangle point whose
forward cost is at most `e` and backward cost at most `D - e`. -/
theorem splitPoint (env : SmsEnv) (h : RectWF env) :
    ∀ (n : Nat), (n : Int) ≤ Dtot env →
      ∃ x y, env.ll ≤ x ∧ x ≤ env.lu ∧ env.rl ≤ y ∧ y ≤ env.ru ∧
        eF env x y ≤ n ∧ eB env x y ≤ Dtot env - n := by
  intro n
  induction n with
  | zero =>
    intro hD
    refine ⟨env.ll, env.rl, le_refl _, h.2.1, le_refl _, h.2.2.2.2.1, ?_, ?_⟩
    · rw [eF_origin env h]
      exact le_refl 0
    · rw [eB_at_origin env h]
      omega
  | succ n ih =>
    intro hD
    obtain ⟨x, y, p1, p2, p3, p4, p5, p6⟩ := ih (by push_cast; push_cast at hD; omega)
    obtain ⟨x0, g1, g2, g3, g4, g5, g6⟩ := slideFwdB env h (x - y) x p2
      (by rw [show x - (x - y) = y by ring]; exact p4)
    rw [show x - (x - y) = y by ring] at g5
    have hx0y : x0 - (x - y) = y + (x0 - x) := by ring
    have heF0 : eF env x0 (x0 - (x - y)) = eF env x y := by
      have := eF_run_eq env h (x - y) g3 g1 g2 g4
      rw [show x - (x - y) = y by ring] at this
      exact this
    have heB0 : eB env x0 (x0 - (x - y)) ≤ Dtot env - n := by
      rw [g5]
      exact p6
    by_cases hcorner : x0 = env.lu ∧ x0 - (x - y) = env.ru
    · refine ⟨x0, x0 - (x - y), by omega, g1, by omega, g2, ?_, ?_⟩
      · rw [heF0]
        push_cast
        omega
      · rw [hcorner.2, hcorner.1, eB_corner env h]
        push_cast
        omega
    · rcases fwdStepB env h g1 g2 hcorner with hA | hB | hC
      · exact absurd ⟨hA.1, hA.2.1, hA.2.2.1, hA.2.2.2.1, hA.2.2.2.2.1⟩ g6
      · refine ⟨x0 + 1, x0 - (x - y), by omega, by omega, by omega, g2, ?_, ?_⟩
        · have := eF_right_le env x0 (x0 - (x - y))
          rw [heF0] at this
          push_cast
          omega
        · push_cast
          omega
      · refine ⟨x0, x0 - (x - y) + 1, by omega, g1, by omega, by omega, ?_, ?_⟩
        · have := eF_down_le env x0 (x0 - (x - y))
          rw [heF0] at this
          push_cast
          omega
        · push_cast
          omega

/-- A fired overlap test during a forward (odd-delta) phase yields an
in-rectangle midpoint that splits the rectangle's matched pairs exactly. -/
theorem oddFireSound (env : SmsEnv) (h : SmsWF env) {d k x xb : Int}
    (hfr : IsFR env d k x) (hbr : IsBR env (d - 1) k xb) (hle : xb ≤ x)
    (hb1 : env.kup - d < k) (hb2 : k < env.kup + d)
    (hDmin : 2 * d - 1 ≤ Dtot env) :
    env.ll ≤ x ∧ x ≤ env.lu ∧ env.rl ≤ x - k ∧ x - k ≤ env.ru ∧
    env.ll + env.rl < x + (x - k) ∧ x + (x - k) < env.lu + env.ru ∧
    lcsLen (segI env.L env.ll x) (segI env.R env.rl (x - k)) +
      lcsLen (segI env.L x env.lu) (segI env.R (x - k) env.ru) =
      lcsLen (segI env.L env.ll env.lu) (segI env.R env.rl env.ru) := by
  have hrect := rectWF_of_smsWF h
  have hD2 := Dtot_ge_two env h
  have hkup : env.kup = env.lu - env.ru := h.2.2.2.2.2.2.2.1
  obtain ⟨f1, f2, f3, _⟩ := hfr
  obtain ⟨b1, b2, b3, _⟩ := hbr
  have hmon := eB_diag_mono env hrect k hle
  have heBx : eB env x (x - k) ≤ d - 1 := le_trans hmon b3
  by_cases hbox : x ≤ env.lu ∧ x - k ≤ env.ru
  · have hsplit := split_in_box env hrect f1 hbox.1 f2 hbox.2
    have heF : eF env x (x - k) = d := by omega
    have heBe : eB env x (x - k) = d - 1 := by omega
    refine ⟨f1, hbox.1, f2, hbox.2, ?_, ?_,
      split_exact env hrect f1 hbox.1 f2 hbox.2 (by omega)⟩
    · by_contra hcon
      have hx : x = env.ll := by omega
      have hy : x - k = env.rl := by omega
      rw [hy, hx, eF_origin env hrect] at heF
      omega
    · by_contra hcon
      have hx : x = env.lu := by omega
      have hy : x - k = env.ru := by omega
      rw [hy, hx, eB_corner env hrect] at heBe
      omega
  · exfalso
    have hout := eF_ge_out env x (x - k)
    omega

/-- A fired overlap test during a backward (even-delta) phase yields an
in-rectangle midpoint that splits the rectangle's matched pairs exactly. -/
theorem evenFireSound (env : SmsEnv) (h : SmsWF env) {d k x xb : Int}
    (hfr : IsFR env d k x) (hbr : IsBR env d k xb) (hle : xb ≤ x)
    (hb1 : env.kup - d ≤ k) (hb2 : k ≤ env.kup + d)
    (hDmin : 2 * d ≤ Dtot env) :
    env.ll ≤ x ∧ x ≤ env.lu ∧ env.rl ≤ x - k ∧ x - k ≤ env.ru ∧
    env.ll + env.rl < x + (x - k) ∧ x + (x - k) < env.lu + env.ru ∧
    lcsLen (segI env.L env.ll x) (segI env.R env.rl (x - k)) +
      lcsLen (segI env.L x env.lu) (segI env.R (x - k) env.ru) =
      lcsLen (segI env.L env.ll env.lu) (segI env.R env.rl env.ru) := by
  have hrect := rectWF_of_smsWF h
  have hD2 := Dtot_ge_two env h
  have hkup : env.kup = env.lu - env.ru := h.2.2.2.2.2.2.2.1
  obtain ⟨f1, f2, f3, _⟩ := hfr
  obtain ⟨b1, b2, b3, _⟩ := hbr
  have hmon := eB_diag_mono env hrect k hle
  have heBx : eB env x (x - k) ≤ d := le_trans hmon b3
  by_cases hbox : x ≤ env.lu ∧ x - k ≤ env.ru
  · have hsplit := split_in_box env hrect f1 hbox.1 f2 hbox.2
    have heF : eF env x (x - k) = d := by omega
    have heBe : eB env x (x - k) = d := by omega
    refine ⟨f1, hbox.1, f2, hbox.2, ?_, ?_,
      split_exact env hrect f1 hbox.1 f2 hbox.2 (by omega)⟩
    · by_contra hcon
      have hx : x = env.ll := by omega
      have hy : x - k = env.rl := by omega
      rw [hy, hx, eF_origin env hrect] at heF
      omega
    · by_contra hcon
      have hx : x = env.lu := by omega
      have hy : x - k = env.ru := by omega
      rw [hy, hx, eB_corner env hrect] at heBe
      omega
  · exfalso
    have hout := eF_ge_out env x (x - k)
    omega

/-- If an odd-delta forward phase `d` completes without firing, the rectangle's
edit distance exceeds `2d`. -/
theorem phase_complete_odd (env : SmsEnv) (h : SmsWF env) {d : Nat}
    {vd2 vu : Int → Int} (hodd : env.odd = true)
    (hFB : ∀ j ∈ kList env.kdown d, IsFR env (d : Int) j (vd2 (env.odown + j)))
    (hBB : BBand env ((d : Int) - 1) vu)
    (hNoF : ∀ k ∈ kList env.kdown d, ¬(env.odd = true ∧ env.kup - (d : Int) < k ∧
      k < env.kup + (d : Int) ∧
      ∃ x, IsFR env (d : Int) k x ∧ vu (env.oup + k) ≤ x))
    (hDge : 2 * (d : Int) - 1 ≤ Dtot env) :
    2 * (d : Int) + 1 ≤ Dtot env := by
  have hrect := rectWF_of_smsWF h
  have hkd : env.kdown = env.ll - env.rl := h.2.2.2.2.2.2.1
  have hkup : env.kup = env.lu - env.ru := h.2.2.2.2.2.2.2.1
  have hdelta : ((env.lu - env.ll) - (env.ru - env.rl)) % 2 ≠ 0 :=
    (h.2.2.2.2.2.2.2.2.1).mp hodd
  by_contra hc
  have hDpar := Dtot_parity env
  have hD : Dtot env = 2 * (d : Int) - 1 := by omega
  have hd2 : 2 ≤ (d : Int) := by
    have := Dtot_ge_two env h
    omega
  obtain ⟨x, y, p1, p2, p3, p4, p5, p6⟩ := splitPoint env hrect d (by omega)
  have hsum := split_in_box env hrect p1 p2 p3 p4
  have heF : eF env x y = (d : Int) := by omega
  have heB : eB env x y = (d : Int) - 1 := by omega
  have hpar1 := eF_parity env x (x - y)
  rw [show x - (x - y) = y by ring] at hpar1
  have hpar2 := eB_parity env x (x - y)
  rw [show x - (x - y) = y by ring] at hpar2
  have habs1 := eF_ge_diff1 env hrect (x := x) (y := y) p3
  have habs2 := eF_ge_diff2 env hrect (x := x) (y := y) p1
  have habs3 := eB_ge_diff1 env hrect (x := x) (y := y) p4
  have habs4 := eB_ge_diff2 env hrect (x := x) (y := y) p2
  have hkmem : (x - y) ∈ kList env.kdown d :=
    mem_kList.mpr ⟨by omega, by omega, by omega⟩
  have hxf := hFB (x - y) hkmem
  have hxb := hBB (x - y) (by omega) (by omega) (by omega)
  have hble : vu (env.oup + (x - y)) ≤ x :=
    hxb.2.2.2 x p2 (by rw [show x - (x - y) = y by ring]; exact p4)
      (by rw [show x - (x - y) = y by ring]; omega)
  have hfle : x ≤ vd2 (env.odown + (x - y)) :=
    hxf.2.2.2 x p1 (by rw [show x - (x - y) = y by ring]; exact p3)
      (by rw [show x - (x - y) = y by ring]; omega)
  exact hNoF (x - y) hkmem
    ⟨hodd, by omega, by omega, vd2 (env.odown + (x - y)), hxf, by omega⟩

/-- If an even-delta backward phase `d` completes without firing, the
rectangle's edit distance exceeds `2d`. -/
theorem phase_complete_even (env : SmsEnv) (h : SmsWF env) {d : Nat}
    {vd2 vu2 : Int → Int} (hodd : env.odd = false)
    (hFB : ∀ j ∈ kList env.kdown d, IsFR env (d : Int) j (vd2 (env.odown + j)))
    (hBB2 : ∀ j ∈ kList env.kup d, IsBR env (d : Int) j (vu2 (env.oup + j)))
    (hNoB : ∀ k ∈ kList env.kup d, ¬((!env.odd) = true ∧
      env.kdown - (d : Int) ≤ k ∧ k ≤ env.kdown + (d : Int) ∧
      ∃ x, IsBR env (d : Int) k x ∧ x ≤ vd2 (env.odown + k)))
    (hDge : 2 * (d : Int) - 1 ≤ Dtot env) :
    2 * (d : Int) + 1 ≤ Dtot env := by
  have hrect := rectWF_of_smsWF h
  have hkd : env.kdown = env.ll - env.rl := h.2.2.2.2.2.2.1
  have hkup : env.kup = env.lu - env.ru := h.2.2.2.2.2.2.2.1
  have hdelta : ((env.lu - env.ll) - (env.ru - env.rl)) % 2 = 0 := by
    by_contra hcon
    have hot : env.odd = true := (h.2.2.2.2.2.2.2.2.1).mpr hcon
    rw [hodd] at hot
    simp at hot
  by_contra hc
  have hDpar := Dtot_parity env
  have hD : Dtot env = 2 * (d : Int) := by omega
  have hd1 : 1 ≤ (d : Int) := by
    have := Dtot_ge_two env h
    omega
  obtain ⟨x, y, p1, p2, p3, p4, p5, p6⟩ := splitPoint env hrect d (by omega)
  have hsum := split_in_box env hrect p1 p2 p3 p4
  have heF : eF env x y = (d : Int) := by omega
  have heB : eB env x y = (d : Int) := by omega
  have hpar1 := eF_parity env x (x - y)
  rw [show x - (x - y) = y by ring] at hpar1
  have hpar2 := eB_parity env x (x - y)
  rw [show x - (x - y) = y by ring] at hpar2
  have habs1 := eF_ge_diff1 env hrect (x := x) (y := y) p3
  have habs2 := eF_ge_diff2 env hrect (x := x) (y := y) p1
  have habs3 := eB_ge_diff1 env hrect (x := x) (y := y) p4
  have habs4 := eB_ge_diff2 env hrect (x := x) (y := y) p2
  have hkmemF : (x - y) ∈ kList env.kdown d :=
    mem_kList.mpr ⟨by omega, by omega, by omega⟩
  have hkmemB : (x - y) ∈ kList env.kup d :=
    mem_kList.mpr ⟨by omega, by omega, by omega⟩
  have hxf := hFB (x - y) hkmemF
  have hxb := hBB2 (x - y) hkmemB
  have hble : vu2 (env.oup + (x - y)) ≤ x :=
    hxb.2.2.2 x p2 (by rw [show x - (x - y) = y by ring]; exact p4)
      (by rw [show x - (x - y) = y by ring]; omega)
  have hfle : x ≤ vd2 (env.odown + (x - y)) :=
    hxf.2.2.2 x p1 (by rw [show x - (x - y) = y by ring]; exact p3)
      (by rw [show x - (x - y) = y by ring]; omega)
  refine hNoB (x - y) hkmemB
    ⟨by rw [hodd]; rfl, by omega, by omega, vu2 (env.oup + (x - y)), hxb, by omega⟩

/-- The phase loop of `getShortestMiddleSnake` always returns a midpoint, and
every returned midpoint lies strictly inside the rectangle (in the Manhattan
sense) and splits its matched pairs exactly. -/
theorem smsPhases_spec (env : SmsEnv) (h : SmsWF env) :
    ∀ (rem d : Nat) (vd vu : Int → Int),
      Dtot env + 3 ≤ 2 * ((d : Int) + (rem : Int)) →
      2 * (d : Int) - 1 ≤ Dtot env →
      (d = 0 → vd (env.odown + env.kdown + 1) = env.ll) →
      (d = 0 → vu (env.oup + env.kup - 1) = env.lu) →
      FBand env ((d : Int) - 1) vd →
      BBand env ((d : Int) - 1) vu →
      ∃ px py, smsPhases env rem d vd vu = some (px, py) ∧
        env.ll ≤ px ∧ px ≤ env.lu ∧ env.rl ≤ py ∧ py ≤ env.ru ∧
        env.ll + env.rl < px + py ∧ px + py < env.lu + env.ru ∧
        lcsLen (segI env.L env.ll px) (segI env.R env.rl py) +
          lcsLen (segI env.L px env.lu) (segI env.R py env.ru) =
          lcsLen (segI env.L env.ll env.lu) (segI env.R env.rl env.ru) := by
  have hkd : env.kdown = env.ll - env.rl := h.2.2.2.2.2.2.1
  have hkup : env.kup = env.lu - env.ru := h.2.2.2.2.2.2.2.1
  intro rem
  induction rem with
  | zero =>
    intro d vd vu hfuel hDge _ _ _ _
    exfalso
    omega
  | succ rem ih =>
    intro d vd vu hfuel hDge hseedF hseedB hFB hBB
    have hfwd := fwdLoop_spec env h d vu (kList env.kdown d) vd
      (fun k hk => hk) hseedF hFB
      (fun j hj hnot => absurd hj hnot)
    match hresF : fwdLoop env d vu vd (kList env.kdown d) with
    | Sum.inr p =>
      rw [hresF] at hfwd
      obtain ⟨k, x, rfl, hkmem, hxFR, hodd, hb1, hb2, hle⟩ := hfwd
      have hkb := mem_kList.mp hkmem
      have hdelta : ((env.lu - env.ll) - (env.ru - env.rl)) % 2 ≠ 0 :=
        (h.2.2.2.2.2.2.2.2.1).mp hodd
      -- the tested cell holds the phase-(d-1) backward reach
      have hxb : IsBR env ((d : Int) - 1) k (vu (env.oup + k)) :=
        hBB k (by omega) (by omega) (by omega)
      have hsound := oddFireSound env h hxFR hxb hle hb1 hb2 hDge
      refine ⟨x, x - k, ?_, hsound.1, hsound.2.1, hsound.2.2.1, hsound.2.2.2.1,
        hsound.2.2.2.2.1, hsound.2.2.2.2.2.1, hsound.2.2.2.2.2.2⟩
      have hdef : smsPhases env (rem + 1) d vd vu =
          match fwdLoop env d vu vd (kList env.kdown d) with
          | Sum.inr p => some p
          | Sum.inl w =>
            match bwdLoop env d w vu (kList env.kup d) with
            | Sum.inr p => some p
            | Sum.inl u => smsPhases env rem (d + 1) w u := rfl
      rw [hdef, hresF]
    | Sum.inl vd2 =>
      rw [hresF] at hfwd
      obtain ⟨hFB2, hNoF⟩ := hfwd
      have hbwd := bwdLoop_spec env h d vd2 (kList env.kup d) vu
        (fun k hk => hk) hseedB hBB
        (fun j hj hnot => absurd hj hnot)
      match hresB : bwdLoop env d vd2 vu (kList env.kup d) with
      | Sum.inr p =>
        rw [hresB] at hbwd
        obtain ⟨k, xb, rfl, hkmem, hxBR, hnotodd, hb1, hb2, hle⟩ := hbwd
        have hkb := mem_kList.mp hkmem
        have hodd : env.odd = false := by
          cases hov : env.odd
          · rfl
          · rw [hov] at hnotodd
            simp at hnotodd
        have hdelta : ((env.lu - env.ll) - (env.ru - env.rl)) % 2 = 0 := by
          by_contra hcon
          have hot : env.odd = true := (h.2.2.2.2.2.2.2.2.1).mpr hcon
          rw [hodd] at hot
          simp at hot
        -- the tested cell holds the phase-d forward reach
        have hxf : IsFR env (d : Int) k (vd2 (env.odown + k)) :=
          hFB2 k (mem_kList.mpr ⟨by omega, by omega, by omega⟩)
        -- even parity forces the distance to be even, so at least 2d
        have hDpar := Dtot_parity env
        have hDeven : 2 * (d : Int) ≤ Dtot env := by omega
        have hsound := evenFireSound env h hxf hxBR hle (by omega) (by omega) hDeven
        refine ⟨vd2 (env.odown + k), vd2 (env.odown + k) - k, ?_, hsound.1,
          hsound.2.1, hsound.2.2.1, hsound.2.2.2.1, hsound.2.2.2.2.1,
          hsound.2.2.2.2.2.1, hsound.2.2.2.2.2.2⟩
        have hdef : smsPhases env (rem + 1) d vd vu =
            match fwdLoop env d vu vd (kList env.kdown d) with
            | Sum.inr p => some p
            | Sum.inl w =>
              match bwdLoop env d w vu (kList env.kup d) with
              | Sum.inr p => some p
              | Sum.inl u => smsPhases env rem (d + 1) w u := rfl
        have hstep1 : smsPhases env (rem + 1) d vd vu =
            match bwdLoop env d vd2 vu (kList env.kup d) with
            | Sum.inr p => some p
            | Sum.inl u => smsPhases env rem (d + 1) vd2 u := by
          rw [hdef, hresF]
        rw [hstep1, hresB]
      | Sum.inl vu2 =>
        rw [hresB] at hbwd
        obtain ⟨hBB2, hNoB⟩ := hbwd
        -- no fire in either loop: the distance exceeds 2d
        have hDnext : 2 * (d : Int) + 1 ≤ Dtot env := by
          cases hov : env.odd
          · exact phase_complete_even env h hov hFB2 hBB2
              (by
                intro k hk
                exact hNoB k hk) hDge
          · exact phase_complete_odd env h hov
              (by
                intro j hj
                exact hFB2 j hj) hBB
              (by
                intro k hk
                exact hNoF k hk) hDge
        have hrec := ih (d + 1) vd2 vu2
          (by push_cast; push_cast at hfuel; omega)
          (by push_cast; omega)
          (by omega)
          (by omega)
          (by
            intro j hj1 hj2 hj3
            have heq : (((d + 1 : Nat) : Int)) - 1 = (d : Int) := by push_cast; ring
            rw [heq] at hj1 hj2 hj3 ⊢
            exact hFB2 j (mem_kList.mpr ⟨hj1, hj2, hj3⟩))
          (by
            intro j hj1 hj2 hj3
            have heq : (((d + 1 : Nat) : Int)) - 1 = (d : Int) := by push_cast; ring
            rw [heq] at hj1 hj2 hj3 ⊢
            exact hBB2 j (mem_kList.mpr ⟨hj1, hj2, hj3⟩))
        obtain ⟨px, py, hret, hrest⟩ := hrec
        refine ⟨px, py, ?_, hrest⟩
        have hdef : smsPhases env (rem + 1) d vd vu =
            match fwdLoop env d vu vd (kList env.kdown d) with
            | Sum.inr p => some p
            | Sum.inl w =>
              match bwdLoop env d w vu (kList env.kup d) with
              | Sum.inr p => some p
              | Sum.inl u => smsPhases env rem (d + 1) w u := rfl
        have hstep1 : smsPhases env (rem + 1) d vd vu =
            match bwdLoop env d vd2 vu (kList env.kup d) with
            | Sum.inr p => some p
            | Sum.inl u => smsPhases env rem (d + 1) vd2 u := by
          rw [hdef, hresF]
        rw [hstep1, hresB]
        exact hret

/-- `Myers.getShortestMiddleSnake` on a trimmed, non-degenerate sub-rectangle:
the crossing search always returns a midpoint (the trailing
`throw new Error('unexpected state')` is never reached), the midpoint lies in
the rectangle strictly between its corners in the Manhattan sense, and it
splits the rectangle's longest common subsequence exactly. -/
theorem getShortestMiddleSnake_spec (L : List Nat) (lhsLen : Nat) (ll lu : Int)
    (R : List Nat) (rhsLen : Nat) (rl ru : Int)
    (h1 : 0 ≤ ll) (h2 : ll < lu) (h3 : lu ≤ (L.length : Int))
    (h4 : 0 ≤ rl) (h5 : rl < ru) (h6 : ru ≤ (R.length : Int))
    (hc1 : getI L ll ≠ getI R rl) (hc2 : getI L (lu - 1) ≠ getI R (ru - 1)) :
    ∃ px py,
      getShortestMiddleSnake L lhsLen ll lu R rhsLen rl ru = some (px, py) ∧
      ll ≤ px ∧ px ≤ lu ∧ rl ≤ py ∧ py ≤ ru ∧
      ll + rl < px + py ∧ px + py < lu + ru ∧
      lcsLen (segI L ll px) (segI R rl py) +
        lcsLen (segI L px lu) (segI R py ru) =
        lcsLen (segI L ll lu) (segI R rl ru) := by
  have hwf : SmsWF
      { L := L, R := R, ll := ll, lu := lu, rl := rl, ru := ru,
        kdown := ll - rl, kup := lu - ru,
        odd := decide (((lu - ll) - (ru - rl)) % 2 ≠ 0),
        odown := ((lhsLen : Int) + (rhsLen : Int) + 1) - (ll - rl),
        oup := ((lhsLen : Int) + (rhsLen : Int) + 1) - (lu - ru) } := by
    refine ⟨h1, h2, h3, h4, h5, h6, rfl, rfl, ?_, hc1, hc2⟩
    constructor
    · intro hodd
      exact of_decide_eq_true hodd
    · intro hodd
      exact decide_eq_true hodd
  have hDle := Dtot_le
    { L := L, R := R, ll := ll, lu := lu, rl := rl, ru := ru,
      kdown := ll - rl, kup := lu - ru,
      odd := decide (((lu - ll) - (ru - rl)) % 2 ≠ 0),
      odown := ((lhsLen : Int) + (rhsLen : Int) + 1) - (ll - rl),
      oup := ((lhsLen : Int) + (rhsLen : Int) + 1) - (lu - ru) }
  have hD2 := Dtot_ge_two _ hwf
  have hfd := Int.fdiv_eq_ediv (lu - ll + ru - rl) (by omega : (0 : Int) ≤ 2)
  have main := smsPhases_spec _ hwf
    ((Int.fdiv (lu - ll + ru - rl) 2 + 1 + 1).toNat) 0
    (updI (fun _ => 0)
      (((lhsLen : Int) + (rhsLen : Int) + 1) - (ll - rl) + (ll - rl) + 1) ll)
    (updI (fun _ => 0)
      (((lhsLen : Int) + (rhsLen : Int) + 1) - (lu - ru) + (lu - ru) - 1) lu)
    (by
      show Dtot _ + 3 ≤ 2 * ((0 : Int) + _)
      have htn : ((Int.fdiv (lu - ll + ru - rl) 2 + 1 + 1).toNat : Int) =
          (lu - ll + ru - rl) / 2 + 2 := by
        rw [hfd]
        omega
      rw [htn]
      simp only [] at hDle
      omega)
    (by
      show 2 * (0 : Int) - 1 ≤ Dtot _
      omega)
    (fun _ => updI_self _ _ _)
    (fun _ => updI_self _ _ _)
    (by
      intro j hj1 hj2 hj3
      exfalso
      simp only [] at hj1 hj2
      omega)
    (by
      intro j hj1 hj2 hj3
      exfalso
      simp only [] at hj1 hj2
      omega)
  obtain ⟨px, py, hret, c1, c2, c3, c4, c5, c6, c7⟩ := main
  have hun : getShortestMiddleSnake L lhsLen ll lu R rhsLen rl ru =
      smsPhases
        { L := L, R := R, ll := ll, lu := lu, rl := rl, ru := ru,
          kdown := ll - rl, kup := lu - ru,
          odd := decide (((lu - ll) - (ru - rl)) % 2 ≠ 0),
          odown := ((lhsLen : Int) + (rhsLen : Int) + 1) - (ll - rl),
          oup := ((lhsLen : Int) + (rhsLen : Int) + 1) - (lu - ru) }
        ((Int.fdiv (lu - ll + ru - rl) 2 + 1 + 1).toNat) 0
        (updI (fun _ => 0)
          (((lhsLen : Int) + (rhsLen : Int) + 1) - (ll - rl) + (ll - rl) + 1) ll)
        (updI (fun _ => 0)
          (((lhsLen : Int) + (rhsLen : Int) + 1) - (lu - ru) + (lu - ru) - 1) lu) :=
    rfl
  exact ⟨px, py, hun.trans hret, c1, c2, c3, c4, c5, c6, c7⟩

/-! ## Markers: reading, writing, range marking, unmarked codes -/

theorem modSet_length (m : List Bool) (i : Int) (b : Bool) :
    (modSet m i b).length = m.length := by
  unfold modSet
  split
  · rfl
  · exact List.length_set m _ b

theorem modGet_modSet_self {m : List Bool} {i : Int} (h0 : 0 ≤ i)
    (hlen : i < (m.length : Int)) (b : Bool) : modGet (modSet m i b) i = b := by
  unfold modGet modSet
  rw [if_neg (by omega), if_neg (by omega)]
  rw [List.getD_eq_getElem?_getD, List.getElem?_set_self (by omega)]
  rfl

theorem modGet_modSet_other (m : List Bool) {i j : Int} (b : Bool) (hne : j ≠ i) :
    modGet (modSet m i b) j = modGet m j := by
  unfold modGet modSet
  by_cases hj : j < 0
  · rw [if_pos hj]
    split
    · rfl
    · rfl
  · rw [if_neg hj]
    by_cases hi : i < 0
    · rw [if_pos hi, if_neg hj]
    · rw [if_neg hi, if_neg hj]
      rw [List.getD_eq_getElem?_getD, List.getD_eq_getElem?_getD,
        List.getElem?_set_ne (by omega)]

theorem markRangeAux_length : ∀ (n : Nat) (lo : Int) (m : List Bool),
    (markRangeAux lo n m).length = m.length := by
  intro n
  induction n with
  | zero => intro lo m; rfl
  | succ n ih =>
    intro lo m
    unfold markRangeAux
    rw [ih, modSet_length]

theorem modGet_markRangeAux : ∀ (n : Nat) (lo : Int) (m : List Bool), 0 ≤ lo →
    lo + n ≤ (m.length : Int) → ∀ p : Int,
    modGet (markRangeAux lo n m) p =
      if lo ≤ p ∧ p < lo + n then true else modGet m p := by
  intro n
  induction n with
  | zero =>
    intro lo m h0 hlen p
    rw [if_neg (by omega)]
    rfl
  | succ n ih =>
    intro lo m h0 hlen p
    unfold markRangeAux
    push_cast at hlen
    rw [ih (lo + 1) (modSet m lo true) (by omega)
      (by rw [modSet_length]; omega) p]
    by_cases hp : p = lo
    · subst hp
      rw [if_neg (by omega), if_pos (by push_cast; omega)]
      exact modGet_modSet_self h0 (by omega) true
    · rw [modGet_modSet_other m true hp]
      by_cases hin : lo + 1 ≤ p ∧ p < lo + 1 + n
      · rw [if_pos hin, if_pos (by push_cast; omega)]
      · rw [if_neg hin, if_neg (by push_cast; omega)]

theorem modGet_markRange (m : List Bool) (lo hi : Int) (h0 : 0 ≤ lo)
    (hlen : hi ≤ (m.length : Int)) (p : Int) :
    modGet (markRange m lo hi) p =
      if lo ≤ p ∧ p < hi then true else modGet m p := by
  unfold markRange
  by_cases hcase : hi ≤ lo
  · have h00 : (hi - lo).toNat = 0 := by omega
    rw [h00, if_neg (by omega)]
    rfl
  · rw [modGet_markRangeAux (hi - lo).toNat lo m h0 (by omega) p]
    by_cases hp : lo ≤ p ∧ p < hi
    · rw [if_pos (by omega), if_pos hp]
    · rw [if_neg (by omega), if_neg hp]

theorem markRange_length (m : List Bool) (lo hi : Int) :
    (markRange m lo hi).length = m.length :=
  markRangeAux_length _ lo m

theorem unmarkedCodesFrom_append (m : List Bool) :
    ∀ (xs ys : List Nat) (i : Nat),
      unmarkedCodesFrom m i (xs ++ ys) =
        unmarkedCodesFrom m i xs ++ unmarkedCodesFrom m (i + xs.length) ys := by
  intro xs
  induction xs with
  | nil =>
    intro ys i
    simp [unmarkedCodesFrom]
  | cons c cs ih =>
    intro ys i
    have hl : i + 1 + cs.length = i + (c :: cs).length := by
      rw [List.length_cons]
      omega
    rw [List.cons_append]
    by_cases hm : modGet m (i : Int) = true
    · have e1 : unmarkedCodesFrom m i (c :: (cs ++ ys)) =
          unmarkedCodesFrom m (i + 1) (cs ++ ys) := by
        show (if modGet m (i : Int) = true then unmarkedCodesFrom m (i + 1) (cs ++ ys)
          else c :: unmarkedCodesFrom m (i + 1) (cs ++ ys)) = _
        rw [if_pos hm]
      have e2 : unmarkedCodesFrom m i (c :: cs) =
          unmarkedCodesFrom m (i + 1) cs := by
        show (if modGet m (i : Int) = true then unmarkedCodesFrom m (i + 1) cs
          else c :: unmarkedCodesFrom m (i + 1) cs) = _
        rw [if_pos hm]
      rw [e1, e2, ih ys (i + 1), hl]
    · have e1 : unmarkedCodesFrom m i (c :: (cs ++ ys)) =
          c :: unmarkedCodesFrom m (i + 1) (cs ++ ys) := by
        show (if modGet m (i : Int) = true then unmarkedCodesFrom m (i + 1) (cs ++ ys)
          else c :: unmarkedCodesFrom m (i + 1) (cs ++ ys)) = _
        rw [if_neg hm]
      have e2 : unmarkedCodesFrom m i (c :: cs) =
          c :: unmarkedCodesFrom m (i + 1) cs := by
        show (if modGet m (i : Int) = true then unmarkedCodesFrom m (i + 1) cs
          else c :: unmarkedCodesFrom m (i + 1) cs) = _
        rw [if_neg hm]
      rw [e1, e2, ih ys (i + 1), hl, List.cons_append]

theorem unmarkedCodesFrom_congr {m m' : List Bool} :
    ∀ (xs : List Nat) (i : Nat),
      (∀ p : Nat, i ≤ p → p < i + xs.length → modGet m p = modGet m' p) →
      unmarkedCodesFrom m i xs = unmarkedCodesFrom m' i xs := by
  intro xs
  induction xs with
  | nil => intro i _; rfl
  | cons c cs ih =>
    intro i hag
    have hlc : (c :: cs).length = cs.length + 1 := List.length_cons c cs
    have h0 := hag i (le_refl i) (by omega)
    show (if modGet m (i : Int) = true then unmarkedCodesFrom m (i + 1) cs
      else c :: unmarkedCodesFrom m (i + 1) cs) =
      (if modGet m' (i : Int) = true then unmarkedCodesFrom m' (i + 1) cs
      else c :: unmarkedCodesFrom m' (i + 1) cs)
    rw [h0, ih (i + 1) (fun p hp1 hp2 => hag p (by omega) (by omega))]

theorem unmarkedCodesFrom_all_false {m : List Bool} :
    ∀ (xs : List Nat) (i : Nat),
      (∀ p : Nat, i ≤ p → p < i + xs.length → modGet m p = false) →
      unmarkedCodesFrom m i xs = xs := by
  intro xs
  induction xs with
  | nil => intro i _; rfl
  | cons c cs ih =>
    intro i hf
    have hlc : (c :: cs).length = cs.length + 1 := List.length_cons c cs
    show (if modGet m (i : Int) = true then unmarkedCodesFrom m (i + 1) cs
      else c :: unmarkedCodesFrom m (i + 1) cs) = c :: cs
    rw [hf i (le_refl i) (by omega)]
    rw [ih (i + 1) (fun p hp1 hp2 => hf p (by omega) (by omega))]
    rfl

theorem unmarkedCodesFrom_all_true {m : List Bool} :
    ∀ (xs : List Nat) (i : Nat),
      (∀ p : Nat, i ≤ p → p < i + xs.length → modGet m p = true) →
      unmarkedCodesFrom m i xs = [] := by
  intro xs
  induction xs with
  | nil => intro i _; rfl
  | cons c cs ih =>
    intro i ht
    have hlc : (c :: cs).length = cs.length + 1 := List.length_cons c cs
    show (if modGet m (i : Int) = true then unmarkedCodesFrom m (i + 1) cs
      else c :: unmarkedCodesFrom m (i + 1) cs) = []
    rw [ht i (le_refl i) (by omega)]
    exact ih (i + 1) (fun p hp1 hp2 => ht p (by omega) (by omega))

theorem unmarkedCodesFrom_sublist (m : List Bool) :
    ∀ (xs : List Nat) (i : Nat), (unmarkedCodesFrom m i xs).Sublist xs := by
  intro xs
  induction xs with
  | nil => intro i; exact List.Sublist.refl []
  | cons c cs ih =>
    intro i
    unfold unmarkedCodesFrom
    split
    · exact (ih (i + 1)).trans (List.sublist_cons_self c cs)
    · exact List.cons_sublist_cons.mpr (ih (i + 1))

theorem unmI_split (codes : List Nat) (m : List Bool) {a c b : Int}
    (h0 : 0 ≤ a) (hac : a ≤ c) (hcb : c ≤ b) (hb : b ≤ (codes.length : Int)) :
    unmI codes m a b = unmI codes m a c ++ unmI codes m c b := by
  unfold unmI
  rw [segI_split codes h0 hac hcb,
    unmarkedCodesFrom_append m (segI codes a c) (segI codes c b) a.toNat]
  have hlen : (segI codes a c).length = (c - a).toNat :=
    segI_length h0 (by omega)
  rw [hlen]
  have hidx : a.toNat + (c - a).toNat = c.toNat := by omega
  rw [hidx]

theorem unmI_congr (codes : List Nat) {m m' : List Bool} {a b : Int}
    (h0 : 0 ≤ a) (hb : b ≤ (codes.length : Int))
    (hag : ∀ p : Int, a ≤ p → p < b → modGet m p = modGet m' p) :
    unmI codes m a b = unmI codes m' a b := by
  unfold unmI
  by_cases hab : a ≤ b
  · refine unmarkedCodesFrom_congr (segI codes a b) a.toNat ?_
    intro p hp1 hp2
    have hlen : (segI codes a b).length = (b - a).toNat := segI_length h0 hb
    rw [hlen] at hp2
    exact hag p (by omega) (by omega)
  · rw [segI_nil (by omega)]
    rfl

theorem unmI_all_false (codes : List Nat) {m : List Bool} {a b : Int}
    (h0 : 0 ≤ a) (hb : b ≤ (codes.length : Int))
    (hf : ∀ p : Int, a ≤ p → p < b → modGet m p = false) :
    unmI codes m a b = segI codes a b := by
  unfold unmI
  by_cases hab : a ≤ b
  · refine unmarkedCodesFrom_all_false (segI codes a b) a.toNat ?_
    intro p hp1 hp2
    have hlen : (segI codes a b).length = (b - a).toNat := segI_length h0 hb
    rw [hlen] at hp2
    exact hf p (by omega) (by omega)
  · rw [segI_nil (by omega)]
    rfl

theorem unmI_all_true (codes : List Nat) {m : List Bool} {a b : Int}
    (h0 : 0 ≤ a) (hb : b ≤ (codes.length : Int))
    (ht : ∀ p : Int, a ≤ p → p < b → modGet m p = true) :
    unmI codes m a b = [] := by
  unfold unmI
  by_cases hab : a ≤ b
  · refine unmarkedCodesFrom_all_true (segI codes a b) a.toNat ?_
    intro p hp1 hp2
    have hlen : (segI codes a b).length = (b - a).toNat := segI_length h0 hb
    rw [hlen] at hp2
    exact ht p (by omega) (by omega)
  · rw [segI_nil (by omega)]
    rfl

theorem unmI_sublist (codes : List Nat) (m : List Bool) (a b : Int) :
    (unmI codes m a b).Sublist (segI codes a b) :=
  unmarkedCodesFrom_sublist m (segI codes a b) a.toNat

theorem segI_sublist (codes : List Nat) (a b : Int) :
    (segI codes a b).Sublist codes :=
  ((codes.drop a.toNat).take_sublist _).trans (codes.drop_sublist a.toNat)

/-! ## The common-prefix and common-suffix trims -/

theorem lcsLen_shared_front (P : List Nat) :
    ∀ (xs ys : List Nat), lcsLen (P ++ xs) (P ++ ys) = P.length + lcsLen xs ys := by
  induction P with
  | nil => intro xs ys; simp
  | cons a P ih =>
    intro xs ys
    rw [List.cons_append, List.cons_append, lcsLen_cons_eq, ih]
    rw [List.length_cons]
    omega

theorem lcsLen_common_suffix (P : List Nat) (xs ys : List Nat) :
    lcsLen (xs ++ P) (ys ++ P) = lcsLen xs ys + P.length := by
  rw [← lcsLen_rev, List.reverse_append, List.reverse_append,
    lcsLen_shared_front, lcsLen_rev, List.length_reverse]
  omega

theorem segI_ext_eq {L R : List Nat} :
    ∀ (n : Nat) (a b : Int), 0 ≤ a → 0 ≤ b → a + n ≤ (L.length : Int) →
      b + n ≤ (R.length : Int) →
      (∀ t : Int, 0 ≤ t → t < n → getI L (a + t) = getI R (b + t)) →
      segI L a (a + n) = segI R b (b + n) := by
  intro n
  induction n with
  | zero =>
    intro a b _ _ _ _ _
    rw [segI_nil (by omega), segI_nil (by omega)]
  | succ n ih =>
    intro a b ha hb hLa hRb hag
    have hex : ∃ c, getI L a = some c :=
      getI_of_bounds ha (by push_cast at hLa; omega)
    obtain ⟨cx, hcx⟩ := hex
    have hcy : getI R b = some cx := by
      have := hag 0 (le_refl (0 : Int)) (by push_cast; omega)
      rw [show a + 0 = a by ring, show b + 0 = b by ring] at this
      rw [← this, hcx]
    rw [segI_cons ha (by push_cast; omega) hcx, segI_cons hb (by push_cast; omega) hcy]
    have hrec := ih (a + 1) (b + 1) (by omega) (by omega)
      (by push_cast; push_cast at hLa; omega) (by push_cast; push_cast at hRb; omega)
      (by
        intro t ht1 ht2
        have := hag (t + 1) (by omega) (by push_cast; omega)
        rw [show a + (t + 1) = a + 1 + t by ring, show b + (t + 1) = b + 1 + t by ring]
          at this
        exact this)
    rw [show a + (n + 1 : Nat) = a + 1 + n by push_cast; ring,
      show b + (n + 1 : Nat) = b + 1 + n by push_cast; ring, hrec]

theorem trimFrontAux_spec (L R : List Nat) (lu ru : Int) :
    ∀ (fuel : Nat) (ll rl : Int),
      ll ≤ (trimFrontAux L R lu ru fuel ll rl).1 ∧
      (trimFrontAux L R lu ru fuel ll rl).1 - ll =
        (trimFrontAux L R lu ru fuel ll rl).2 - rl ∧
      (trimFrontAux L R lu ru fuel ll rl).1 ≤ max ll lu ∧
      (trimFrontAux L R lu ru fuel ll rl).2 ≤ max rl ru ∧
      (∀ t : Int, 0 ≤ t → t < (trimFrontAux L R lu ru fuel ll rl).1 - ll →
        getI L (ll + t) = getI R (rl + t)) ∧
      ((lu - ll).toNat ≤ fuel →
        ¬((trimFrontAux L R lu ru fuel ll rl).1 < lu ∧
          (trimFrontAux L R lu ru fuel ll rl).2 < ru ∧
          getI L (trimFrontAux L R lu ru fuel ll rl).1 =
            getI R (trimFrontAux L R lu ru fuel ll rl).2)) := by
  intro fuel
  induction fuel with
  | zero =>
    intro ll rl
    show ll ≤ ll ∧ ll - ll = rl - rl ∧ ll ≤ max ll lu ∧ rl ≤ max rl ru ∧
      (∀ t : Int, 0 ≤ t → t < ll - ll → getI L (ll + t) = getI R (rl + t)) ∧
      ((lu - ll).toNat ≤ 0 → ¬(ll < lu ∧ rl < ru ∧ getI L ll = getI R rl))
    refine ⟨le_refl ll, by omega, le_max_left ll lu, le_max_left rl ru,
      fun t ht1 ht2 => by omega, ?_⟩
    intro hf hcon
    omega
  | succ fuel ih =>
    intro ll rl
    by_cases hg : ll < lu ∧ rl < ru ∧ getI L ll = getI R rl
    · have hunf : trimFrontAux L R lu ru (fuel + 1) ll rl =
          trimFrontAux L R lu ru fuel (ll + 1) (rl + 1) := by
        show (if ll < lu ∧ rl < ru ∧ getI L ll = getI R rl then
          trimFrontAux L R lu ru fuel (ll + 1) (rl + 1) else (ll, rl)) = _
        rw [if_pos hg]
      rw [hunf]
      obtain ⟨g1, g2, g3, g3b, g4, g5⟩ := ih (ll + 1) (rl + 1)
      refine ⟨by omega, by omega, by omega, by omega, ?_, ?_⟩
      · intro t ht1 ht2
        by_cases ht0 : t = 0
        · subst ht0
          rw [show ll + 0 = ll by ring, show rl + 0 = rl by ring]
          exact hg.2.2
        · have := g4 (t - 1) (by omega) (by omega)
          rw [show ll + 1 + (t - 1) = ll + t by ring,
            show rl + 1 + (t - 1) = rl + t by ring] at this
          exact this
      · intro hf
        exact g5 (by omega)
    · have hunf : trimFrontAux L R lu ru (fuel + 1) ll rl = (ll, rl) := by
        show (if ll < lu ∧ rl < ru ∧ getI L ll = getI R rl then
          trimFrontAux L R lu ru fuel (ll + 1) (rl + 1) else (ll, rl)) = _
        rw [if_neg hg]
      rw [hunf]
      exact ⟨le_refl ll, by omega, le_max_left ll lu, le_max_left rl ru,
        fun t ht1 ht2 => by omega, fun _ => hg⟩

theorem trimEndAux_spec (L R : List Nat) (ll rl : Int) :
    ∀ (fuel : Nat) (lu ru : Int),
      (trimEndAux L R ll rl fuel lu ru).1 ≤ lu ∧
      lu - (trimEndAux L R ll rl fuel lu ru).1 =
        ru - (trimEndAux L R ll rl fuel lu ru).2 ∧
      min ll lu ≤ (trimEndAux L R ll rl fuel lu ru).1 ∧
      min rl ru ≤ (trimEndAux L R ll rl fuel lu ru).2 ∧
      (∀ t : Int, 0 ≤ t → t < lu - (trimEndAux L R ll rl fuel lu ru).1 →
        getI L (lu - 1 - t) = getI R (ru - 1 - t)) ∧
      ((lu - ll).toNat ≤ fuel →
        ¬(ll < (trimEndAux L R ll rl fuel lu ru).1 ∧
          rl < (trimEndAux L R ll rl fuel lu ru).2 ∧
          getI L ((trimEndAux L R ll rl fuel lu ru).1 - 1) =
            getI R ((trimEndAux L R ll rl fuel lu ru).2 - 1))) := by
  intro fuel
  induction fuel with
  | zero =>
    intro lu ru
    show lu ≤ lu ∧ lu - lu = ru - ru ∧ min ll lu ≤ lu ∧ min rl ru ≤ ru ∧
      (∀ t : Int, 0 ≤ t → t < lu - lu → getI L (lu - 1 - t) = getI R (ru - 1 - t)) ∧
      ((lu - ll).toNat ≤ 0 → ¬(ll < lu ∧ rl < ru ∧ getI L (lu - 1) = getI R (ru - 1)))
    refine ⟨le_refl lu, by omega, min_le_right ll lu, min_le_right rl ru,
      fun t ht1 ht2 => by omega, ?_⟩
    intro hf hcon
    omega
  | succ fuel ih =>
    intro lu ru
    by_cases hg : ll < lu ∧ rl < ru ∧ getI L (lu - 1) = getI R (ru - 1)
    · have hunf : trimEndAux L R ll rl (fuel + 1) lu ru =
          trimEndAux L R ll rl fuel (lu - 1) (ru - 1) := by
        show (if ll < lu ∧ rl < ru ∧ getI L (lu - 1) = getI R (ru - 1) then
          trimEndAux L R ll rl fuel (lu - 1) (ru - 1) else (lu, ru)) = _
        rw [if_pos hg]
      rw [hunf]
      obtain ⟨g1, g2, g3, g3b, g4, g5⟩ := ih (lu - 1) (ru - 1)
      refine ⟨by omega, by omega, by omega, by omega, ?_, ?_⟩
      · intro t ht1 ht2
        by_cases ht0 : t = 0
        · subst ht0
          rw [show lu - 1 - 0 = lu - 1 by ring, show ru - 1 - 0 = ru - 1 by ring]
          exact hg.2.2
        · have := g4 (t - 1) (by omega) (by omega)
          rw [show lu - 1 - 1 - (t - 1) = lu - 1 - t by ring,
            show ru - 1 - 1 - (t - 1) = ru - 1 - t by ring] at this
          exact this
      · intro hf
        exact g5 (by omega)
    · have hunf : trimEndAux L R ll rl (fuel + 1) lu ru = (lu, ru) := by
        show (if ll < lu ∧ rl < ru ∧ getI L (lu - 1) = getI R (ru - 1) then
          trimEndAux L R ll rl fuel (lu - 1) (ru - 1) else (lu, ru)) = _
        rw [if_neg hg]
      rw [hunf]
      exact ⟨le_refl lu, by omega, min_le_right ll lu, min_le_right rl ru,
        fun t ht1 ht2 => by omega, fun _ => hg⟩

theorem lcsLen_sandwich (P S xs ys : List Nat) :
    lcsLen (P ++ (xs ++ S)) (P ++ (ys ++ S)) = P.length + lcsLen xs ys + S.length := by
  rw [lcsLen_shared_front, lcsLen_common_suffix]
  omega

/-- Full correctness of the `getLongestCommonSubsequence` recursion on a
rectangle: it returns updated markers that agree with the inputs outside the
rectangle, and inside it the unmarked code sequences of the two sides are
equal and of length exactly the LCS length of the two segments. -/
theorem lcsAux_spec (L R : List Nat) (lhsLen rhsLen : Nat) :
    ∀ (fuel : Nat) (ll0 lu0 rl0 ru0 : Int) (lm rm : List Bool),
      0 ≤ ll0 → ll0 ≤ lu0 → lu0 ≤ (L.length : Int) →
      0 ≤ rl0 → rl0 ≤ ru0 → ru0 ≤ (R.length : Int) →
      lu0 ≤ (lm.length : Int) → ru0 ≤ (rm.length : Int) →
      (∀ p : Int, ll0 ≤ p → p < lu0 → modGet lm p = false) →
      (∀ p : Int, rl0 ≤ p → p < ru0 → modGet rm p = false) →
      ((lu0 - ll0) + (ru0 - rl0)).toNat < fuel →
      ∃ lm2 rm2,
        lcsAux L R lhsLen rhsLen fuel ll0 lu0 rl0 ru0 lm rm = some (lm2, rm2) ∧
        lm2.length = lm.length ∧ rm2.length = rm.length ∧
        (∀ p : Int, (p < ll0 ∨ lu0 ≤ p) → modGet lm2 p = modGet lm p) ∧
        (∀ p : Int, (p < rl0 ∨ ru0 ≤ p) → modGet rm2 p = modGet rm p) ∧
        unmI L lm2 ll0 lu0 = unmI R rm2 rl0 ru0 ∧
        (unmI L lm2 ll0 lu0).length = lcsLen (segI L ll0 lu0) (segI R rl0 ru0) := by
  intro fuel
  induction fuel with
  | zero =>
    intro ll0 lu0 rl0 ru0 lm rm h1 h2 h3 h4 h5 h6 hlm hrm hcl hcr hfuel
    exact absurd hfuel (by omega)
  | succ fuel ih =>
    intro ll0 lu0 rl0 ru0 lm rm h1 h2 h3 h4 h5 h6 hlm hrm hcl hcr hfuel
    obtain ⟨ll, rl, hf⟩ : ∃ a b, trimFrontAux L R lu0 ru0 (lu0 - ll0).toNat ll0 rl0 = (a, b) :=
      ⟨_, _, rfl⟩
    obtain ⟨tf1, tf2, tf3, tf3b, tf4, tf5⟩ :=
      trimFrontAux_spec L R lu0 ru0 (lu0 - ll0).toNat ll0 rl0
    simp only [hf] at tf1 tf2 tf3 tf3b tf4 tf5
    have tf5n := tf5 (le_refl _)
    obtain ⟨lu, ru, he⟩ : ∃ a b, trimEndAux L R ll rl (lu0 - ll).toNat lu0 ru0 = (a, b) :=
      ⟨_, _, rfl⟩
    obtain ⟨te1, te2, te3, te3b, te4, te5⟩ :=
      trimEndAux_spec L R ll rl (lu0 - ll).toNat lu0 ru0
    simp only [he] at te1 te2 te3 te3b te4 te5
    have te5n := te5 (le_refl _)
    have hf' : trimFront L R ll0 lu0 rl0 ru0 = (ll, rl) := hf
    have he' : trimEnd L R ll lu0 rl ru0 = (lu, ru) := he
    have hllu0 : ll ≤ lu0 := by omega
    have hrru0 : rl ≤ ru0 := by omega
    have hlllu : ll ≤ lu := by omega
    have hrlru : rl ≤ ru := by omega
    have hrl0rl : rl0 ≤ rl := by omega
    have hruru0 : ru ≤ ru0 := by omega
    have hP : segI L ll0 ll = segI R rl0 rl := by
      have hn := segI_ext_eq (L := L) (R := R) (ll - ll0).toNat ll0 rl0 h1 h4
        (by omega) (by omega)
        (fun t ht1 ht2 => tf4 t ht1 (by omega))
      rw [show ll0 + ((ll - ll0).toNat : Int) = ll by omega,
        show rl0 + ((ll - ll0).toNat : Int) = rl by omega] at hn
      exact hn
    have hS : segI L lu lu0 = segI R ru ru0 := by
      have hn := segI_ext_eq (L := L) (R := R) (lu0 - lu).toNat lu ru (by omega) (by omega)
        (by omega) (by omega)
        (fun t ht1 ht2 => by
          have h5t := te4 (lu0 - 1 - lu - t) (by omega) (by omega)
          rw [show lu0 - 1 - (lu0 - 1 - lu - t) = lu + t by ring] at h5t
          rw [show ru0 - 1 - (lu0 - 1 - lu - t) = ru + t by omega] at h5t
          exact h5t)
      rw [show lu + ((lu0 - lu).toNat : Int) = lu0 by omega,
        show ru + ((lu0 - lu).toNat : Int) = ru0 by omega] at hn
      exact hn
    by_cases hbase1 : ll = lu
    · -- left side of the trimmed rectangle is empty: mark the right span
      have hfinal : lcsAux L R lhsLen rhsLen (fuel + 1) ll0 lu0 rl0 ru0 lm rm =
          some (lm, markRange rm rl ru) := by
        simp only [lcsAux, hf', he']
        rw [if_pos hbase1]
      have hP' : segI L ll0 lu = segI R rl0 rl := by rw [← hbase1]; exact hP
      have hRa : unmI R (markRange rm rl ru) rl0 rl = segI R rl0 rl :=
        unmI_all_false R h4 (by omega)
          (fun p hp1 hp2 => by
            rw [modGet_markRange rm rl ru (by omega) (by omega) p, if_neg (by omega)]
            exact hcr p (by omega) (by omega))
      have hRb : unmI R (markRange rm rl ru) rl ru = [] :=
        unmI_all_true R (by omega) (by omega)
          (fun p hp1 hp2 => by
            rw [modGet_markRange rm rl ru (by omega) (by omega) p, if_pos ⟨hp1, hp2⟩])
      have hRc : unmI R (markRange rm rl ru) ru ru0 = segI R ru ru0 :=
        unmI_all_false R (by omega) h6
          (fun p hp1 hp2 => by
            rw [modGet_markRange rm rl ru (by omega) (by omega) p, if_neg (by omega)]
            exact hcr p (by omega) hp2)
      have hRsplit : unmI R (markRange rm rl ru) rl0 ru0 =
          segI R rl0 rl ++ ([] ++ segI R ru ru0) := by
        rw [unmI_split R (markRange rm rl ru) h4 hrl0rl (by omega) h6,
          unmI_split R (markRange rm rl ru) (by omega : (0 : Int) ≤ rl) hrlru hruru0 h6,
          hRa, hRb, hRc]
      have hL1 : unmI L lm ll0 lu0 = segI L ll0 lu0 := unmI_all_false L h1 h3 hcl
      refine ⟨lm, markRange rm rl ru, hfinal, rfl, markRange_length rm rl ru,
        fun p hp => rfl, ?_, ?_, ?_⟩
      · intro p hp
        rw [modGet_markRange rm rl ru (by omega) (by omega) p, if_neg (by omega)]
      · rw [hL1, hRsplit, ← hP', ← hS, List.nil_append,
          ← segI_split L h1 (by omega) (by omega)]
      · rw [hL1]
        have hLfull : segI L ll0 lu0 = segI L ll0 lu ++ ([] ++ segI L lu lu0) := by
          rw [List.nil_append]
          exact segI_split L h1 (by omega) (by omega)
        have hRfull : segI R rl0 ru0 = segI R rl0 rl ++ (segI R rl ru ++ segI R ru ru0) := by
          rw [← segI_split R (by omega : (0 : Int) ≤ rl) hrlru hruru0]
          exact segI_split R h4 hrl0rl (by omega)
        rw [hLfull, hRfull, ← hP', ← hS, lcsLen_sandwich, lcsLen_nil_left]
        simp only [List.length_append, List.length_nil]
        omega
    · by_cases hbase2 : rl = ru
      · -- right side of the trimmed rectangle is empty: mark the left span
        have hfinal : lcsAux L R lhsLen rhsLen (fuel + 1) ll0 lu0 rl0 ru0 lm rm =
            some (markRange lm ll lu, rm) := by
          simp only [lcsAux, hf', he']
          rw [if_neg hbase1, if_pos hbase2]
        have hP' : segI L ll0 ll = segI R rl0 ru := by rw [← hbase2]; exact hP
        have hLa : unmI L (markRange lm ll lu) ll0 ll = segI L ll0 ll :=
          unmI_all_false L h1 (by omega)
            (fun p hp1 hp2 => by
              rw [modGet_markRange lm ll lu (by omega) (by omega) p, if_neg (by omega)]
              exact hcl p (by omega) (by omega))
        have hLb : unmI L (markRange lm ll lu) ll lu = [] :=
          unmI_all_true L (by omega) (by omega)
            (fun p hp1 hp2 => by
              rw [modGet_markRange lm ll lu (by omega) (by omega) p, if_pos ⟨hp1, hp2⟩])
        have hLc : unmI L (markRange lm ll lu) lu lu0 = segI L lu lu0 :=
          unmI_all_false L (by omega) h3
            (fun p hp1 hp2 => by
              rw [modGet_markRange lm ll lu (by omega) (by omega) p, if_neg (by omega)]
              exact hcl p (by omega) hp2)
        have hLsplit : unmI L (markRange lm ll lu) ll0 lu0 =
            segI L ll0 ll ++ ([] ++ segI L lu lu0) := by
          rw [unmI_split L (markRange lm ll lu) h1 tf1 (by omega) h3,
            unmI_split L (markRange lm ll lu) (by omega : (0 : Int) ≤ ll) hlllu (by omega) h3,
            hLa, hLb, hLc]
        have hR1 : unmI R rm rl0 ru0 = segI R rl0 ru0 := unmI_all_false R h4 h6 hcr
        refine ⟨markRange lm ll lu, rm, hfinal, markRange_length lm ll lu, rfl, ?_,
          fun p hp => rfl, ?_, ?_⟩
        · intro p hp
          rw [modGet_markRange lm ll lu (by omega) (by omega) p, if_neg (by omega)]
        · rw [hLsplit, hR1, hP', hS, List.nil_append,
            ← segI_split R h4 (by omega) (by omega)]
        · rw [hLsplit]
          have hLfull : segI L ll0 lu0 = segI L ll0 ll ++ (segI L ll lu ++ segI L lu lu0) := by
            rw [← segI_split L (by omega : (0 : Int) ≤ ll) hlllu (by omega)]
            exact segI_split L h1 tf1 (by omega)
          have hRfull : segI R rl0 ru0 = segI R rl0 rl ++ ([] ++ segI R ru ru0) := by
            rw [show ([] : List Nat) = segI R rl ru from (segI_nil (by omega)).symm,
              ← segI_split R (by omega : (0 : Int) ≤ rl) hrlru hruru0]
            exact segI_split R h4 hrl0rl (by omega)
          rw [hLfull, hRfull, ← hP, ← hS, lcsLen_sandwich, lcsLen_nil_right]
          simp only [List.length_append, List.length_nil]
          omega
      · -- both sides nonempty: split at the middle snake and recurse
        have hlllu2 : ll < lu := lt_of_le_of_ne hlllu hbase1
        have hrlru2 : rl < ru := lt_of_le_of_ne hrlru hbase2
        have hc1 : getI L ll ≠ getI R rl :=
          fun hcon => tf5n ⟨by omega, by omega, hcon⟩
        have hc2 : getI L (lu - 1) ≠ getI R (ru - 1) :=
          fun hcon => te5n ⟨hlllu2, hrlru2, hcon⟩
        obtain ⟨px, py, hret, hsx1, hsx2, hsy1, hsy2, hint1, hint2, hlcs⟩ :=
          getShortestMiddleSnake_spec L lhsLen ll lu R rhsLen rl ru
            (by omega) hlllu2 (by omega) (by omega) hrlru2 (by omega) hc1 hc2
        obtain ⟨ms1, ms2, hrec1, hlen1a, hlen1b, hout1a, hout1b, heq1, hcnt1⟩ :=
          ih ll px rl py lm rm (by omega) hsx1 (by omega) (by omega) hsy1 (by omega)
            (by omega) (by omega)
            (fun p hp1 hp2 => hcl p (by omega) (by omega))
            (fun p hp1 hp2 => hcr p (by omega) (by omega))
            (by omega)
        obtain ⟨lm2, rm2, hrec2, hlen2a, hlen2b, hout2a, hout2b, heq2, hcnt2⟩ :=
          ih px lu py ru ms1 ms2 (by omega) hsx2 (by omega) (by omega) hsy2 (by omega)
            (by rw [show ((ms1.length : Int)) = ((lm.length : Int)) by rw [hlen1a]]; omega)
            (by rw [show ((ms2.length : Int)) = ((rm.length : Int)) by rw [hlen1b]]; omega)
            (fun p hp1 hp2 => by
              rw [hout1a p (Or.inr (by omega))]
              exact hcl p (by omega) (by omega))
            (fun p hp1 hp2 => by
              rw [hout1b p (Or.inr (by omega))]
              exact hcr p (by omega) (by omega))
            (by omega)
        have hfinal : lcsAux L R lhsLen rhsLen (fuel + 1) ll0 lu0 rl0 ru0 lm rm =
            some (lm2, rm2) := by
          have h1step : lcsAux L R lhsLen rhsLen (fuel + 1) ll0 lu0 rl0 ru0 lm rm =
              match getShortestMiddleSnake L lhsLen ll lu R rhsLen rl ru with
              | none => none
              | some p =>
                match lcsAux L R lhsLen rhsLen fuel ll p.1 rl p.2 lm rm with
                | none => none
                | some ms => lcsAux L R lhsLen rhsLen fuel p.1 lu p.2 ru ms.1 ms.2 := by
            simp only [lcsAux, hf', he']
            rw [if_neg hbase1, if_neg hbase2]
          rw [h1step]
          simp only [hret, hrec1]
          exact hrec2
        have hfrontL : unmI L lm2 ll0 ll = segI L ll0 ll :=
          unmI_all_false L h1 (by omega)
            (fun p hp1 hp2 => by
              rw [hout2a p (Or.inl (by omega)), hout1a p (Or.inl (by omega))]
              exact hcl p (by omega) (by omega))
        have hfrontR : unmI R rm2 rl0 rl = segI R rl0 rl :=
          unmI_all_false R h4 (by omega)
            (fun p hp1 hp2 => by
              rw [hout2b p (Or.inl (by omega)), hout1b p (Or.inl (by omega))]
              exact hcr p (by omega) (by omega))
        have hbackL : unmI L lm2 lu lu0 = segI L lu lu0 :=
          unmI_all_false L (by omega) h3
            (fun p hp1 hp2 => by
              rw [hout2a p (Or.inr (by omega)), hout1a p (Or.inr (by omega))]
              exact hcl p (by omega) (by omega))
        have hbackR : unmI R rm2 ru ru0 = segI R ru ru0 :=
          unmI_all_false R (by omega) h6
            (fun p hp1 hp2 => by
              rw [hout2b p (Or.inr (by omega)), hout1b p (Or.inr (by omega))]
              exact hcr p (by omega) (by omega))
        have hmidL1 : unmI L lm2 ll px = unmI L ms1 ll px :=
          unmI_congr L (by omega) (by omega)
            (fun p hp1 hp2 => hout2a p (Or.inl (by omega)))
        have hmidR1 : unmI R rm2 rl py = unmI R ms2 rl py :=
          unmI_congr R (by omega) (by omega)
            (fun p hp1 hp2 => hout2b p (Or.inl (by omega)))
        have hsplitL : unmI L lm2 ll0 lu0 =
            unmI L lm2 ll0 ll ++ (unmI L lm2 ll px ++ (unmI L lm2 px lu ++ unmI L lm2 lu lu0)) := by
          rw [unmI_split L lm2 h1 tf1 (by omega) h3,
            unmI_split L lm2 (by omega : (0 : Int) ≤ ll) hsx1 (by omega) h3,
            unmI_split L lm2 (by omega : (0 : Int) ≤ px) hsx2 (by omega) h3]
        have hsplitR : unmI R rm2 rl0 ru0 =
            unmI R rm2 rl0 rl ++ (unmI R rm2 rl py ++ (unmI R rm2 py ru ++ unmI R rm2 ru ru0)) := by
          rw [unmI_split R rm2 h4 hrl0rl (by omega) h6,
            unmI_split R rm2 (by omega : (0 : Int) ≤ rl) hsy1 (by omega) h6,
            unmI_split R rm2 (by omega : (0 : Int) ≤ py) hsy2 (by omega) h6]
        refine ⟨lm2, rm2, hfinal, hlen2a.trans hlen1a, hlen2b.trans hlen1b, ?_, ?_, ?_, ?_⟩
        · intro p hp
          rw [hout2a p (by omega), hout1a p (by omega)]
        · intro p hp
          rw [hout2b p (by omega), hout1b p (by omega)]
        · rw [hsplitL, hsplitR, hfrontL, hfrontR, hbackL, hbackR, hmidL1, hmidR1,
            heq1, heq2, hP, hS]
        · rw [hsplitL, hfrontL, hbackL, hmidL1]
          simp only [List.length_append]
          have hLfull : segI L ll0 lu0 = segI L ll0 ll ++ (segI L ll lu ++ segI L lu lu0) := by
            rw [← segI_split L (by omega : (0 : Int) ≤ ll) hlllu (by omega)]
            exact segI_split L h1 tf1 (by omega)
          have hRfull : segI R rl0 ru0 = segI R rl0 rl ++ (segI R rl ru ++ segI R ru ru0) := by
            rw [← segI_split R (by omega : (0 : Int) ≤ rl) hrlru hruru0]
            exact segI_split R h4 hrl0rl (by omega)
          rw [hLfull, hRfull, ← hP, ← hS, lcsLen_sandwich, hcnt1, hcnt2]
          omega

/-! ## Counting unmarked and uncovered positions -/

theorem segI_zero_len (cs : List Nat) : segI cs 0 (cs.length : Int) = cs := by
  unfold segI
  simp

theorem unmI_zero_len (cs : List Nat) (m : List Bool) :
    unmI cs m 0 (cs.length : Int) = unmarkedCodes cs m := by
  unfold unmI unmarkedCodes
  rw [segI_zero_len]
  rfl

theorem range'_split (a c b : Nat) (h1 : a ≤ c) (h2 : c ≤ b) :
    List.range' a (b - a) = List.range' a (c - a) ++ List.range' c (b - c) := by
  have h := List.range'_append a (c - a) (b - c) 1
  rw [show a + 1 * (c - a) = c by omega, show (b - c) + (c - a) = b - a by omega] at h
  exact h.symm

theorem range'_cons_of_lt {a b : Nat} (h : a < b) :
    List.range' a (b - a) = a :: List.range' (a + 1) (b - (a + 1)) := by
  rw [show b - a = (b - (a + 1)) + 1 by omega]
  exact List.range'_succ a (b - (a + 1)) 1

theorem countP_not_add (p : Nat → Bool) :
    ∀ l : List Nat, l.countP p + l.countP (fun a => !(p a)) = l.length := by
  intro l
  induction l with
  | nil => rfl
  | cons a l ih =>
    rw [List.countP_cons, List.countP_cons, List.length_cons]
    cases hpa : p a <;> simp [hpa] <;> omega

theorem countP_mem_of_sublist {A l : List Nat} (hsub : A.Sublist l) (hnd : l.Nodup) :
    l.countP (fun x => decide (x ∈ A)) = A.length := by
  rw [List.countP_eq_length_filter]
  have hperm : (l.filter (fun x => decide (x ∈ A))).Perm A := by
    refine (List.perm_ext_iff_of_nodup (List.Nodup.filter _ hnd)
      (List.Nodup.sublist hsub hnd)).mpr ?_
    intro a
    rw [List.mem_filter]
    constructor
    · intro h
      simpa using h.2
    · intro h
      exact ⟨hsub.subset h, by simpa using h⟩
  exact hperm.length_eq

/-- The number of unmarked positions among `[i, i + cs.length)` equals the
length of the unmarked-codes extraction over that range. -/
theorem unmarkedCodesFrom_length (m : List Bool) :
    ∀ (cs : List Nat) (i : Nat),
      (unmarkedCodesFrom m i cs).length =
        (List.range' i cs.length).countP (fun p : Nat => !(modGet m (p : Int))) := by
  intro cs
  induction cs with
  | nil => intro i; rfl
  | cons c cs ih =>
    intro i
    show (if modGet m (i : Int) = true then unmarkedCodesFrom m (i + 1) cs
      else c :: unmarkedCodesFrom m (i + 1) cs).length =
      (List.range' i (c :: cs).length).countP (fun p : Nat => !(modGet m (p : Int)))
    rw [List.length_cons, List.range'_succ, List.countP_cons]
    by_cases hm : modGet m (i : Int) = true
    · rw [if_pos hm, ih (i + 1)]
      simp [hm]
    · rw [if_neg hm, List.length_cons, ih (i + 1)]
      have hf : modGet m (i : Int) = false := by
        cases h : modGet m (i : Int)
        · rfl
        · exact absurd h hm
      simp [hf]

/-! ## Every covered position is marked (`compare_lcs` touches only
modified positions when neither side is exhausted, and a balanced marking
leaves no unmarked position once one side is exhausted) -/

/-- Positions consumed by the `lhs_line` advance loop satisfy its guard. -/
theorem advLAux_guard (lm : List Bool) (llen rlen r : Nat) :
    ∀ (fuel l p : Nat), l ≤ p → p < advLAux lm llen rlen r fuel l →
      p < llen ∧ (rlen ≤ r ∨ modGet lm p = true) := by
  intro fuel
  induction fuel with
  | zero =>
    intro l p h1 h2
    have h2n : p < l := h2
    omega
  | succ fuel ih =>
    intro l p h1 h2
    by_cases hg : l < llen ∧ (rlen ≤ r ∨ modGet lm l = true)
    · have hadv : advLAux lm llen rlen r (fuel + 1) l = advLAux lm llen rlen r fuel (l + 1) := by
        show (if l < llen ∧ (rlen ≤ r ∨ modGet lm l = true) then
          advLAux lm llen rlen r fuel (l + 1) else l) = _
        rw [if_pos hg]
      rw [hadv] at h2
      by_cases hpl : p = l
      · subst hpl
        exact hg
      · exact ih (l + 1) p (by omega) h2
    · have hadv : advLAux lm llen rlen r (fuel + 1) l = l := by
        show (if l < llen ∧ (rlen ≤ r ∨ modGet lm l = true) then
          advLAux lm llen rlen r fuel (l + 1) else l) = _
        rw [if_neg hg]
      rw [hadv] at h2
      omega

/-- Positions consumed by the `rhs_line` advance loop satisfy its guard. -/
theorem advRAux_guard (rm : List Bool) (llen rlen l : Nat) :
    ∀ (fuel r p : Nat), r ≤ p → p < advRAux rm llen rlen l fuel r →
      p < rlen ∧ (llen ≤ l ∨ modGet rm p = true) := by
  intro fuel
  induction fuel with
  | zero =>
    intro r p h1 h2
    have h2n : p < r := h2
    omega
  | succ fuel ih =>
    intro r p h1 h2
    by_cases hg : r < rlen ∧ (llen ≤ l ∨ modGet rm r = true)
    · have hadv : advRAux rm llen rlen l (fuel + 1) r = advRAux rm llen rlen l fuel (r + 1) := by
        show (if r < rlen ∧ (llen ≤ l ∨ modGet rm r = true) then
          advRAux rm llen rlen l fuel (r + 1) else r) = _
        rw [if_pos hg]
      rw [hadv] at h2
      by_cases hpr : p = r
      · subst hpr
        exact hg
      · exact ih (r + 1) p (by omega) h2
    · have hadv : advRAux rm llen rlen l (fuel + 1) r = r := by
        show (if r < rlen ∧ (llen ≤ l ∨ modGet rm r = true) then
          advRAux rm llen rlen l fuel (r + 1) else r) = _
        rw [if_neg hg]
      rw [hadv] at h2
      omega

/-- Every position covered by a delete span is marked modified on the left, and
every position covered by an add span is marked modified on the right, provided
the markers leave equally many unmarked positions on the two remaining
ranges (which the LCS marking guarantees). -/
theorem compareLcsAux_covered (lm : List Bool) (llen : Nat) (rm : List Bool) (rlen : Nat) :
    ∀ (fuel l r : Nat), l ≤ llen → r ≤ rlen →
      (List.range' l (llen - l)).countP (fun p : Nat => !(modGet lm (p : Int))) =
        (List.range' r (rlen - r)).countP (fun p : Nat => !(modGet rm (p : Int))) →
      (∀ p ∈ coveredL (compareLcsAux lm llen rm rlen fuel l r), modGet lm (p : Int) = true) ∧
      (∀ p ∈ coveredR (compareLcsAux lm llen rm rlen fuel l r), modGet rm (p : Int) = true) := by
  intro fuel
  induction fuel with
  | zero =>
    intro l r hL hR hbal
    refine ⟨fun p hp => ?_, fun p hp => ?_⟩
    · have hp2 : p ∈ coveredL ([] : List ChangeItem) := hp
      simp [coveredL] at hp2
    · have hp2 : p ∈ coveredR ([] : List ChangeItem) := hp
      simp [coveredR] at hp2
  | succ fuel ih =>
    intro l r hL hR hbal
    by_cases hc0 : l < llen ∨ r < rlen
    · by_cases hlock : l < llen ∧ modGet lm (l : Int) = false ∧ r < rlen ∧
          modGet rm (r : Int) = false
      · have hunf : compareLcsAux lm llen rm rlen (fuel + 1) l r =
            compareLcsAux lm llen rm rlen fuel (l + 1) (r + 1) := by
          conv_lhs => rw [compareLcsAux]
          rw [if_pos hc0, if_pos hlock]
        rw [hunf]
        obtain ⟨hll, hml, hrr, hmr⟩ := hlock
        refine ih (l + 1) (r + 1) (by omega) (by omega) ?_
        rw [range'_cons_of_lt hll, range'_cons_of_lt hrr, List.countP_cons,
          List.countP_cons] at hbal
        simp only [hml, hmr] at hbal
        omega
      · have hunf : compareLcsAux lm llen rm rlen (fuel + 1) l r =
            (if l < advLhs lm llen rlen l r ∨
                r < advRhs rm llen rlen (advLhs lm llen rlen l r) r then
              mkItem llen rlen l r (advLhs lm llen rlen l r)
                  (advRhs rm llen rlen (advLhs lm llen rlen l r) r) ::
                compareLcsAux lm llen rm rlen fuel (advLhs lm llen rlen l r)
                  (advRhs rm llen rlen (advLhs lm llen rlen l r) r)
            else
              compareLcsAux lm llen rm rlen fuel (advLhs lm llen rlen l r)
                (advRhs rm llen rlen (advLhs lm llen rlen l r) r)) := by
          conv_lhs => rw [compareLcsAux]
          rw [if_pos hc0, if_neg hlock]
        have hge1 : l ≤ advLhs lm llen rlen l r := advLhs_ge lm llen rlen l r
        have hle1 : advLhs lm llen rlen l r ≤ llen := advLhs_le lm llen rlen l r hL
        have hge2 : r ≤ advRhs rm llen rlen (advLhs lm llen rlen l r) r :=
          advRhs_ge rm llen rlen (advLhs lm llen rlen l r) r
        have hle2 : advRhs rm llen rlen (advLhs lm llen rlen l r) r ≤ rlen :=
          advRhs_le rm llen rlen (advLhs lm llen rlen l r) r hR
        have hallL : ∀ p, l ≤ p → p < advLhs lm llen rlen l r →
            modGet lm (p : Int) = true := by
          intro p h1 h2
          obtain ⟨hpl, hg⟩ := advLAux_guard lm llen rlen r (llen - l) l p h1 h2
          rcases hg with hg | hg
          · have h0 : rlen - r = 0 := by omega
            rw [h0] at hbal
            have hz : (List.range' l (llen - l)).countP
                (fun p : Nat => !(modGet lm (p : Int))) = 0 := by
              rw [hbal]
              simp
            have hnp := (List.countP_eq_zero.mp hz) p (mem_range'_of h1 (by omega))
            simpa using hnp
          · exact hg
        have hsplitL : List.range' l (llen - l) =
            List.range' l (advLhs lm llen rlen l r - l) ++
              List.range' (advLhs lm llen rlen l r) (llen - advLhs lm llen rlen l r) :=
          range'_split l (advLhs lm llen rlen l r) llen hge1 hle1
        have hz1 : (List.range' l (advLhs lm llen rlen l r - l)).countP
            (fun p : Nat => !(modGet lm (p : Int))) = 0 := by
          rw [List.countP_eq_zero]
          intro a ha
          obtain ⟨ha1, ha2⟩ := mem_range'_bounds ha
          have hm := hallL a ha1 (by omega)
          simp [hm]
        have hallR : ∀ p, r ≤ p → p < advRhs rm llen rlen (advLhs lm llen rlen l r) r →
            modGet rm (p : Int) = true := by
          intro p h1 h2
          obtain ⟨hpr, hg⟩ := advRAux_guard rm llen rlen (advLhs lm llen rlen l r)
            (rlen - r) r p h1 h2
          rcases hg with hg | hg
          · have hz : (List.range' r (rlen - r)).countP
                (fun p : Nat => !(modGet rm (p : Int))) = 0 := by
              rw [← hbal, hsplitL, List.countP_append, hz1,
                show llen - advLhs lm llen rlen l r = 0 by omega]
              simp
            have hnp := (List.countP_eq_zero.mp hz) p (mem_range'_of h1 (by omega))
            simpa using hnp
          · exact hg
        have hz2 : (List.range' r
            (advRhs rm llen rlen (advLhs lm llen rlen l r) r - r)).countP
            (fun p : Nat => !(modGet rm (p : Int))) = 0 := by
          rw [List.countP_eq_zero]
          intro a ha
          obtain ⟨ha1, ha2⟩ := mem_range'_bounds ha
          have hm := hallR a ha1 (by omega)
          simp [hm]
        have hsplitR : List.range' r (rlen - r) =
            List.range' r (advRhs rm llen rlen (advLhs lm llen rlen l r) r - r) ++
              List.range' (advRhs rm llen rlen (advLhs lm llen rlen l r) r)
                (rlen - advRhs rm llen rlen (advLhs lm llen rlen l r) r) :=
          range'_split r (advRhs rm llen rlen (advLhs lm llen rlen l r) r) rlen hge2 hle2
        have hbal2 : (List.range' (advLhs lm llen rlen l r)
              (llen - advLhs lm llen rlen l r)).countP
              (fun p : Nat => !(modGet lm (p : Int))) =
            (List.range' (advRhs rm llen rlen (advLhs lm llen rlen l r) r)
              (rlen - advRhs rm llen rlen (advLhs lm llen rlen l r) r)).countP
              (fun p : Nat => !(modGet rm (p : Int))) := by
          rw [hsplitL, hsplitR, List.countP_append, List.countP_append, hz1, hz2] at hbal
          omega
        obtain ⟨ihL, ihR⟩ := ih (advLhs lm llen rlen l r)
          (advRhs rm llen rlen (advLhs lm llen rlen l r) r) hle1 hle2 hbal2
        rw [hunf]
        by_cases hemit : l < advLhs lm llen rlen l r ∨
            r < advRhs rm llen rlen (advLhs lm llen rlen l r) r
        · rw [if_pos hemit]
          refine ⟨fun p hp => ?_, fun p hp => ?_⟩
          · rw [coveredL_cons] at hp
            rcases List.mem_append.mp hp with hp | hp
            · have hdel : (mkItem llen rlen l r (advLhs lm llen rlen l r)
                  (advRhs rm llen rlen (advLhs lm llen rlen l r) r)).del =
                  advLhs lm llen rlen l r - l := rfl
              by_cases hadv : l < advLhs lm llen rlen l r
              · have hlll : l < llen := (advLAux_guard lm llen rlen r (llen - l) l l
                  (le_refl l) hadv).1
                have hat : (mkItem llen rlen l r (advLhs lm llen rlen l r)
                    (advRhs rm llen rlen (advLhs lm llen rlen l r) r)).lhsAt = l := by
                  show min l (if llen = 0 then 0 else llen - 1) = l
                  rw [if_neg (by omega)]
                  exact min_eq_left (by omega)
                rw [hat, hdel] at hp
                obtain ⟨hp1, hp2⟩ := mem_range'_bounds hp
                exact hallL p hp1 (by omega)
              · rw [hdel, show advLhs lm llen rlen l r - l = 0 by omega] at hp
                simp at hp
            · exact ihL p hp
          · rw [coveredR_cons] at hp
            rcases List.mem_append.mp hp with hp | hp
            · have hadd : (mkItem llen rlen l r (advLhs lm llen rlen l r)
                  (advRhs rm llen rlen (advLhs lm llen rlen l r) r)).add =
                  advRhs rm llen rlen (advLhs lm llen rlen l r) r - r := rfl
              by_cases hadv : r < advRhs rm llen rlen (advLhs lm llen rlen l r) r
              · have hrrr : r < rlen := (advRAux_guard rm llen rlen
                  (advLhs lm llen rlen l r) (rlen - r) r r (le_refl r) hadv).1
                have hat : (mkItem llen rlen l r (advLhs lm llen rlen l r)
                    (advRhs rm llen rlen (advLhs lm llen rlen l r) r)).rhsAt = r := by
                  show min r (if rlen = 0 then 0 else rlen - 1) = r
                  rw [if_neg (by omega)]
                  exact min_eq_left (by omega)
                rw [hat, hadd] at hp
                obtain ⟨hp1, hp2⟩ := mem_range'_bounds hp
                exact hallR p hp1 (by omega)
              · rw [hadd,
                  show advRhs rm llen rlen (advLhs lm llen rlen l r) r - r = 0 by omega] at hp
                simp at hp
            · exact ihR p hp
        · rw [if_neg hemit]
          exact ⟨ihL, ihR⟩
    · have hunf : compareLcsAux lm llen rm rlen (fuel + 1) l r = [] := by
        conv_lhs => rw [compareLcsAux]
        rw [if_neg hc0]
      rw [hunf]
      refine ⟨fun p hp => ?_, fun p hp => ?_⟩
      · simp [coveredL] at hp
      · simp [coveredR] at hp

/-- `Myers.LCS` on fresh (all-`false`) markers always succeeds, and the
resulting unmarked code sequences of the two sides agree and have exactly the
LCS length. -/
theorem LCS_total (L R : List Nat) :
    ∃ lm2 rm2,
      LCS (List.replicate L.length false) L L.length
          (List.replicate R.length false) R R.length = some (lm2, rm2) ∧
      lm2.length = L.length ∧ rm2.length = R.length ∧
      unmarkedCodes L lm2 = unmarkedCodes R rm2 ∧
      (unmarkedCodes L lm2).Sublist L ∧
      (unmarkedCodes R rm2).Sublist R ∧
      (unmarkedCodes L lm2).length = lcsLen L R ∧
      (unmarkedCodes R rm2).length = lcsLen L R := by
  obtain ⟨lm2, rm2, hret, hlen1, hlen2, _, _, heq, hcnt⟩ :=
    lcsAux_spec L R L.length R.length (L.length + R.length + 1)
      0 (L.length : Int) 0 (R.length : Int)
      (List.replicate L.length false) (List.replicate R.length false)
      (le_refl 0) (by omega) (le_refl _) (le_refl 0) (by omega) (le_refl _)
      (by simp) (by simp)
      (fun p _ _ => modGet_replicate L.length p)
      (fun p _ _ => modGet_replicate R.length p)
      (by omega)
  rw [unmI_zero_len, unmI_zero_len] at heq
  rw [unmI_zero_len, segI_zero_len, segI_zero_len] at hcnt
  have hsubL := unmI_sublist L lm2 0 (L.length : Int)
  rw [unmI_zero_len, segI_zero_len] at hsubL
  have hsubR := unmI_sublist R rm2 0 (R.length : Int)
  rw [unmI_zero_len, segI_zero_len] at hsubR
  have hcntR : (unmarkedCodes R rm2).length = lcsLen L R := by
    rw [← heq]
    exact hcnt
  refine ⟨lm2, rm2, hret, ?_, ?_, heq, hsubL, hsubR, hcnt, hcntR⟩
  · rw [hlen1]
    simp
  · rw [hlen2]
    simp

/-- **C1.** After `Myers.LCS` runs on the two interned code sequences (with
the fresh all-`false` marker tables the encoder builds), the codes at the
positions not marked modified on the left and those on the right, each read in
increasing position order, are the same sequence; that common sequence is a
common subsequence of both code sequences and no common subsequence of the two
is longer — it is a longest common subsequence, of length `lcsLen L R`. -/
theorem LCS_unmarked_is_lcs (L R : List Nat) :
    ∃ lm2 rm2,
      LCS (List.replicate L.length false) L L.length
          (List.replicate R.length false) R R.length = some (lm2, rm2) ∧
      unmarkedCodes L lm2 = unmarkedCodes R rm2 ∧
      (unmarkedCodes L lm2).Sublist L ∧
      (unmarkedCodes R rm2).Sublist R ∧
      (unmarkedCodes L lm2).length = lcsLen L R ∧
      (∀ ws : List Nat, ws.Sublist L → ws.Sublist R →
        ws.length ≤ (unmarkedCodes L lm2).length) := by
  obtain ⟨lm2, rm2, hret, _, _, heq, hsubL, hsubR, hlenL, _⟩ := LCS_total L R
  refine ⟨lm2, rm2, hret, heq, hsubL, hsubR, hlenL, fun ws h1 h2 => ?_⟩
  rw [hlenL]
  exact lcsLen_ub L R ws h1 h2

/-- **C9.** On a well-formed trimmed rectangle — valid bounds, both ranges
non-empty, and differing first and last codes, exactly the state in which
`getLongestCommonSubsequence` calls it — `getShortestMiddleSnake` finds and
returns a midpoint inside the rectangle; it never reaches the
`unexpected state` throw (modelled by `none`). -/
theorem sms_finds_midpoint (L : List Nat) (lhsLen : Nat) (ll lu : Int)
    (R : List Nat) (rhsLen : Nat) (rl ru : Int)
    (h1 : 0 ≤ ll) (h2 : ll < lu) (h3 : lu ≤ (L.length : Int))
    (h4 : 0 ≤ rl) (h5 : rl < ru) (h6 : ru ≤ (R.length : Int))
    (hc1 : getI L ll ≠ getI R rl) (hc2 : getI L (lu - 1) ≠ getI R (ru - 1)) :
    ∃ px py, getShortestMiddleSnake L lhsLen ll lu R rhsLen rl ru = some (px, py) ∧
      ll ≤ px ∧ px ≤ lu ∧ rl ≤ py ∧ py ≤ ru := by
  obtain ⟨px, py, hret, hb1, hb2, hb3, hb4, _, _, _⟩ :=
    getShortestMiddleSnake_spec L lhsLen ll lu R rhsLen rl ru h1 h2 h3 h4 h5 h6 hc1 hc2
  exact ⟨px, py, hret, hb1, hb2, hb3, hb4⟩

theorem sms_finds_midpoint_witness :
    ∃ px py, getShortestMiddleSnake [1, 2] 2 0 2 [3, 4] 2 0 2 = some (px, py) ∧
      (0 : Int) ≤ px ∧ px ≤ 2 ∧ (0 : Int) ≤ py ∧ py ≤ 2 :=
  sms_finds_midpoint [1, 2] 2 0 2 [3, 4] 2 0 2 (by decide) (by decide) (by decide)
    (by decide) (by decide) (by decide) (by decide) (by decide)

/-- The conservation equations for the change list `compare_lcs` builds from
LCS markers whose unmarked counts agree on the two sides. -/
theorem conservation_core (A B : List Nat) (lm2 rm2 : List Bool)
    (hlenL : (unmarkedCodes A lm2).length = lcsLen A B)
    (hlenR : (unmarkedCodes B rm2).length = lcsLen A B) :
    (List.range' 0 A.length).countP
        (fun p : Nat => decide (p ∉ coveredL (compareLcs lm2 A.length rm2 B.length))) =
      (List.range' 0 B.length).countP
        (fun p : Nat => decide (p ∉ coveredR (compareLcs lm2 A.length rm2 B.length))) ∧
    (List.range' 0 A.length).countP
        (fun p : Nat => decide (p ∉ coveredL (compareLcs lm2 A.length rm2 B.length))) =
      lcsLen A B ∧
    A.length - (List.range' 0 A.length).countP
        (fun p : Nat => decide (p ∉ coveredL (compareLcs lm2 A.length rm2 B.length))) =
      ((compareLcs lm2 A.length rm2 B.length).map (fun it => it.del)).sum ∧
    B.length - (List.range' 0 B.length).countP
        (fun p : Nat => decide (p ∉ coveredR (compareLcs lm2 A.length rm2 B.length))) =
      ((compareLcs lm2 A.length rm2 B.length).map (fun it => it.add)).sum := by
  have hspec : ItemsSpec lm2 A.length rm2 B.length 0 0
      (compareLcs lm2 A.length rm2 B.length) :=
    compareLcsAux_spec lm2 A.length rm2 B.length (A.length + B.length + 1) 0 0
      (Nat.zero_le _) (Nat.zero_le _) (by omega)
  obtain ⟨hsL, hsR, hunL, hunR, _, _, _, _, _, _, _⟩ := hspec
  have e1 : (unmarkedCodes A lm2).length =
      (List.range' 0 A.length).countP (fun p : Nat => !(modGet lm2 (p : Int))) :=
    unmarkedCodesFrom_length lm2 A 0
  have e2 : (unmarkedCodes B rm2).length =
      (List.range' 0 B.length).countP (fun p : Nat => !(modGet rm2 (p : Int))) :=
    unmarkedCodesFrom_length rm2 B 0
  have hbal0 : (List.range' 0 (A.length - 0)).countP
      (fun p : Nat => !(modGet lm2 (p : Int))) =
      (List.range' 0 (B.length - 0)).countP (fun p : Nat => !(modGet rm2 (p : Int))) := by
    rw [Nat.sub_zero, Nat.sub_zero, ← e1, ← e2, hlenL, hlenR]
  have hcov := compareLcsAux_covered lm2 A.length rm2 B.length (A.length + B.length + 1)
    0 0 (Nat.zero_le _) (Nat.zero_le _) hbal0
  have hcovL : ∀ p ∈ coveredL (compareLcs lm2 A.length rm2 B.length),
      modGet lm2 (p : Int) = true := hcov.1
  have hcovR : ∀ p ∈ coveredR (compareLcs lm2 A.length rm2 B.length),
      modGet rm2 (p : Int) = true := hcov.2
  have hiffL : ∀ p : Nat, p < A.length →
      ((p ∈ coveredL (compareLcs lm2 A.length rm2 B.length)) ↔
        modGet lm2 (p : Int) = true) := by
    intro p hp
    constructor
    · exact fun hc => hcovL p hc
    · intro hm
      by_contra hnc
      have hfalse := hunL p (Nat.zero_le p) hp hnc
      rw [hfalse] at hm
      exact Bool.false_ne_true hm
  have hiffR : ∀ p : Nat, p < B.length →
      ((p ∈ coveredR (compareLcs lm2 A.length rm2 B.length)) ↔
        modGet rm2 (p : Int) = true) := by
    intro p hp
    constructor
    · exact fun hc => hcovR p hc
    · intro hm
      by_contra hnc
      have hfalse := hunR p (Nat.zero_le p) hp hnc
      rw [hfalse] at hm
      exact Bool.false_ne_true hm
  have hcntL : (List.range' 0 A.length).countP
      (fun p : Nat => decide (p ∉ coveredL (compareLcs lm2 A.length rm2 B.length))) =
      (List.range' 0 A.length).countP (fun p : Nat => !(modGet lm2 (p : Int))) := by
    apply List.countP_congr
    intro a ha
    obtain ⟨_, ha2⟩ := mem_range'_bounds ha
    have hiff := hiffL a (by omega)
    constructor
    · intro h
      have hnc : a ∉ coveredL (compareLcs lm2 A.length rm2 B.length) :=
        of_decide_eq_true h
      have hmf : modGet lm2 (a : Int) = false := by
        cases hmm : modGet lm2 (a : Int)
        · rfl
        · exact absurd (hiff.mpr hmm) hnc
      simp [hmf]
    · intro h
      have hmf : modGet lm2 (a : Int) = false := by
        cases hmm : modGet lm2 (a : Int)
        · rfl
        · rw [hmm] at h
          exact absurd h (by simp)
      have hnc : a ∉ coveredL (compareLcs lm2 A.length rm2 B.length) := by
        intro hc
        have := hiff.mp hc
        rw [this] at hmf
        exact absurd hmf (by simp)
      exact decide_eq_true hnc
  have hcntR : (List.range' 0 B.length).countP
      (fun p : Nat => decide (p ∉ coveredR (compareLcs lm2 A.length rm2 B.length))) =
      (List.range' 0 B.length).countP (fun p : Nat => !(modGet rm2 (p : Int))) := by
    apply List.countP_congr
    intro a ha
    obtain ⟨_, ha2⟩ := mem_range'_bounds ha
    have hiff := hiffR a (by omega)
    constructor
    · intro h
      have hnc : a ∉ coveredR (compareLcs lm2 A.length rm2 B.length) :=
        of_decide_eq_true h
      have hmf : modGet rm2 (a : Int) = false := by
        cases hmm : modGet rm2 (a : Int)
        · rfl
        · exact absurd (hiff.mpr hmm) hnc
      simp [hmf]
    · intro h
      have hmf : modGet rm2 (a : Int) = false := by
        cases hmm : modGet rm2 (a : Int)
        · rfl
        · rw [hmm] at h
          exact absurd h (by simp)
      have hnc : a ∉ coveredR (compareLcs lm2 A.length rm2 B.length) := by
        intro hc
        have := hiff.mp hc
        rw [this] at hmf
        exact absurd hmf (by simp)
      exact decide_eq_true hnc
  have huncntL : (List.range' 0 A.length).countP
      (fun p : Nat => decide (p ∉ coveredL (compareLcs lm2 A.length rm2 B.length))) =
      lcsLen A B := by
    rw [hcntL, ← e1, hlenL]
  have huncntR : (List.range' 0 B.length).countP
      (fun p : Nat => decide (p ∉ coveredR (compareLcs lm2 A.length rm2 B.length))) =
      lcsLen A B := by
    rw [hcntR, ← e2, hlenR]
  have hsubL0 : (coveredL (compareLcs lm2 A.length rm2 B.length)).Sublist
      (List.range' 0 A.length) := by
    rwa [Nat.sub_zero] at hsL
  have hsubR0 : (coveredR (compareLcs lm2 A.length rm2 B.length)).Sublist
      (List.range' 0 B.length) := by
    rwa [Nat.sub_zero] at hsR
  have hmemL : (List.range' 0 A.length).countP
      (fun x : Nat => decide (x ∈ coveredL (compareLcs lm2 A.length rm2 B.length))) =
      (coveredL (compareLcs lm2 A.length rm2 B.length)).length :=
    countP_mem_of_sublist hsubL0 (List.nodup_range' 0 A.length)
  have hmemR : (List.range' 0 B.length).countP
      (fun x : Nat => decide (x ∈ coveredR (compareLcs lm2 A.length rm2 B.length))) =
      (coveredR (compareLcs lm2 A.length rm2 B.length)).length :=
    countP_mem_of_sublist hsubR0 (List.nodup_range' 0 B.length)
  have hpnL : (List.range' 0 A.length).countP
      (fun x : Nat => decide (x ∈ coveredL (compareLcs lm2 A.length rm2 B.length))) +
      (List.range' 0 A.length).countP
        (fun p : Nat => decide (p ∉ coveredL (compareLcs lm2 A.length rm2 B.length))) =
      A.length := by
    have h := countP_not_add
      (fun x : Nat => decide (x ∈ coveredL (compareLcs lm2 A.length rm2 B.length)))
      (List.range' 0 A.length)
    have hc : (List.range' 0 A.length).countP
        (fun a : Nat => !(decide (a ∈ coveredL (compareLcs lm2 A.length rm2 B.length)))) =
        (List.range' 0 A.length).countP
          (fun p : Nat => decide (p ∉ coveredL (compareLcs lm2 A.length rm2 B.length))) := by
      apply List.countP_congr
      intro x hx
      simp
    rw [hc] at h
    rw [h, List.length_range']
  have hpnR : (List.range' 0 B.length).countP
      (fun x : Nat => decide (x ∈ coveredR (compareLcs lm2 A.length rm2 B.length))) +
      (List.range' 0 B.length).countP
        (fun p : Nat => decide (p ∉ coveredR (compareLcs lm2 A.length rm2 B.length))) =
      B.length := by
    have h := countP_not_add
      (fun x : Nat => decide (x ∈ coveredR (compareLcs lm2 A.length rm2 B.length)))
      (List.range' 0 B.length)
    have hc : (List.range' 0 B.length).countP
        (fun a : Nat => !(decide (a ∈ coveredR (compareLcs lm2 A.length rm2 B.length)))) =
        (List.range' 0 B.length).countP
          (fun p : Nat => decide (p ∉ coveredR (compareLcs lm2 A.length rm2 B.length))) := by
      apply List.countP_congr
      intro x hx
      simp
    rw [hc] at h
    rw [h, List.length_range']
  have hclL := coveredL_length (compareLcs lm2 A.length rm2 B.length)
  have hclR := coveredR_length (compareLcs lm2 A.length rm2 B.length)
  refine ⟨huncntL.trans huncntR.symm, huncntL, ?_, ?_⟩
  · omega
  · omega

/-- **C2.** On present inputs `diff` succeeds, and its change list satisfies
the conservation equations: the number of left positions not covered by any
record's delete span equals the number of right positions not covered by any
record's add span, both equal the LCS length of the two code sequences, and
`leftLen - unmodified = Σ deleteCount`, `rightLen - unmodified = Σ addCount`. -/
theorem diff_conservation (lhs rhs : Input) (settings : Settings)
    (hl : lhs ≠ Input.undef) (hr : rhs ≠ Input.undef) :
    ∃ r : DiffResult, diff lhs rhs settings = Except.ok (some r) ∧
      (List.range' 0 r.lhsCtx.codes.length).countP
          (fun p : Nat => decide (p ∉ coveredL r.changes)) =
        (List.range' 0 r.rhsCtx.codes.length).countP
          (fun p : Nat => decide (p ∉ coveredR r.changes)) ∧
      (List.range' 0 r.lhsCtx.codes.length).countP
          (fun p : Nat => decide (p ∉ coveredL r.changes)) =
        lcsLen r.lhsCtx.codes r.rhsCtx.codes ∧
      r.lhsCtx.codes.length -
          (List.range' 0 r.lhsCtx.codes.length).countP
            (fun p : Nat => decide (p ∉ coveredL r.changes)) =
        (r.changes.map (fun it => it.del)).sum ∧
      r.rhsCtx.codes.length -
          (List.range' 0 r.rhsCtx.codes.length).countP
            (fun p : Nat => decide (p ∉ coveredR r.changes)) =
        (r.changes.map (fun it => it.add)).sum := by
  rw [diff_eq lhs rhs settings hl hr]
  set A := (encodeAll Encoder.init settings (ctxLines settings lhs)).2 with hA
  set E := (encodeAll (encodeAll Encoder.init settings (ctxLines settings lhs)).1 settings
    (ctxLines settings rhs)).1 with hE
  set B := (encodeAll (encodeAll Encoder.init settings (ctxLines settings lhs)).1 settings
    (ctxLines settings rhs)).2 with hB
  obtain ⟨lm2, rm2, hLCS, hl1, hl2, hueq, hsl, hsr, hlenL, hlenR⟩ := LCS_total A B
  rw [hLCS]
  have hcore := conservation_core A B lm2 rm2 hlenL hlenR
  exact ⟨⟨compareLcs lm2 A.length rm2 B.length, ⟨A, lm2⟩, ⟨B, rm2⟩, E⟩, rfl,
    hcore.1, hcore.2.1, hcore.2.2.1, hcore.2.2.2⟩

theorem diff_conservation_witness :
    ∃ r : DiffResult,
      diff (Input.str "a") (Input.str "b") defaultSettings = Except.ok (some r) ∧
      (List.range' 0 r.lhsCtx.codes.length).countP
          (fun p : Nat => decide (p ∉ coveredL r.changes)) =
        (List.range' 0 r.rhsCtx.codes.length).countP
          (fun p : Nat => decide (p ∉ coveredR r.changes)) ∧
      (List.range' 0 r.lhsCtx.codes.length).countP
          (fun p : Nat => decide (p ∉ coveredL r.changes)) =
        lcsLen r.lhsCtx.codes r.rhsCtx.codes ∧
      r.lhsCtx.codes.length -
          (List.range' 0 r.lhsCtx.codes.length).countP
            (fun p : Nat => decide (p ∉ coveredL r.changes)) =
        (r.changes.map (fun it => it.del)).sum ∧
      r.rhsCtx.codes.length -
          (List.range' 0 r.rhsCtx.codes.length).countP
            (fun p : Nat => decide (p ∉ coveredR r.changes)) =
        (r.changes.map (fun it => it.add)).sum :=
  diff_conservation (Input.str "a") (Input.str "b") defaultSettings
    (by decide) (by decide)

end MyersDiff
